import Mathlib

/-!
Verification of the two command-line tools of this repository:
`scripts/version_sync.py` and `scripts/assert_native_target.py`.

Shallow embedding conventions:
* Python strings are modelled as `List Char` (abbreviated `Str`).
* `str.strip()` and the regex class `\s` are modelled over the ASCII
  whitespace characters (space, tab, newline, carriage return, vertical
  tab, form feed), which is what the files handled by the tools contain.
* `str.splitlines()` is modelled over the line terminators `\n`, `\r\n`
  and `\r` (the three terminators the scripts themselves distinguish in
  `split_line_ending`).
* The small anchored regular expressions of the scripts are modelled by
  hand-written deterministic parsers; greedy matching of `\s*`, `[^"]+`
  and `.*` against these patterns is deterministic, so no backtracking is
  needed.  `$` is modelled as Python does for `re.match`: it accepts the
  end of the string, or the position just before a final newline.
* `json.loads`/`json.dumps` are modelled by working directly over a JSON
  document tree (`Json` below); a dump/load round trip is the identity on
  the tree, and the JSON handlers of the script only inspect the tree.
* File IO is modelled by passing file contents (or parsed documents) in
  and returning the new contents, paired with the `bool` result of the
  Python writers.  `VersionSyncError` is modelled by the inductive `Err`,
  one constructor per distinct raise site.
-/

namespace VersionSync

abbrev Str := List Char

/-- Convert a Lean string literal to the `List Char` representation. -/
def str (s : String) : Str := s.data

/-- ASCII whitespace, as stripped by Python `str.strip()` and matched by `\s`. -/
def pySpace (c : Char) : Bool :=
  c == ' ' || c == '\t' || c == '\n' || c == '\r' || c == '\x0b' || c == '\x0c'

/-- Python `str.strip()`: drop whitespace from both ends. -/
def strip (s : Str) : Str :=
  ((s.dropWhile pySpace).reverse.dropWhile pySpace).reverse

/-- A character that terminates a line for `str.splitlines`. -/
def isNL (c : Char) : Bool := c == '\n' || c == '\r'

/-- No line-terminator character occurs in `s`. -/
def noNL (s : Str) : Prop := ∀ c ∈ s, c ≠ '\n' ∧ c ≠ '\r'

/-- One step of `str.splitlines(keepends=True)`: the first line (with its
terminator kept) and the remainder of the string. -/
def firstLine : Str → Str × Str
  | [] => ([], [])
  | c :: rest =>
    if c = '\n' then (['\n'], rest)
    else if c = '\r' then
      if rest.head? = some '\n' then (['\r', '\n'], rest.tail) else (['\r'], rest)
    else
      let p := firstLine rest
      (c :: p.1, p.2)

theorem firstLine_join : ∀ s : Str, (firstLine s).1 ++ (firstLine s).2 = s
  | [] => rfl
  | c :: rest => by
    by_cases h1 : c = '\n'
    · simp [firstLine, h1]
    · by_cases h2 : c = '\r'
      · subst h2
        by_cases h3 : rest.head? = some '\n'
        · rcases rest with _ | ⟨c2, rest2⟩
          · simp at h3
          · simp at h3
            simp [firstLine, h3]
        · simp [firstLine, h3]
      · have := firstLine_join rest
        simp [firstLine, h1, h2, this]

theorem firstLine_rest_length : ∀ s : Str, s ≠ [] → (firstLine s).2.length < s.length
  | [] => by intro h; exact absurd rfl h
  | c :: rest => by
    intro _
    by_cases h1 : c = '\n'
    · simp [firstLine, h1]
    · by_cases h2 : c = '\r'
      · subst h2
        by_cases h3 : rest.head? = some '\n'
        · rcases rest with _ | ⟨c2, rest2⟩
          · simp at h3
          · simp [firstLine, h3]
            omega
        · simp [firstLine, h3]
      · by_cases hr : rest = []
        · subst hr; simp [firstLine, h1, h2]
        · have := firstLine_rest_length rest hr
          simp [firstLine, h1, h2]
          omega

/-- Fuel-based helper for `splitLinesKeep` (structural recursion on the
fuel, so that the kernel can evaluate it; the fuel is immaterial once it
bounds the length, see `splitLinesKeepFuel_congr`). -/
def splitLinesKeepFuel : Nat → Str → List Str
  | _, [] => []
  | 0, _ :: _ => []
  | fuel + 1, c :: rest =>
    (firstLine (c :: rest)).1 :: splitLinesKeepFuel fuel (firstLine (c :: rest)).2

/-- Python `str.splitlines(keepends=True)` over the terminators
`\n`, `\r\n`, `\r`. -/
def splitLinesKeep (s : Str) : List Str := splitLinesKeepFuel s.length s

theorem splitLinesKeepFuel_congr :
    ∀ (f1 f2 : Nat) (s : Str), s.length ≤ f1 → s.length ≤ f2 →
      splitLinesKeepFuel f1 s = splitLinesKeepFuel f2 s := by
  intro f1
  induction f1 with
  | zero =>
    intro f2 s h1 _
    have : s = [] := List.length_eq_zero.mp (Nat.le_zero.mp h1)
    subst this
    cases f2 <;> rfl
  | succ f1 ih =>
    intro f2 s h1 h2
    rcases s with _ | ⟨c, rest⟩
    · cases f2 <;> rfl
    · rcases f2 with _ | f2
      · simp at h2
      · simp only [splitLinesKeepFuel]
        have hlt := firstLine_rest_length (c :: rest) (by simp)
        simp only [List.length_cons] at hlt h1 h2
        have hle : (firstLine (c :: rest)).2.length ≤ f1 := by omega
        have hle2 : (firstLine (c :: rest)).2.length ≤ f2 := by omega
        rw [ih f2 _ hle hle2]

/-- The recurrence `splitLinesKeep` satisfies (the shape of the Python
`splitlines` loop). -/
theorem splitLinesKeep_eq (s : Str) :
    splitLinesKeep s =
      if s = [] then [] else (firstLine s).1 :: splitLinesKeep (firstLine s).2 := by
  rcases s with _ | ⟨c, rest⟩
  · rfl
  · have hlt := firstLine_rest_length (c :: rest) (by simp)
    simp only [List.length_cons] at hlt
    rw [if_neg (by simp : ¬ (c :: rest : Str) = [])]
    simp only [splitLinesKeep, List.length_cons, splitLinesKeepFuel]
    congr 1
    exact splitLinesKeepFuel_congr rest.length (firstLine (c :: rest)).2.length _
      (Nat.lt_succ_iff.mp hlt) Nat.le.refl

/-- `split_line_ending` from `version_sync.py` (lines 73-80): split one
line into its body and its terminator, testing `endswith` for `\r\n`,
then `\n`, then `\r` (`line[:-2]`/`line[:-1]` become `dropLast`). -/
def split_line_ending (line : Str) : Str × Str :=
  if ['\r', '\n'].isSuffixOf line then (line.dropLast.dropLast, ['\r', '\n'])
  else if ['\n'].isSuffixOf line then (line.dropLast, ['\n'])
  else if ['\r'].isSuffixOf line then (line.dropLast, ['\r'])
  else (line, [])

def lineBody (line : Str) : Str := (split_line_ending line).1
def lineEnding (line : Str) : Str := (split_line_ending line).2

/-- Python `str.splitlines()` (without keepends): the bodies of the lines. -/
def splitLines (s : Str) : List Str := (splitLinesKeep s).map lineBody

/-! ### The regular expressions of `version_sync.py`, as deterministic parsers -/

/-- `VersionSyncError`, one constructor per distinct raise site of
`version_sync.py` (payloads carry the data interpolated into the message).
`pyTypeError` stands for a Python `AttributeError` crash on a document of
an unexpected shape (not a `VersionSyncError`). -/
inductive Err where
  | invalidVersion (raw : Str)
  | cannotFindTomlVersion
  | cannotUpdateTomlVersion
  | cannotFindJsonVersion
  | cannotFindTopLevelVersion
  | cannotFindRootPackageVersion
  | packageLockMismatch (topLevel rootPackage : Str)
  | cannotFindPackagesObject
  | missingLockVersion (packageName : Str)
  | cannotFindLockPackage (packageName : Str)
  | cannotUpdateLockPackage (packageName : Str)
  | unexpectedLockVersionFormat
  | invalidSemver (filePath : String) (value : Str)
  | versionMismatchReport (report : Str)
  | invalidTag (tag : Str)
  | tagVersionMismatch (tag version : Str)
  | pyTypeError
deriving DecidableEq

/-- Parse `key\s*=\s*"([^"]+)"` anchored at the start of `s`.  On success,
returns the matched text through the opening quote, the quoted content
(group `[^"]+`), and the remainder of `s` after the closing quote. -/
def keyQuoted (key : Str) (s : Str) : Option (Str × Str × Str) :=
  if key.isPrefixOf s then
    let s1 := s.drop key.length
    let w2 := s1.takeWhile pySpace
    match s1.dropWhile pySpace with
    | '=' :: s2 =>
      let w3 := s2.takeWhile pySpace
      match s2.dropWhile pySpace with
      | '"' :: s3 =>
        let content := s3.takeWhile (fun c => c ≠ '"')
        match s3.dropWhile (fun c => c ≠ '"') with
        | '"' :: rest =>
          if content = [] then none
          else some (key ++ w2 ++ ['='] ++ w3 ++ ['"'], content, rest)
        | _ => none
      | _ => none
    | _ => none
  else none

/-- The tail match `.*$` of the rewrite pattern: succeeds iff `rest`
contains no newline, or exactly one newline as its final character (which
the match then does not consume). -/
def dotStarEnd (rest : Str) : Option Str :=
  if '\n' ∈ rest then
    if rest.getLast? = some '\n' ∧ '\n' ∉ rest.dropLast then some rest.dropLast
    else none
  else some rest

/-- `re.match(r'^\s*version\s*=\s*"([^"]+)"', line)` (reader pattern,
`version_sync.py` line 94): returns group 1. -/
def readTomlMatch (line : Str) : Option Str :=
  (keyQuoted (str (r"version")) (line.dropWhile pySpace)).map (fun g => g.2.1)

/-- `re.match(r'^(\s*version\s*=\s*")([^"]+)(".*)$', body)` (writer rewrite
pattern, `version_sync.py` lines 114 and 264-267): returns the three groups. -/
def writeVersionMatch (body : Str) : Option (Str × Str × Str) :=
  match keyQuoted (str (r"version")) (body.dropWhile pySpace) with
  | none => none
  | some (g, content, rest) =>
    match dotStarEnd rest with
    | none => none
    | some tail => some (body.takeWhile pySpace ++ g, content, '"' :: tail)

/-- `re.match(r'^key\s*=\s*"([^"]+)"$', stripped)`: the anchored key/value
patterns of the lock-format reader/writer. -/
def lockKeyMatch (key : Str) (s : Str) : Option Str :=
  match keyQuoted key s with
  | none => none
  | some (_, content, rest) =>
    if rest = [] ∨ rest = ['\n'] then some content else none

def lockNameMatch (s : Str) : Option Str := lockKeyMatch (str (r"name")) s
def lockVersionMatch (s : Str) : Option Str := lockKeyMatch (str (r"version")) s

/-! ### Semver and tag validation -/

/-- Parse `(0|[1-9][0-9]*)` at the start of `s`; return the remainder. -/
def parseNum (s : Str) : Option Str :=
  let ds := s.takeWhile Char.isDigit
  let rest := s.dropWhile Char.isDigit
  if ds = [] then none
  else if ds = ['0'] then some rest
  else if ds.head? = some '0' then none
  else some rest

/-- The character class `[0-9A-Za-z.-]` of the semver pattern. -/
def identChar (c : Char) : Bool := c.isDigit || c.isAlpha || c == '.' || c == '-'

/-- Parse `\.(0|[1-9][0-9]*)`. -/
def parseDotNum (s : Str) : Option Str :=
  match s with
  | '.' :: t => parseNum t
  | _ => none

/-- Parse the optional group `(lead[0-9A-Za-z.-]+)?`; `none` means the
whole match is doomed (a `lead` with no following class character can be
consumed by nothing else in the semver pattern). -/
def parseOptPart (lead : Char) (s : Str) : Option Str :=
  match s with
  | c :: t =>
    if c = lead then
      let run := t.takeWhile identChar
      if run = [] then none else some (t.dropWhile identChar)
    else some s
  | [] => some s

/-- `SEMVER_RE.fullmatch` (`version_sync.py` lines 11-18). -/
def semverCheck (s : Str) : Bool :=
  match parseNum s with
  | none => false
  | some r1 =>
    match parseDotNum r1 with
    | none => false
    | some r2 =>
      match parseDotNum r2 with
      | none => false
      | some r3 =>
        match parseOptPart '-' r3 with
        | none => false
        | some r4 =>
          match parseOptPart '+' r4 with
          | none => false
          | some r5 => r5 = []

/-- `TAG_RE.fullmatch` (`version_sync.py` line 19): `v` followed by semver. -/
def tagCheck (s : Str) : Bool :=
  match s with
  | 'v' :: t => semverCheck t
  | _ => false

/-- `normalize_version` (`version_sync.py` lines 54-62). -/
def normalize_version (raw : Str) : Except Err Str :=
  let candidate := strip raw
  let candidate := if candidate.head? = some 'v' then candidate.tail else candidate
  if semverCheck candidate then .ok candidate else .error (.invalidVersion raw)

/-! ### TOML `[package]` reader and writer -/

/-- `stripped.startswith("[") and stripped.endswith("]")`. -/
def sectionHeaderB (s : Str) : Bool :=
  (str (r"[")).isPrefixOf s && (str (r"]")).isSuffixOf s

def packageHeader : Str := str (r"[package]")

/-- Loop of `read_toml_package_version` (`version_sync.py` lines 83-98),
over the bodies of the lines, carrying the `in_package` flag. -/
def readTomlLoop (inPackage : Bool) : List Str → Except Err Str
  | [] => .error .cannotFindTomlVersion
  | l :: rest =>
    let s := strip l
    if sectionHeaderB s then readTomlLoop (s = packageHeader) rest
    else if inPackage = false then readTomlLoop inPackage rest
    else
      match readTomlMatch l with
      | some version => .ok version
      | none => readTomlLoop inPackage rest

def read_toml_package_version (content : Str) : Except Err Str :=
  readTomlLoop false (splitLines content)

/-- Loop of `write_toml_package_version` (`version_sync.py` lines 101-125),
over the lines with their terminators.  `ok none` models "value already
equal, return False without writing"; `ok (some ls)` models the rewritten
line list that is then joined and written. -/
def writeTomlLoop (newVersion : Str) (inPackage : Bool) : List Str → Except Err (Option (List Str))
  | [] => .error .cannotUpdateTomlVersion
  | l :: rest =>
    let s := strip l
    if sectionHeaderB s then
      match writeTomlLoop newVersion (s = packageHeader) rest with
      | .error e => .error e
      | .ok none => .ok none
      | .ok (some ls) => .ok (some (l :: ls))
    else if inPackage = false then
      match writeTomlLoop newVersion inPackage rest with
      | .error e => .error e
      | .ok none => .ok none
      | .ok (some ls) => .ok (some (l :: ls))
    else
      match writeVersionMatch (lineBody l) with
      | none =>
        match writeTomlLoop newVersion inPackage rest with
        | .error e => .error e
        | .ok none => .ok none
        | .ok (some ls) => .ok (some (l :: ls))
      | some (g1, old, g3) =>
        if old = newVersion then .ok none
        else .ok (some ((g1 ++ newVersion ++ g3 ++ lineEnding l) :: rest))

def write_toml_package_version (content newVersion : Str) : Except Err (Bool × Str) :=
  match writeTomlLoop newVersion false (splitLinesKeep content) with
  | .error e => .error e
  | .ok none => .ok (false, content)
  | .ok (some ls) => .ok (true, ls.flatten)

/-! ### JSON documents -/

/-- A parsed JSON document (`json.loads` output).  Numbers are modelled as
integers; the version fields the tools handle are strings. -/
inductive Json where
  | null
  | bool (b : Bool)
  | num (n : Int)
  | str (s : Str)
  | arr (items : List Json)
  | obj (fields : List (Str × Json))

/-- A JSON object: insertion-ordered fields, as a Python dict. -/
abbrev Jobj := List (Str × Json)

def objGet (fields : Jobj) (key : Str) : Option Json :=
  (fields.find? (fun p => p.1 == key)).map (fun p => p.2)

def objGetD (fields : Jobj) (key : Str) (dflt : Json) : Json :=
  (objGet fields key).getD dflt

/-- Python dict assignment: replace the first binding of the key in place,
else append a new binding. -/
def objSet (fields : Jobj) (key : Str) (v : Json) : Jobj :=
  match fields with
  | [] => [(key, v)]
  | (k, w) :: rest =>
    if k = key then (k, v) :: rest else (k, w) :: objSet rest key v

def asObj (j : Json) : Option Jobj :=
  match j with
  | .obj fields => some fields
  | _ => none

/-- Python `repr` of a string: quoted with apostrophes (escape sequences of
exotic characters are not modelled; no claim depends on them). -/
def quoteRepr (s : Str) : Str :=
  Char.ofNat 39 :: s ++ [Char.ofNat 39]

mutual

/-- Python `repr` of a JSON value (containers modelled in the usual
`[...]`/ dict rendering; no claim depends on the exact text). -/
def pyRepr : Json → Str
  | .null => str (r"None")
  | .bool true => str (r"True")
  | .bool false => str (r"False")
  | .num n => (toString n).data
  | .str s => quoteRepr s
  | .arr items => '[' :: pyReprList items ++ [']']
  | .obj fields => Char.ofNat 123 :: pyReprObj fields ++ [Char.ofNat 125]

def pyReprList : List Json → Str
  | [] => []
  | [j] => pyRepr j
  | j :: rest => pyRepr j ++ str (r", ") ++ pyReprList rest

def pyReprObj : List (Str × Json) → Str
  | [] => []
  | [(k, v)] => quoteRepr k ++ str (r": ") ++ pyRepr v
  | (k, v) :: rest => quoteRepr k ++ str (r": ") ++ pyRepr v ++ str (r", ") ++ pyReprObj rest
end

/-- Python `str()` of a JSON value. -/
def pyStr : Json → Str
  | .str s => s
  | j => pyRepr j

/-- Python `value == new_version` where `new_version` is a `str`:
true only for an equal JSON string (cross-type comparison is false,
`None` — an absent key — compares false). -/
def jsonFieldEqStr (j : Option Json) (s : Str) : Bool :=
  match j with
  | some (.str t) => t == s
  | _ => false

/-- `read_json_version` (`version_sync.py` lines 128-133), over the parsed
top-level object. -/
def read_json_version (data : Jobj) : Except Err Str :=
  let version := strip (pyStr (objGetD data (str (r"version")) (.str [])))
  if version = [] then .error .cannotFindJsonVersion else .ok version

/-- `write_json_version` (`version_sync.py` lines 136-143), over the parsed
top-level object; the `Bool` is the Python return value, the `Jobj` the
document that is re-serialised when the `Bool` is true. -/
def write_json_version (data : Jobj) (newVersion : Str) : Bool × Jobj :=
  if jsonFieldEqStr (objGet data (str (r"version"))) newVersion then (false, data)
  else (true, objSet data (str (r"version")) (.str newVersion))

/-- `read_package_lock_version` (`version_sync.py` lines 146-160). -/
def read_package_lock_version (data : Jobj) : Except Err Str :=
  match asObj (objGetD data (str (r"packages")) (.obj [])) with
  | none => .error .pyTypeError
  | some packagesFields =>
    match asObj (objGetD packagesFields (str (r"")) (.obj [])) with
    | none => .error .pyTypeError
    | some rootFields =>
      let topLevel := strip (pyStr (objGetD data (str (r"version")) (.str [])))
      let rootPackage := strip (pyStr (objGetD rootFields (str (r"version")) (.str [])))
      if topLevel = [] then .error .cannotFindTopLevelVersion
      else if rootPackage = [] then .error .cannotFindRootPackageVersion
      else if topLevel ≠ rootPackage then .error (.packageLockMismatch topLevel rootPackage)
      else .ok topLevel

/-- `write_package_lock_version` (`version_sync.py` lines 163-186). -/
def write_package_lock_version (data : Jobj) (newVersion : Str) : Except Err (Bool × Jobj) :=
  let changedTop := !(jsonFieldEqStr (objGet data (str (r"version"))) newVersion)
  let data1 := if changedTop then objSet data (str (r"version")) (.str newVersion) else data
  match objGet data1 (str (r"packages")) with
  | some (.obj packagesFields) =>
    match objGet packagesFields (str (r"")) with
    | some (.obj rootFields) =>
      let changedRoot := !(jsonFieldEqStr (objGet rootFields (str (r"version"))) newVersion)
      let data2 :=
        if changedRoot then
          objSet data1 (str (r"packages"))
            (.obj (objSet packagesFields (str (r""))
              (.obj (objSet rootFields (str (r"version")) (.str newVersion)))))
        else data1
      .ok (changedTop || changedRoot, data2)
    | _ => .error .cannotFindPackagesObject
  | _ => .error .cannotFindPackagesObject

/-! ### Named-block lock-format reader and writer -/

def lockMarker : Str := str (r"[[package]]")

/-- The inner-loop guard: the line is not a `[[package]]` marker. -/
def notMarker (l : Str) : Bool := !(strip l == lockMarker)

def sourceMark : Str := str (r"source = ")

/-- Final value of `matched_name` after scanning a block body: the last
`name = "..."` match wins (the loop overwrites it on every match). -/
def blockName : List Str → Option Str
  | [] => none
  | l :: rest =>
    match blockName rest with
    | some n => some n
    | none => lockNameMatch (strip l)

/-- Final value of `matched_version` after scanning a block body. -/
def blockVersionVal : List Str → Option Str
  | [] => none
  | l :: rest =>
    match blockVersionVal rest with
    | some v => some v
    | none => lockVersionMatch (strip l)

/-- `has_source`: some line of the block starts with `source = ` once stripped. -/
def blockHasSource (body : List Str) : Bool :=
  body.any (fun l => sourceMark.isPrefixOf (strip l))

/-- Final value of `version_idx` (relative to the block body): index of the
last line whose stripped form matches `^version\s*=\s*"[^"]+"$`. -/
def lastVersionIdx : List Str → Option Nat
  | [] => none
  | l :: rest =>
    match lastVersionIdx rest with
    | some i => some (i + 1)
    | none => if (lockVersionMatch (strip l)).isSome then some 0 else none

theorem length_dropWhile_le (p : Str → Bool) :
    ∀ l : List Str, (l.dropWhile p).length ≤ l.length := by
  intro l
  induction l with
  | nil => simp
  | cons x rest ih =>
    by_cases h : p x
    · simp [List.dropWhile, h]; omega
    · simp [List.dropWhile, h]

/-- Fuel-based loop of `read_lock_package_version` (`version_sync.py`
lines 189-224) over the line bodies: scan for a `[[package]]` marker,
collect the block that follows (up to the next marker), and either select
it or move on.  Structural recursion on the fuel so the kernel can
evaluate it; see `readLockLoop_cons` for the recurrence. -/
def readLockLoopFuel (packageName : Str) : Nat → List Str → Except Err Str
  | _, [] => .error (.cannotFindLockPackage packageName)
  | 0, _ :: _ => .error (.cannotFindLockPackage packageName)
  | fuel + 1, l :: rest =>
    if strip l = lockMarker then
      let body := rest.takeWhile notMarker
      let remaining := rest.dropWhile notMarker
      if blockName body = some packageName ∧ blockHasSource body = false then
        match blockVersionVal body with
        | none => .error (.missingLockVersion packageName)
        | some v => .ok v
      else readLockLoopFuel packageName fuel remaining
    else readLockLoopFuel packageName fuel rest

def readLockLoop (packageName : Str) (ls : List Str) : Except Err Str :=
  readLockLoopFuel packageName ls.length ls

def read_lock_package_version (content packageName : Str) : Except Err Str :=
  readLockLoop packageName (splitLines content)

/-- Fuel-based loop of `write_lock_package_version` (`version_sync.py`
lines 227-284) over the lines with their terminators.  `ok none` models
"already equal, return False"; `ok (some ls)` the rewritten line list. -/
def writeLockLoopFuel (packageName newVersion : Str) :
    Nat → List Str → Except Err (Option (List Str))
  | _, [] => .error (.cannotUpdateLockPackage packageName)
  | 0, _ :: _ => .error (.cannotUpdateLockPackage packageName)
  | fuel + 1, l :: rest =>
    if strip l = lockMarker then
      let body := rest.takeWhile notMarker
      let remaining := rest.dropWhile notMarker
      if blockName body = some packageName ∧ blockHasSource body = false then
        match lastVersionIdx body with
        | none => .error (.missingLockVersion packageName)
        | some i =>
          let versionLine := body.getD i []
          match writeVersionMatch (lineBody versionLine) with
          | none => .error .unexpectedLockVersionFormat
          | some (g1, old, g3) =>
            if old = newVersion then .ok none
            else .ok (some (l :: (body.set i (g1 ++ newVersion ++ g3 ++ lineEnding versionLine)) ++ remaining))
      else
        match writeLockLoopFuel packageName newVersion fuel remaining with
        | .error e => .error e
        | .ok none => .ok none
        | .ok (some ls) => .ok (some (l :: body ++ ls))
    else
      match writeLockLoopFuel packageName newVersion fuel rest with
      | .error e => .error e
      | .ok none => .ok none
      | .ok (some ls) => .ok (some (l :: ls))

def writeLockLoop (packageName newVersion : Str) (ls : List Str) :
    Except Err (Option (List Str)) :=
  writeLockLoopFuel packageName newVersion ls.length ls

theorem readLockLoopFuel_congr (packageName : Str) :
    ∀ (f1 f2 : Nat) (ls : List Str), ls.length ≤ f1 → ls.length ≤ f2 →
      readLockLoopFuel packageName f1 ls = readLockLoopFuel packageName f2 ls := by
  intro f1
  induction f1 with
  | zero =>
    intro f2 ls h1 _
    have : ls = [] := List.length_eq_zero.mp (Nat.le_zero.mp h1)
    subst this
    cases f2 <;> rfl
  | succ f1 ih =>
    intro f2 ls h1 h2
    rcases ls with _ | ⟨l, rest⟩
    · cases f2 <;> rfl
    · rcases f2 with _ | f2
      · simp at h2
      · simp only [List.length_cons] at h1 h2
        have hd := length_dropWhile_le notMarker rest
        simp only [readLockLoopFuel]
        rw [ih f2 (rest.dropWhile notMarker) (by omega) (by omega),
          ih f2 rest (by omega) (by omega)]

theorem writeLockLoopFuel_congr (packageName newVersion : Str) :
    ∀ (f1 f2 : Nat) (ls : List Str), ls.length ≤ f1 → ls.length ≤ f2 →
      writeLockLoopFuel packageName newVersion f1 ls =
        writeLockLoopFuel packageName newVersion f2 ls := by
  intro f1
  induction f1 with
  | zero =>
    intro f2 ls h1 _
    have : ls = [] := List.length_eq_zero.mp (Nat.le_zero.mp h1)
    subst this
    cases f2 <;> rfl
  | succ f1 ih =>
    intro f2 ls h1 h2
    rcases ls with _ | ⟨l, rest⟩
    · cases f2 <;> rfl
    · rcases f2 with _ | f2
      · simp at h2
      · simp only [List.length_cons] at h1 h2
        have hd := length_dropWhile_le notMarker rest
        simp only [writeLockLoopFuel]
        rw [ih f2 (rest.dropWhile notMarker) (by omega) (by omega),
          ih f2 rest (by omega) (by omega)]

theorem readLockLoop_nil (packageName : Str) :
    readLockLoop packageName [] = .error (.cannotFindLockPackage packageName) := rfl

/-- The recurrence of the Python scan loop of `read_lock_package_version`. -/
theorem readLockLoop_cons (packageName l : Str) (rest : List Str) :
    readLockLoop packageName (l :: rest) =
      if strip l = lockMarker then
        (if blockName (rest.takeWhile notMarker) = some packageName ∧
            blockHasSource (rest.takeWhile notMarker) = false then
          match blockVersionVal (rest.takeWhile notMarker) with
          | none => .error (.missingLockVersion packageName)
          | some v => .ok v
        else readLockLoop packageName (rest.dropWhile notMarker))
      else readLockLoop packageName rest := by
  have hd := length_dropWhile_le notMarker rest
  show readLockLoopFuel packageName (rest.length + 1) (l :: rest) = _
  simp only [readLockLoopFuel]
  rw [readLockLoopFuel_congr packageName rest.length (rest.dropWhile notMarker).length
    (rest.dropWhile notMarker) (by omega) (by omega)]
  rfl

theorem writeLockLoop_nil (packageName newVersion : Str) :
    writeLockLoop packageName newVersion [] =
      .error (.cannotUpdateLockPackage packageName) := rfl

/-- The recurrence of the Python scan loop of `write_lock_package_version`. -/
theorem writeLockLoop_cons (packageName newVersion l : Str) (rest : List Str) :
    writeLockLoop packageName newVersion (l :: rest) =
      if strip l = lockMarker then
        (if blockName (rest.takeWhile notMarker) = some packageName ∧
            blockHasSource (rest.takeWhile notMarker) = false then
          match lastVersionIdx (rest.takeWhile notMarker) with
          | none => .error (.missingLockVersion packageName)
          | some i =>
            match writeVersionMatch (lineBody ((rest.takeWhile notMarker).getD i [])) with
            | none => .error .unexpectedLockVersionFormat
            | some (g1, old, g3) =>
              if old = newVersion then .ok none
              else .ok (some (l :: ((rest.takeWhile notMarker).set i
                (g1 ++ newVersion ++ g3 ++ lineEnding ((rest.takeWhile notMarker).getD i []))) ++
                rest.dropWhile notMarker))
        else
          match writeLockLoop packageName newVersion (rest.dropWhile notMarker) with
          | .error e => .error e
          | .ok none => .ok none
          | .ok (some ls) => .ok (some (l :: rest.takeWhile notMarker ++ ls)))
      else
        match writeLockLoop packageName newVersion rest with
        | .error e => .error e
        | .ok none => .ok none
        | .ok (some ls) => .ok (some (l :: ls)) := by
  have hd := length_dropWhile_le notMarker rest
  show writeLockLoopFuel packageName newVersion (rest.length + 1) (l :: rest) = _
  simp only [writeLockLoopFuel]
  rw [writeLockLoopFuel_congr packageName newVersion rest.length
    (rest.dropWhile notMarker).length (rest.dropWhile notMarker) (by omega) (by omega)]
  rfl

def write_lock_package_version (content packageName newVersion : Str) : Except Err (Bool × Str) :=
  match writeLockLoop packageName newVersion (splitLinesKeep content) with
  | .error e => .error e
  | .ok none => .ok (false, content)
  | .ok (some ls) => .ok (true, ls.flatten)

/-! ### The file registry and the top-level operations -/

/-- The contents of the files of the fixed registry
(`version_sync.py` lines 23-43): three TOML manifests, five JSON
documents, one package-lock document, three lock files. -/
structure Env where
  serverCargoToml : Str
  desktopCargoToml : Str
  cefCargoToml : Str
  webPackageJson : Jobj
  tauriConf : Jobj
  tauriConfFull : Jobj
  cefTauriConf : Jobj
  cefTauriConfFull : Jobj
  packageLock : Jobj
  cargoLock : Str
  desktopCargoLock : Str
  cefCargoLock : Str

/-- The read phase of `collect_versions` (`version_sync.py` lines 287-303):
run every reader over the registry, building the insertion-ordered
path-to-version mapping. -/
def readsPhase (env : Env) : Except Err (List (String × Str)) :=
  match read_toml_package_version env.serverCargoToml with
  | .error e => .error e
  | .ok v1 =>
  match read_toml_package_version env.desktopCargoToml with
  | .error e => .error e
  | .ok v2 =>
  match read_toml_package_version env.cefCargoToml with
  | .error e => .error e
  | .ok v3 =>
  match read_json_version env.webPackageJson with
  | .error e => .error e
  | .ok v4 =>
  match read_json_version env.tauriConf with
  | .error e => .error e
  | .ok v5 =>
  match read_json_version env.tauriConfFull with
  | .error e => .error e
  | .ok v6 =>
  match read_json_version env.cefTauriConf with
  | .error e => .error e
  | .ok v7 =>
  match read_json_version env.cefTauriConfFull with
  | .error e => .error e
  | .ok v8 =>
  match read_package_lock_version env.packageLock with
  | .error e => .error e
  | .ok v9 =>
  match read_lock_package_version env.cargoLock (str (r"opencode-studio")) with
  | .error e => .error e
  | .ok v10 =>
  match read_lock_package_version env.desktopCargoLock (str (r"opencode-studio-desktop")) with
  | .error e => .error e
  | .ok v11 =>
  match read_lock_package_version env.cefCargoLock (str (r"opencode-studio-desktop")) with
  | .error e => .error e
  | .ok v12 =>
    .ok [("server/Cargo.toml", v1),
         ("desktop/src-tauri/Cargo.toml", v2),
         ("desktop/src-tauri-cef/Cargo.toml", v3),
         ("web/package.json", v4),
         ("desktop/src-tauri/tauri.conf.json", v5),
         ("desktop/src-tauri/tauri.conf.full.json", v6),
         ("desktop/src-tauri-cef/tauri.conf.json", v7),
         ("desktop/src-tauri-cef/tauri.conf.full.json", v8),
         ("web/package-lock.json", v9),
         ("Cargo.lock", v10),
         ("desktop/src-tauri/Cargo.lock", v11),
         ("desktop/src-tauri-cef/Cargo.lock", v12)]

/-- `collect_versions` (`version_sync.py` lines 287-309): the reads, then
the semver validation loop, which raises at the first non-semver value. -/
def collect_versions (env : Env) : Except Err (List (String × Str)) :=
  match readsPhase env with
  | .error e => .error e
  | .ok versions =>
    match versions.find? (fun p => !(semverCheck p.2)) with
    | some p => .error (.invalidSemver p.1 p.2)
    | none => .ok versions

/-- Lexicographic (code-point) strict order on strings, as Python `<`. -/
def strLt : Str → Str → Bool
  | [], [] => false
  | [], _ :: _ => true
  | _ :: _, [] => false
  | a :: s1, b :: s2 => if a < b then true else if b < a then false else strLt s1 s2

def strLe (a b : Str) : Bool := !(strLt b a)

/-- Stable insertion into an ascending list: placed after equal elements. -/
def insertLe {α : Type} (le : α → α → Bool) (x : α) : List α → List α
  | [] => [x]
  | y :: rest => if le y x then y :: insertLe le x rest else x :: y :: rest

/-- Python `sorted`: stable ascending sort. -/
def pySorted {α : Type} (le : α → α → Bool) (l : List α) : List α :=
  l.foldl (fun acc x => insertLe le x acc) []

def sortStr (l : List Str) : List Str := pySorted strLe l

def sortFiles (l : List String) : List String :=
  pySorted (fun a b => strLe a.data b.data) l

/-- `grouped.setdefault(version, []).append(file_path)` over one entry:
append to the existing group, else add a new group at the end. -/
def groupInsert (grouped : List (Str × List String)) (filePath : String) (version : Str) :
    List (Str × List String) :=
  match grouped with
  | [] => [(version, [filePath])]
  | (v, fs) :: rest =>
    if v = version then (v, fs ++ [filePath]) :: rest
    else (v, fs) :: groupInsert rest filePath version

/-- The `grouped` dict of `ensure_consistent` (insertion-ordered keys). -/
def groupFold (versions : List (String × Str)) : List (Str × List String) :=
  versions.foldl (fun g p => groupInsert g p.1 p.2) []

def lookupGroup (grouped : List (Str × List String)) (v : Str) : List String :=
  ((grouped.find? (fun p => p.1 == v)).map (fun p => p.2)).getD []

def joinNL (lines : List Str) : Str := List.intercalate ['\n'] lines

def reportHeader : Str := str (r"Version mismatch detected across files:")

/-- The report text built by `ensure_consistent` (lines 320-325): versions
sorted, and under each the files of its group, sorted. -/
def renderReport (grouped : List (Str × List String)) : Str :=
  joinNL (reportHeader ::
    (sortStr (grouped.map (fun p => p.1))).flatMap (fun v =>
      (str (r"  ") ++ v ++ [':']) ::
        (sortFiles (lookupGroup grouped v)).map (fun f => str (r"    - ") ++ f.data)))

/-- `ensure_consistent` (`version_sync.py` lines 312-325). -/
def ensure_consistent (versions : List (String × Str)) : Except Err Str :=
  let grouped := groupFold versions
  match grouped with
  | [(v, _)] => .ok v
  | _ => .error (.versionMismatchReport (renderReport grouped))

/-- `run_check` (`version_sync.py` lines 328-344). -/
def run_check (env : Env) (expectedTag : Option Str) : Except Err Str :=
  match collect_versions env with
  | .error e => .error e
  | .ok versions =>
    match ensure_consistent versions with
    | .error e => .error e
    | .ok version =>
      match expectedTag with
      | none => .ok version
      | some t =>
        let tag := strip t
        if tagCheck tag = false then .error (.invalidTag tag)
        else if tag ≠ 'v' :: version then .error (.tagVersionMismatch tag version)
        else .ok version

end VersionSync

namespace AssertNativeTarget

open VersionSync (Str str strLe)

/-- `ARCH_MAP` of `assert_native_target.py` (lines 7-14). -/
def ARCH_MAP : List (Str × Str) :=
  [(str (r"x86_64"), str (r"x86_64")),
   (str (r"amd64"), str (r"x86_64")),
   (str (r"aarch64"), str (r"aarch64")),
   (str (r"arm64"), str (r"aarch64")),
   (str (r"armv7l"), str (r"armv7")),
   (str (r"armv7"), str (r"armv7"))]

/-- `OS_MAP` of `assert_native_target.py` (lines 16-20). -/
def OS_MAP : List (Str × Str) :=
  [(str (r"linux"), str (r"linux")),
   (str (r"darwin"), str (r"darwin")),
   (str (r"windows"), str (r"windows"))]

/-- Python `dict.get(key, default)` over an association list. -/
def mapGetD (m : List (Str × Str)) (key dflt : Str) : Str :=
  ((m.find? (fun p => p.1 == key)).map (fun p => p.2)).getD dflt

/-- Python `pat in s`: substring containment. -/
def containsSub (s pat : Str) : Bool :=
  match s with
  | [] => pat.isPrefixOf ([] : Str)
  | _ :: rest => pat.isPrefixOf s || containsSub rest pat

/-- `target_os` (lines 23-30): substring matching on the triple. -/
def target_os (target : Str) : Str :=
  if containsSub target (str (r"windows")) then str (r"windows")
  else if containsSub target (str (r"apple-darwin")) then str (r"darwin")
  else if containsSub target (str (r"linux")) then str (r"linux")
  else str (r"unknown")

/-- `target.split("-")[0]`: the first dash-delimited segment. -/
def firstSegment (target : Str) : Str := target.takeWhile (fun c => c ≠ '-')

/-- `target_arch` (lines 33-34). -/
def target_arch (target : Str) : Str :=
  mapGetD ARCH_MAP (firstSegment target) (firstSegment target)

def lowerStr (s : Str) : Str := s.map Char.toLower

/-- `host_os` (lines 37-38), over the `platform.system()` string. -/
def host_os (system : Str) : Str :=
  mapGetD OS_MAP (lowerStr system) (lowerStr system)

/-- `host_arch` (lines 41-43), over the `platform.machine()` string. -/
def host_arch (machine : Str) : Str :=
  mapGetD ARCH_MAP (lowerStr machine) (lowerStr machine)

/-- The three errors `main` (lines 46-74) can accumulate. -/
inductive TargetErr where
  | unsupportedTargetOS
  | osMismatch
  | archMismatch
deriving DecidableEq

/-- The `errors` list of `main`, in the order the code appends them. -/
def validate_errors (target system machine : Str) : List TargetErr :=
  let tOS := target_os target
  let tArch := target_arch target
  let hOS := host_os system
  let hArch := host_arch machine
  (if tOS = str (r"unknown") then [TargetErr.unsupportedTargetOS] else []) ++
  (if tOS ≠ hOS then [TargetErr.osMismatch] else []) ++
  (if tArch ≠ hArch then [TargetErr.archMismatch] else [])

/-- The exit code of `main`: 1 when any error was recorded, else 0. -/
def assert_native_main (target system machine : Str) : Nat :=
  if validate_errors target system machine = [] then 0 else 1

end AssertNativeTarget

namespace VersionSync

/-! ### Specification-side definitions (from the spec text, for refinement
claims) -/

/-- Fuel-based helper for `lockBlocks`. -/
def lockBlocksFuel : Nat → List Str → List (List Str)
  | _, [] => []
  | 0, _ :: _ => []
  | fuel + 1, l :: rest =>
    if strip l = lockMarker then
      rest.takeWhile notMarker :: lockBlocksFuel fuel (rest.dropWhile notMarker)
    else lockBlocksFuel fuel rest

/-- Modelled from the spec: the blocks of a named-block lock file — each
block is opened by a `[[package]]` marker line and runs to the next marker
or the end of the file (lines before the first marker belong to no block). -/
def lockBlocks (ls : List Str) : List (List Str) := lockBlocksFuel ls.length ls

theorem lockBlocksFuel_congr :
    ∀ (f1 f2 : Nat) (ls : List Str), ls.length ≤ f1 → ls.length ≤ f2 →
      lockBlocksFuel f1 ls = lockBlocksFuel f2 ls := by
  intro f1
  induction f1 with
  | zero =>
    intro f2 ls h1 _
    have : ls = [] := List.length_eq_zero.mp (Nat.le_zero.mp h1)
    subst this
    cases f2 <;> rfl
  | succ f1 ih =>
    intro f2 ls h1 h2
    rcases ls with _ | ⟨l, rest⟩
    · cases f2 <;> rfl
    · rcases f2 with _ | f2
      · simp at h2
      · simp only [List.length_cons] at h1 h2
        have hd := length_dropWhile_le notMarker rest
        simp only [lockBlocksFuel]
        rw [ih f2 (rest.dropWhile notMarker) (by omega) (by omega),
          ih f2 rest (by omega) (by omega)]

theorem lockBlocks_nil : lockBlocks [] = [] := rfl

theorem lockBlocks_cons (l : Str) (rest : List Str) :
    lockBlocks (l :: rest) =
      if strip l = lockMarker then
        rest.takeWhile notMarker :: lockBlocks (rest.dropWhile notMarker)
      else lockBlocks rest := by
  have hd := length_dropWhile_le notMarker rest
  show lockBlocksFuel (rest.length + 1) (l :: rest) = _
  simp only [lockBlocksFuel]
  rw [lockBlocksFuel_congr rest.length (rest.dropWhile notMarker).length
    (rest.dropWhile notMarker) (by omega) (by omega)]
  rfl

/-- The selection criterion of the spec: the block's extracted name equals
the requested package name and the block has no `source` line. -/
def blockSelected (packageName : Str) (body : List Str) : Bool :=
  blockName body == some packageName && !(blockHasSource body)

/-- Modelled from the spec: first distinct occurrence of each version, in
input order. -/
def dedupFirstOccurrence (l : List Str) : List Str :=
  l.foldl (fun acc v => if v ∈ acc then acc else acc ++ [v]) []

/-- Modelled from the spec: the mismatch report — under each distinct
version (sorted), the identifiers of the files carrying it (sorted). -/
def reportSpec (versions : List (String × Str)) : Str :=
  joinNL (reportHeader ::
    (sortStr (dedupFirstOccurrence (versions.map (fun p => p.2)))).flatMap (fun v =>
      (str (r"  ") ++ v ++ [':']) ::
        (sortFiles ((versions.filter (fun p => p.2 == v)).map (fun p => p.1))).map
          (fun f => str (r"    - ") ++ f.data)))

/-- A line terminator as produced by `splitLinesKeep` / recognised by
`split_line_ending`. -/
def endingOk (e : Str) : Prop :=
  e = [] ∨ e = ['\n'] ∨ e = ['\r', '\n'] ∨ e = ['\r']

/-- The frame property of surgical writers (claim C2): the output is the
input with exactly one line replaced, and on that line only the quoted
version value changed — the text before the opening quote, the text from
the closing quote on, and the line terminator are those of the original
line. -/
def FrameProp (content newVersion out : Str) : Prop :=
  ∃ before g1 old g3 e after,
    splitLinesKeep content = before ++ (g1 ++ old ++ g3 ++ e) :: after ∧
    out = (before ++ (g1 ++ newVersion ++ g3 ++ e) :: after).flatten ∧
    split_line_ending (g1 ++ old ++ g3 ++ e) = (g1 ++ old ++ g3, e) ∧
    endingOk e ∧
    g1.getLast? = some '"' ∧ g3.head? = some '"' ∧
    '"' ∉ old ∧ old ≠ [] ∧ old ≠ newVersion

/-- Every character of `w` is Python whitespace. -/
def allSpace (w : Str) : Prop := ∀ c ∈ w, pySpace c = true

/-- Drop trailing whitespace (the right half of `strip`). -/
def stripEnd (s : Str) : Str := (s.reverse.dropWhile pySpace).reverse

/-- A well-formed line as produced by `splitLinesKeep`: nonempty, and its
body (terminator removed) contains no terminator character. -/
def lineOk (l : Str) : Prop := l ≠ [] ∧ noNL (lineBody l)

/-- Well-formedness of a `splitLinesKeep` output: every line is well
formed, every line but the last carries a terminator, and a line ending in
a bare `\r` is never followed by a line starting with `\n` (otherwise the
two would merge into one `\r\n` line on re-splitting). -/
def linesWF : List Str → Prop
  | [] => True
  | l :: rest =>
    lineOk l ∧
    (rest = [] ∨ (lineEnding l ≠ [] ∧
      (lineEnding l = ['\r'] → (rest.headD []).head? ≠ some '\n'))) ∧
    linesWF rest

/-! ### Concrete registry contents, for witnesses -/

def tomlGood : Str := str (r#"[package]
name = "x"
version = "1.2.3"
"#)

def jsonGood : Jobj := [(str (r"version"), Json.str (str (r"1.2.3")))]

def packageLockGood : Jobj :=
  [(str (r"version"), Json.str (str (r"1.2.3"))),
   (str (r"packages"), Json.obj
     [(str (r""), Json.obj [(str (r"version"), Json.str (str (r"1.2.3")))])])]

def cargoLockGood : Str := str (r#"[[package]]
name = "opencode-studio"
version = "1.2.3"
"#)

def desktopLockGood : Str := str (r#"[[package]]
name = "opencode-studio-desktop"
version = "1.2.3"
"#)

def envGood : Env :=
  { serverCargoToml := tomlGood
    desktopCargoToml := tomlGood
    cefCargoToml := tomlGood
    webPackageJson := jsonGood
    tauriConf := jsonGood
    tauriConfFull := jsonGood
    cefTauriConf := jsonGood
    cefTauriConfFull := jsonGood
    packageLock := packageLockGood
    cargoLock := cargoLockGood
    desktopCargoLock := desktopLockGood
    cefCargoLock := desktopLockGood }

/-- A lock file whose selected block carries the non-semver version `0`. -/
def cargoLockBad : Str := str (r#"[[package]]
name = "opencode-studio"
version = "0"
"#)

def envBad : Env := { envGood with cargoLock := cargoLockBad }

/-- The mapping `collect_versions` builds over `envGood`. -/
def registryAllGood : List (String × Str) :=
  [("server/Cargo.toml", str (r"1.2.3")),
   ("desktop/src-tauri/Cargo.toml", str (r"1.2.3")),
   ("desktop/src-tauri-cef/Cargo.toml", str (r"1.2.3")),
   ("web/package.json", str (r"1.2.3")),
   ("desktop/src-tauri/tauri.conf.json", str (r"1.2.3")),
   ("desktop/src-tauri/tauri.conf.full.json", str (r"1.2.3")),
   ("desktop/src-tauri-cef/tauri.conf.json", str (r"1.2.3")),
   ("desktop/src-tauri-cef/tauri.conf.full.json", str (r"1.2.3")),
   ("web/package-lock.json", str (r"1.2.3")),
   ("Cargo.lock", str (r"1.2.3")),
   ("desktop/src-tauri/Cargo.lock", str (r"1.2.3")),
   ("desktop/src-tauri-cef/Cargo.lock", str (r"1.2.3"))]

/-- The mapping `readsPhase` builds over `envBad`. -/
def registryWithBad : List (String × Str) :=
  [("server/Cargo.toml", str (r"1.2.3")),
   ("desktop/src-tauri/Cargo.toml", str (r"1.2.3")),
   ("desktop/src-tauri-cef/Cargo.toml", str (r"1.2.3")),
   ("web/package.json", str (r"1.2.3")),
   ("desktop/src-tauri/tauri.conf.json", str (r"1.2.3")),
   ("desktop/src-tauri/tauri.conf.full.json", str (r"1.2.3")),
   ("desktop/src-tauri-cef/tauri.conf.json", str (r"1.2.3")),
   ("desktop/src-tauri-cef/tauri.conf.full.json", str (r"1.2.3")),
   ("web/package-lock.json", str (r"1.2.3")),
   ("Cargo.lock", str (r"0")),
   ("desktop/src-tauri/Cargo.lock", str (r"1.2.3")),
   ("desktop/src-tauri-cef/Cargo.lock", str (r"1.2.3"))]

end VersionSync

/-! ## Theorems -/

namespace AssertNativeTarget

open VersionSync (Str str)

theorem containsSub_iff (pat : Str) :
    ∀ s : Str, containsSub s pat = true ↔ pat <:+: s := by
  intro s
  induction s with
  | nil =>
    simp only [containsSub, List.isPrefixOf_iff_prefix, List.infix_nil]
    constructor
    · intro h; exact List.prefix_nil.mp h
    · intro h; subst h; exact List.nil_prefix
  | cons c rest ih =>
    simp only [containsSub, Bool.or_eq_true, List.isPrefixOf_iff_prefix, ih,
      List.infix_cons_iff]

theorem find?_none_of_not_mem_keys (m : List (Str × Str)) (k : Str)
    (h : k ∉ m.map (fun p => p.1)) : m.find? (fun p => p.1 == k) = none := by
  apply List.find?_eq_none.mpr
  intro p hp
  simp only [beq_eq_false_iff_ne, ne_eq, Bool.not_eq_true, beq_iff_eq]
  intro hk
  exact h (List.mem_map.mpr ⟨p, hp, hk⟩)

/-- C9: the target triple is normalised by substring matching for the OS
and by a first-segment table lookup for the architecture, and validation
succeeds (exit 0) exactly when the normalised target OS is known and both
normalised target components equal the normalised host components;
otherwise exit is 1 and every applicable error is listed. -/
theorem C9_native_target_validation (target system machine : Str) :
    (target_os target = str (r"windows") ↔ str (r"windows") <:+: target) ∧
    (target_os target = str (r"darwin") ↔
      (¬ str (r"windows") <:+: target ∧ str (r"apple-darwin") <:+: target)) ∧
    (target_os target = str (r"linux") ↔
      (¬ str (r"windows") <:+: target ∧ ¬ str (r"apple-darwin") <:+: target ∧
        str (r"linux") <:+: target)) ∧
    (target_os target = str (r"unknown") ↔
      (¬ str (r"windows") <:+: target ∧ ¬ str (r"apple-darwin") <:+: target ∧
        ¬ str (r"linux") <:+: target)) ∧
    ((firstSegment target = str (r"x86_64") ∨ firstSegment target = str (r"amd64")) →
      target_arch target = str (r"x86_64")) ∧
    ((firstSegment target = str (r"aarch64") ∨ firstSegment target = str (r"arm64")) →
      target_arch target = str (r"aarch64")) ∧
    ((firstSegment target = str (r"armv7l") ∨ firstSegment target = str (r"armv7")) →
      target_arch target = str (r"armv7")) ∧
    (firstSegment target ∉ ARCH_MAP.map (fun p => p.1) →
      target_arch target = firstSegment target) ∧
    (TargetErr.unsupportedTargetOS ∈ validate_errors target system machine ↔
      target_os target = str (r"unknown")) ∧
    (TargetErr.osMismatch ∈ validate_errors target system machine ↔
      target_os target ≠ host_os system) ∧
    (TargetErr.archMismatch ∈ validate_errors target system machine ↔
      target_arch target ≠ host_arch machine) ∧
    (assert_native_main target system machine = 0 ↔
      (target_os target ≠ str (r"unknown") ∧ target_os target = host_os system ∧
        target_arch target = host_arch machine)) ∧
    (assert_native_main target system machine = 1 ↔
      validate_errors target system machine ≠ []) := by
  have hw := containsSub_iff (str (r"windows")) target
  have ha := containsSub_iff (str (r"apple-darwin")) target
  have hl := containsSub_iff (str (r"linux")) target
  refine ⟨?_, ?_, ?_, ?_, ?_, ?_, ?_, ?_, ?_, ?_, ?_, ?_, ?_⟩
  · rw [← hw]
    unfold target_os
    by_cases h1 : containsSub target (str (r"windows")) = true <;>
      by_cases h2 : containsSub target (str (r"apple-darwin")) = true <;>
        by_cases h3 : containsSub target (str (r"linux")) = true <;>
          simp [h1, h2, h3] <;> decide
  · rw [← hw, ← ha]
    unfold target_os
    by_cases h1 : containsSub target (str (r"windows")) = true <;>
      by_cases h2 : containsSub target (str (r"apple-darwin")) = true <;>
        by_cases h3 : containsSub target (str (r"linux")) = true <;>
          simp [h1, h2, h3] <;> decide
  · rw [← hw, ← ha, ← hl]
    unfold target_os
    by_cases h1 : containsSub target (str (r"windows")) = true <;>
      by_cases h2 : containsSub target (str (r"apple-darwin")) = true <;>
        by_cases h3 : containsSub target (str (r"linux")) = true <;>
          simp [h1, h2, h3] <;> decide
  · rw [← hw, ← ha, ← hl]
    unfold target_os
    by_cases h1 : containsSub target (str (r"windows")) = true <;>
      by_cases h2 : containsSub target (str (r"apple-darwin")) = true <;>
        by_cases h3 : containsSub target (str (r"linux")) = true <;>
          simp [h1, h2, h3] <;> decide
  · rintro (h | h) <;> (simp only [target_arch]; rw [h]; decide)
  · rintro (h | h) <;> (simp only [target_arch]; rw [h]; decide)
  · rintro (h | h) <;> (simp only [target_arch]; rw [h]; decide)
  · intro h
    simp [target_arch, mapGetD, find?_none_of_not_mem_keys ARCH_MAP _ h]
  · unfold validate_errors
    by_cases h1 : target_os target = str (r"unknown") <;>
      by_cases h2 : target_os target ≠ host_os system <;>
        by_cases h3 : target_arch target ≠ host_arch machine <;>
          simp [h1, h2, h3]
  · unfold validate_errors
    by_cases h1 : target_os target = str (r"unknown") <;>
      by_cases h2 : target_os target ≠ host_os system <;>
        by_cases h3 : target_arch target ≠ host_arch machine <;>
          simp [h1, h2, h3]
  · unfold validate_errors
    by_cases h1 : target_os target = str (r"unknown") <;>
      by_cases h2 : target_os target ≠ host_os system <;>
        by_cases h3 : target_arch target ≠ host_arch machine <;>
          simp [h1, h2, h3]
  · unfold assert_native_main validate_errors
    by_cases h1 : target_os target = str (r"unknown") <;>
      by_cases h2 : target_os target ≠ host_os system <;>
        by_cases h3 : target_arch target ≠ host_arch machine <;>
          simp [h1, h2, h3] <;> tauto
  · unfold assert_native_main
    by_cases h : validate_errors target system machine = [] <;> simp [h]

/-- Witness for C9 at concrete inputs: the spec's own examples. -/
theorem C9_native_target_validation_witness :
    target_arch (str (r"aarch64-unknown-linux-gnu")) = str (r"aarch64") ∧
    assert_native_main (str (r"aarch64-unknown-linux-gnu")) (str (r"Linux")) (str (r"aarch64")) = 0 ∧
    assert_native_main (str (r"x86_64-pc-windows-msvc")) (str (r"Linux")) (str (r"x86_64")) = 1 ∧
    TargetErr.osMismatch ∈
      validate_errors (str (r"x86_64-pc-windows-msvc")) (str (r"Linux")) (str (r"x86_64")) ∧
    TargetErr.archMismatch ∉
      validate_errors (str (r"x86_64-pc-windows-msvc")) (str (r"Linux")) (str (r"x86_64")) := by
  refine ⟨?_, ?_, ?_, ?_, ?_⟩
  · exact (C9_native_target_validation (str (r"aarch64-unknown-linux-gnu"))
      (str (r"Linux")) (str (r"aarch64"))).2.2.2.2.2.1 (Or.inl (by decide))
  · exact ((C9_native_target_validation (str (r"aarch64-unknown-linux-gnu"))
      (str (r"Linux")) (str (r"aarch64"))).2.2.2.2.2.2.2.2.2.2.2.1).mpr (by decide)
  · exact ((C9_native_target_validation (str (r"x86_64-pc-windows-msvc"))
      (str (r"Linux")) (str (r"x86_64"))).2.2.2.2.2.2.2.2.2.2.2.2).mpr (by decide)
  · exact ((C9_native_target_validation (str (r"x86_64-pc-windows-msvc"))
      (str (r"Linux")) (str (r"x86_64"))).2.2.2.2.2.2.2.2.2.1).mpr (by decide)
  · intro hmem
    exact absurd (((C9_native_target_validation (str (r"x86_64-pc-windows-msvc"))
      (str (r"Linux")) (str (r"x86_64"))).2.2.2.2.2.2.2.2.2.2.1).mp hmem) (by decide)

end AssertNativeTarget

namespace VersionSync

/-- C6: reading a package-lock document succeeds (with the top-level
version) only when both the top-level `version` and the nested
`packages[""].version` are non-empty after trimming and equal; both
present but unequal yields the internal-mismatch error, which is a
different error from either missing-field error. -/
theorem C6_package_lock_read (data pfs rfs : Jobj)
    (hp : asObj (objGetD data (str (r"packages")) (.obj [])) = some pfs)
    (hr : asObj (objGetD pfs (str (r"")) (.obj [])) = some rfs) :
    (∀ v, read_package_lock_version data = .ok v ↔
      (strip (pyStr (objGetD data (str (r"version")) (.str []))) ≠ [] ∧
       strip (pyStr (objGetD rfs (str (r"version")) (.str []))) ≠ [] ∧
       strip (pyStr (objGetD data (str (r"version")) (.str []))) =
         strip (pyStr (objGetD rfs (str (r"version")) (.str []))) ∧
       v = strip (pyStr (objGetD data (str (r"version")) (.str []))))) ∧
    (strip (pyStr (objGetD data (str (r"version")) (.str []))) ≠ [] →
     strip (pyStr (objGetD rfs (str (r"version")) (.str []))) ≠ [] →
     strip (pyStr (objGetD data (str (r"version")) (.str []))) ≠
       strip (pyStr (objGetD rfs (str (r"version")) (.str []))) →
     read_package_lock_version data =
       .error (.packageLockMismatch
         (strip (pyStr (objGetD data (str (r"version")) (.str []))))
         (strip (pyStr (objGetD rfs (str (r"version")) (.str [])))))) ∧
    (strip (pyStr (objGetD data (str (r"version")) (.str []))) = [] →
     read_package_lock_version data = .error .cannotFindTopLevelVersion) ∧
    (strip (pyStr (objGetD data (str (r"version")) (.str []))) ≠ [] →
     strip (pyStr (objGetD rfs (str (r"version")) (.str []))) = [] →
     read_package_lock_version data = .error .cannotFindRootPackageVersion) ∧
    (∀ a b : Str, Err.packageLockMismatch a b ≠ Err.cannotFindTopLevelVersion ∧
      Err.packageLockMismatch a b ≠ Err.cannotFindRootPackageVersion) := by
  have hread : read_package_lock_version data =
      (if strip (pyStr (objGetD data (str (r"version")) (.str []))) = [] then
        .error .cannotFindTopLevelVersion
      else if strip (pyStr (objGetD rfs (str (r"version")) (.str []))) = [] then
        .error .cannotFindRootPackageVersion
      else if strip (pyStr (objGetD data (str (r"version")) (.str []))) ≠
          strip (pyStr (objGetD rfs (str (r"version")) (.str []))) then
        .error (.packageLockMismatch
          (strip (pyStr (objGetD data (str (r"version")) (.str []))))
          (strip (pyStr (objGetD rfs (str (r"version")) (.str [])))))
      else .ok (strip (pyStr (objGetD data (str (r"version")) (.str []))))) := by
    unfold read_package_lock_version
    simp only [hp, hr]
  refine ⟨?_, ?_, ?_, ?_, ?_⟩
  · intro v
    rw [hread]
    by_cases h1 : strip (pyStr (objGetD data (str (r"version")) (.str []))) = [] <;>
      by_cases h2 : strip (pyStr (objGetD rfs (str (r"version")) (.str []))) = [] <;>
        by_cases h3 : strip (pyStr (objGetD data (str (r"version")) (.str []))) =
          strip (pyStr (objGetD rfs (str (r"version")) (.str []))) <;>
          simp [h1, h2, h3] <;> try tauto
  · intro h1 h2 h3
    rw [hread, if_neg h1, if_neg h2, if_pos h3]
  · intro h1
    rw [hread, if_pos h1]
  · intro h1 h2
    rw [hread, if_neg h1, if_pos h2]
  · intro a b
    exact ⟨fun h => Err.noConfusion h, fun h => Err.noConfusion h⟩

/-- Witness for C6: the spec's example, top-level `1.0.0` against nested
`1.0.1`, fails with the internal-mismatch error. -/
theorem C6_package_lock_read_witness :
    read_package_lock_version
      [(str (r"version"), Json.str (str (r"1.0.0"))),
       (str (r"packages"), Json.obj
         [(str (r""), Json.obj [(str (r"version"), Json.str (str (r"1.0.1")))])])] =
      .error (.packageLockMismatch (str (r"1.0.0")) (str (r"1.0.1"))) := by
  have h := (C6_package_lock_read
    [(str (r"version"), Json.str (str (r"1.0.0"))),
     (str (r"packages"), Json.obj
       [(str (r""), Json.obj [(str (r"version"), Json.str (str (r"1.0.1")))])])]
    [(str (r""), Json.obj [(str (r"version"), Json.str (str (r"1.0.1")))])]
    [(str (r"version"), Json.str (str (r"1.0.1")))]
    (by rfl) (by rfl)).2.1 (by decide) (by decide) (by decide)
  exact h

end VersionSync

namespace VersionSync

theorem groupInsert_keys (g : List (Str × List String)) (f : String) (v : Str) :
    (groupInsert g f v).map (fun p => p.1) =
      if v ∈ g.map (fun p => p.1) then g.map (fun p => p.1)
      else g.map (fun p => p.1) ++ [v] := by
  induction g with
  | nil => simp [groupInsert]
  | cons hd tl ih =>
    obtain ⟨k, fs⟩ := hd
    by_cases hk : k = v
    · subst hk
      simp [groupInsert]
    · simp only [groupInsert, if_neg hk, List.map_cons, ih]
      by_cases hv : v ∈ tl.map (fun p => p.1) <;>
        simp [hv, Ne.symm hk, hk]

theorem groupFold_keys (vs : List (String × Str)) :
    ∀ g : List (Str × List String),
      (vs.foldl (fun g p => groupInsert g p.1 p.2) g).map (fun p => p.1) =
        (vs.map (fun p => p.2)).foldl
          (fun ks v => if v ∈ ks then ks else ks ++ [v]) (g.map (fun p => p.1)) := by
  induction vs with
  | nil => intro g; simp
  | cons p rest ih =>
    intro g
    simp only [List.foldl_cons, List.map_cons, ih, groupInsert_keys]

theorem lookupGroup_nil (v : Str) : lookupGroup [] v = [] := rfl

theorem lookupGroup_cons (k : Str) (fs : List String) (tl : List (Str × List String))
    (v : Str) : lookupGroup ((k, fs) :: tl) v = if k = v then fs else lookupGroup tl v := by
  unfold lookupGroup
  by_cases hk : k = v
  · rw [List.find?_cons_of_pos _ (by simp [hk])]
    simp [hk]
  · rw [List.find?_cons_of_neg _ (by simp [hk])]
    simp [hk]

theorem groupInsert_lookup (g : List (Str × List String)) (f : String) (w v : Str) :
    lookupGroup (groupInsert g f w) v =
      if w = v then lookupGroup g v ++ [f] else lookupGroup g v := by
  induction g with
  | nil =>
    by_cases hwv : w = v <;>
      simp [groupInsert, lookupGroup_cons, lookupGroup_nil, hwv]
  | cons hd tl ih =>
    obtain ⟨k, fs⟩ := hd
    by_cases hk : k = w
    · subst hk
      by_cases hv : k = v
      · subst hv
        simp [groupInsert, lookupGroup_cons]
      · have hwv : ¬ k = v := hv
        simp [groupInsert, lookupGroup_cons, hv, hwv]
    · by_cases hv : k = v
      · subst hv
        have hwv : ¬ w = k := fun h => hk h.symm
        simp [groupInsert, if_neg hk, lookupGroup_cons, hwv]
      · simp [groupInsert, if_neg hk, lookupGroup_cons, hv, ih]

theorem groupFold_lookup (vs : List (String × Str)) :
    ∀ (g : List (Str × List String)) (v : Str),
      lookupGroup (vs.foldl (fun g p => groupInsert g p.1 p.2) g) v =
        lookupGroup g v ++ (vs.filter (fun p => p.2 == v)).map (fun p => p.1) := by
  induction vs with
  | nil => intro g v; simp
  | cons p rest ih =>
    intro g v
    simp only [List.foldl_cons, ih, groupInsert_lookup, List.filter_cons]
    by_cases hv : p.2 = v
    · simp [hv]
    · simp [hv, (beq_iff_eq ..).ne.mpr hv]

theorem dedup_mem (x : Str) (l : List Str) :
    ∀ acc : List Str,
      (x ∈ l.foldl (fun ks v => if v ∈ ks then ks else ks ++ [v]) acc ↔
        x ∈ acc ∨ x ∈ l) := by
  induction l with
  | nil => intro acc; simp
  | cons v rest ih =>
    intro acc
    rw [List.foldl_cons, ih]
    by_cases hv : v ∈ acc
    · simp only [if_pos hv]
      constructor
      · rintro (h | h)
        · exact Or.inl h
        · exact Or.inr (List.mem_cons_of_mem _ h)
      · rintro (h | h)
        · exact Or.inl h
        · rcases List.mem_cons.mp h with h | h
          · subst h; exact Or.inl hv
          · exact Or.inr h
    · simp only [if_neg hv, List.mem_append, List.mem_singleton, List.mem_cons]
      tauto

theorem groupFold_all_eq (v : Str) :
    ∀ (vs : List (String × Str)) (fs : List String),
      (∀ p ∈ vs, p.2 = v) →
      vs.foldl (fun g p => groupInsert g p.1 p.2) [(v, fs)] =
        [(v, fs ++ vs.map (fun p => p.1))] := by
  intro vs
  induction vs with
  | nil => intro fs _; simp
  | cons p rest ih =>
    intro fs hall
    have hp : p.2 = v := hall p (List.mem_cons_self ..)
    rw [List.foldl_cons]
    have hgi : groupInsert [(v, fs)] p.1 p.2 = [(v, fs ++ [p.1])] := by
      simp [groupInsert, hp]
    rw [hgi, ih (fs ++ [p.1]) (fun q hq => hall q (List.mem_cons_of_mem _ hq))]
    simp

/-- C5: `ensure_consistent` returns the shared version when all (one or
more) values agree, and on two distinct values fails with the report that
lists, under each distinct version (sorted), the files carrying it
(sorted). -/
theorem C5_ensure_consistent :
    (∀ (vs : List (String × Str)) (v : Str), vs ≠ [] → (∀ p ∈ vs, p.2 = v) →
      ensure_consistent vs = .ok v) ∧
    (∀ vs : List (String × Str), (∃ p ∈ vs, ∃ q ∈ vs, p.2 ≠ q.2) →
      ensure_consistent vs = .error (.versionMismatchReport (reportSpec vs))) := by
  constructor
  · intro vs v hne hall
    rcases vs with _ | ⟨p, rest⟩
    · exact absurd rfl hne
    have hp : p.2 = v := hall p (List.mem_cons_self ..)
    have hrest : ∀ q ∈ rest, q.2 = v := fun q hq => hall q (List.mem_cons_of_mem _ hq)
    unfold ensure_consistent groupFold
    rw [List.foldl_cons]
    have : groupInsert [] p.1 p.2 = [(v, [p.1])] := by simp [groupInsert, hp]
    rw [this, groupFold_all_eq v rest [p.1] hrest]
  · intro vs ⟨p, hpmem, q, hqmem, hpq⟩
    have hkeys := groupFold_keys vs []
    have hp2 : p.2 ∈ (groupFold vs).map (fun r => r.1) := by
      unfold groupFold
      rw [hkeys]
      exact (dedup_mem _ _ _).mpr (Or.inr (List.mem_map.mpr ⟨p, hpmem, rfl⟩))
    have hq2 : q.2 ∈ (groupFold vs).map (fun r => r.1) := by
      unfold groupFold
      rw [hkeys]
      exact (dedup_mem _ _ _).mpr (Or.inr (List.mem_map.mpr ⟨q, hqmem, rfl⟩))
    have hrender : renderReport (groupFold vs) = reportSpec vs := by
      unfold renderReport reportSpec
      have hk : (groupFold vs).map (fun r => r.1) =
          dedupFirstOccurrence (vs.map (fun r => r.2)) := by
        unfold groupFold dedupFirstOccurrence
        rw [hkeys]; simp
      rw [hk]
      have hl : ∀ v, lookupGroup (groupFold vs) v =
          (vs.filter (fun r => r.2 == v)).map (fun r => r.1) := by
        intro v
        unfold groupFold
        rw [groupFold_lookup vs [] v]
        simp [lookupGroup]
      simp only [hl]
    rcases hg : groupFold vs with _ | ⟨⟨x, fs⟩, _ | ⟨b, t⟩⟩
    · rw [hg] at hp2; simp at hp2
    · rw [hg] at hp2 hq2
      simp at hp2 hq2
      exact absurd (hp2.trans hq2.symm) hpq
    · unfold ensure_consistent
      rw [hg, ← hrender, hg]

/-- Witness for C5: the spec's two examples. -/
theorem C5_ensure_consistent_witness :
    ensure_consistent [("a", str (r"1.2.3")), ("b", str (r"1.2.3")), ("c", str (r"1.2.3"))] =
      .ok (str (r"1.2.3")) ∧
    ensure_consistent [("a", str (r"1.2.3")), ("b", str (r"1.2.4"))] =
      .error (.versionMismatchReport
        (reportSpec [("a", str (r"1.2.3")), ("b", str (r"1.2.4"))])) := by
  constructor
  · exact C5_ensure_consistent.1
      [("a", str (r"1.2.3")), ("b", str (r"1.2.3")), ("c", str (r"1.2.3"))]
      (str (r"1.2.3")) (by decide) (by decide)
  · exact C5_ensure_consistent.2 [("a", str (r"1.2.3")), ("b", str (r"1.2.4"))]
      ⟨("a", str (r"1.2.3")), by decide, ("b", str (r"1.2.4")), by decide, by decide⟩

end VersionSync

namespace VersionSync

/-- C8: every value `collect_versions` returns passed the semver check,
and whenever the reads succeed but any extracted value is not semver —
from whichever registered file — the result is the `invalidSemver` error
naming that file and value (the same error kind for every file). -/
theorem C8_collect_semver_validation :
    (∀ (env : Env) (m : List (String × Str)), collect_versions env = .ok m →
      ∀ p ∈ m, semverCheck p.2 = true) ∧
    (∀ (env : Env) (m : List (String × Str)), readsPhase env = .ok m →
      (∃ p ∈ m, semverCheck p.2 = false) →
      ∃ f v, (f, v) ∈ m ∧ semverCheck v = false ∧
        collect_versions env = .error (.invalidSemver f v)) := by
  constructor
  · intro env m hok p hp
    rcases hr : readsPhase env with e | versions
    · simp only [collect_versions, hr] at hok
      exact Except.noConfusion hok
    · rcases hf : versions.find? (fun p => !(semverCheck p.2)) with _ | q
      · simp only [collect_versions, hr, hf] at hok
        have hm : versions = m := by simpa using hok
        subst hm
        have := List.find?_eq_none.mp hf p hp
        simpa using this
      · simp only [collect_versions, hr, hf] at hok
        exact Except.noConfusion hok
  · intro env m hr ⟨p, hp, hbad⟩
    have hsome : (m.find? (fun p => !(semverCheck p.2))).isSome := by
      rw [List.find?_isSome]
      exact ⟨p, hp, by simp [hbad]⟩
    rcases hf : m.find? (fun p => !(semverCheck p.2)) with _ | q
    · rw [hf] at hsome; simp at hsome
    · have hqmem := List.mem_of_find?_eq_some hf
      have hqbad : semverCheck q.2 = false := by
        have := List.find?_some hf
        simpa using this
      refine ⟨q.1, q.2, hqmem, hqbad, ?_⟩
      simp only [collect_versions, hr, hf]

/-- Witness for C8: over a registry whose `Cargo.lock` carries the
non-semver value `0`, the reads succeed and collection fails with
`invalidSemver` naming that file. -/
theorem C8_collect_semver_validation_witness :
    readsPhase envBad = .ok registryWithBad ∧
    ∃ f v, (f, v) ∈ registryWithBad ∧ semverCheck v = false ∧
      collect_versions envBad = .error (.invalidSemver f v) := by
  refine ⟨by rfl, ?_⟩
  exact C8_collect_semver_validation.2 envBad registryWithBad (by rfl)
    ⟨("Cargo.lock", str (r"0")), by decide, by decide⟩

/-- C7 (amended): given that collection and consistency succeed with
version `V` (a semver), a supplied tag passes exactly when its
whitespace-trimmed form is `v` followed by `V`; a trimmed tag that does
not match `v<semver>` fails with the tag-format error, and a well-formed
trimmed tag different from `'v' + V` fails with the distinct
tag/version-mismatch error. -/
theorem C7_check_tag (env : Env) (m : List (String × Str)) (V T : Str)
    (hc : collect_versions env = .ok m) (he : ensure_consistent m = .ok V)
    (hs : semverCheck V = true) :
    (run_check env (some T) = .ok V ↔ strip T = 'v' :: V) ∧
    (tagCheck (strip T) = false →
      run_check env (some T) = .error (.invalidTag (strip T))) ∧
    (tagCheck (strip T) = true → strip T ≠ 'v' :: V →
      run_check env (some T) = .error (.tagVersionMismatch (strip T) V)) ∧
    (∀ a b c : Str, Err.invalidTag a ≠ Err.tagVersionMismatch b c) := by
  have hrun : run_check env (some T) =
      (if tagCheck (strip T) = false then .error (.invalidTag (strip T))
       else if strip T ≠ 'v' :: V then .error (.tagVersionMismatch (strip T) V)
       else .ok V) := by
    simp only [run_check, hc, he]
  refine ⟨?_, ?_, ?_, ?_⟩
  · rw [hrun]
    constructor
    · intro hok
      by_cases h1 : tagCheck (strip T) = false
      · rw [if_pos h1] at hok; exact absurd hok (by simp)
      · rw [if_neg h1] at hok
        by_cases h2 : strip T = 'v' :: V
        · exact h2
        · rw [if_pos h2] at hok; exact absurd hok (by simp)
    · intro heq
      have htag : tagCheck (strip T) = true := by
        rw [heq]; simpa [tagCheck] using hs
      rw [if_neg (by simp [htag]), if_neg (by simp [heq])]
  · intro h1
    rw [hrun, if_pos h1]
  · intro h1 h2
    rw [hrun, if_neg (by simp [h1]), if_pos h2]
  · intro a b c h
    exact Err.noConfusion h

/-- Counterexample to C7 as stated: the check passes for a tag that is not
exactly `'v' + V` — the code strips surrounding whitespace first. -/
theorem C7_check_tag_counterexample :
    run_check envGood (some (str (r" v1.2.3"))) = .ok (str (r"1.2.3")) ∧
    str (r" v1.2.3") ≠ 'v' :: str (r"1.2.3") := by
  exact ⟨by rfl, by decide⟩

/-- Witness for C7 (amended) at concrete inputs: `v1.2.3` against version
`1.2.3` passes, `1.2.3` fails the format check, `v1.2.4` fails the
mismatch check. -/
theorem C7_check_tag_witness :
    run_check envGood (some (str (r"v1.2.3"))) = .ok (str (r"1.2.3")) ∧
    run_check envGood (some (str (r"1.2.3"))) =
      .error (.invalidTag (str (r"1.2.3"))) ∧
    run_check envGood (some (str (r"v1.2.4"))) =
      .error (.tagVersionMismatch (str (r"v1.2.4")) (str (r"1.2.3"))) := by
  have h1 := (C7_check_tag envGood registryAllGood (str (r"1.2.3")) (str (r"v1.2.3"))
    (by rfl) (by rfl) (by decide)).1.mpr (by decide)
  have h2 := (C7_check_tag envGood registryAllGood (str (r"1.2.3")) (str (r"1.2.3"))
    (by rfl) (by rfl) (by decide)).2.1 (by decide)
  have h3 := (C7_check_tag envGood registryAllGood (str (r"1.2.3")) (str (r"v1.2.4"))
    (by rfl) (by rfl) (by decide)).2.2.1 (by decide) (by decide)
  refine ⟨h1, ?_, ?_⟩
  · have : strip (str (r"1.2.3")) = str (r"1.2.3") := by decide
    rw [this] at h2
    exact h2
  · have : strip (str (r"v1.2.4")) = str (r"v1.2.4") := by decide
    rw [this] at h3
    exact h3

end VersionSync

namespace VersionSync

/-! ### Whitespace, `strip` and `split_line_ending` lemmas -/

theorem takeWhile_append_all (p : Char → Bool) (w rest : Str)
    (hw : ∀ c ∈ w, p c = true) :
    (w ++ rest).takeWhile p = w ++ rest.takeWhile p := by
  induction w with
  | nil => simp
  | cons x t ih =>
    have hx : p x = true := hw x (by simp)
    simp only [List.cons_append, List.takeWhile_cons, hx, if_true]
    rw [ih (fun c hc => hw c (by simp [hc]))]

theorem dropWhile_append_all (p : Char → Bool) (w rest : Str)
    (hw : ∀ c ∈ w, p c = true) :
    (w ++ rest).dropWhile p = rest.dropWhile p := by
  induction w with
  | nil => simp
  | cons x t ih =>
    have hx : p x = true := hw x (by simp)
    simp only [List.cons_append, List.dropWhile_cons, hx, if_true]
    exact ih (fun c hc => hw c (by simp [hc]))

theorem takeWhile_all (p : Char → Bool) (w : Str) (hw : ∀ c ∈ w, p c = true) :
    w.takeWhile p = w := by
  have := takeWhile_append_all p w [] hw
  simpa using this

theorem dropWhile_all (p : Char → Bool) (w : Str) (hw : ∀ c ∈ w, p c = true) :
    w.dropWhile p = [] := by
  have := dropWhile_append_all p w [] hw
  simpa using this

theorem dropWhile_cons_false (p : Char → Bool) (x : Char) (t : Str)
    (hx : p x = false) : (x :: t).dropWhile p = x :: t := by
  simp [List.dropWhile_cons, hx]

theorem takeWhile_cons_false (p : Char → Bool) (x : Char) (t : Str)
    (hx : p x = false) : (x :: t).takeWhile p = [] := by
  simp [List.takeWhile_cons, hx]

/-- `dropWhile` over an append, by cases on the first part. -/
theorem dropWhile_append_cases (p : Char → Bool) (a b : Str) :
    (a ++ b).dropWhile p =
      if a.dropWhile p = [] then b.dropWhile p else a.dropWhile p ++ b := by
  induction a with
  | nil => simp
  | cons x t ih =>
    by_cases hx : p x
    · simp only [List.cons_append, List.dropWhile_cons, hx, if_true, ih]
    · simp [List.dropWhile_cons, hx]

theorem stripEnd_append_all (s e : Str) (he : allSpace e) :
    stripEnd (s ++ e) = stripEnd s := by
  unfold stripEnd
  rw [List.reverse_append, dropWhile_append_all _ _ _
    (fun c hc => he c (List.mem_reverse.mp hc))]

theorem stripEnd_of_getLast (s : Str) (y : Char) (hy : s.getLast? = some y)
    (hns : pySpace y = false) : stripEnd s = s := by
  unfold stripEnd
  rcases hr : s.reverse with _ | ⟨c, t⟩
  · simp at hr
    subst hr; rfl
  · have hc : c = y := by
      have : s.reverse.head? = some y := by rw [List.head?_reverse]; exact hy
      rw [hr] at this
      simpa using this
    subst hc
    rw [dropWhile_cons_false _ _ _ hns, ← hr, List.reverse_reverse]

theorem strip_eq_stripEnd (s : Str) : strip s = stripEnd (s.dropWhile pySpace) := rfl

theorem strip_append_right_all (s e : Str) (he : allSpace e) :
    strip (s ++ e) = strip s := by
  rw [strip_eq_stripEnd, strip_eq_stripEnd, dropWhile_append_cases]
  by_cases hs : s.dropWhile pySpace = []
  · rw [if_pos hs, hs, dropWhile_all pySpace e he]
  · rw [if_neg hs, stripEnd_append_all _ _ he]

/-- Evaluate `strip` on a string of the shape whitespace, core, whitespace,
given the core starts and ends with a non-whitespace character. -/
theorem strip_eval (lead core trail : Str) (hl : allSpace lead) (ht : allSpace trail)
    (x : Char) (hx : core.head? = some x) (hxs : pySpace x = false)
    (y : Char) (hy : core.getLast? = some y) (hys : pySpace y = false) :
    strip (lead ++ core ++ trail) = core := by
  rcases core with _ | ⟨c, ct⟩
  · simp at hx
  · have hcx : c = x := by simpa using hx
    subst hcx
    rw [strip_eq_stripEnd, List.append_assoc, dropWhile_append_all _ _ _ hl,
      List.cons_append, dropWhile_cons_false _ _ _ hxs, ← List.cons_append,
      stripEnd_append_all _ _ ht, stripEnd_of_getLast _ y hy hys]

theorem dropWhile_head_not (p : Char → Bool) :
    ∀ (s : Str) (x : Char) (t : Str), s.dropWhile p = x :: t → p x = false := by
  intro s
  induction s with
  | nil => intro x t h; simp at h
  | cons c cr ih =>
    intro x t h
    by_cases hc : p c
    · rw [List.dropWhile_cons, if_pos hc] at h
      exact ih x t h
    · rw [dropWhile_cons_false _ _ _ (by simpa using hc)] at h
      cases h
      simpa using hc

/-- Decompose a string around its `strip`: whitespace, the stripped core,
whitespace. -/
theorem strip_decomp (s : Str) :
    ∃ lead trail, s = lead ++ strip s ++ trail ∧ allSpace lead ∧ allSpace trail := by
  refine ⟨s.takeWhile pySpace,
    (((s.dropWhile pySpace).reverse.takeWhile pySpace)).reverse, ?_, ?_, ?_⟩
  · rw [strip_eq_stripEnd]
    conv_lhs => rw [← List.takeWhile_append_dropWhile (p := pySpace) (l := s)]
    rw [List.append_assoc]
    congr 1
    unfold stripEnd
    conv_lhs => rw [← List.reverse_reverse (s.dropWhile pySpace),
      ← List.takeWhile_append_dropWhile (p := pySpace) (l := (s.dropWhile pySpace).reverse)]
    rw [List.reverse_append]
  · exact fun c hc => List.mem_takeWhile_imp hc
  · exact fun c hc => List.mem_takeWhile_imp (List.mem_reverse.mp hc)

theorem strip_head_not_space (s : Str) (x : Char) (t : Str)
    (h : strip s = x :: t) : pySpace x = false := by
  obtain ⟨lead, trail, hdec, _, _⟩ := strip_decomp s
  rw [strip_eq_stripEnd] at h
  have hds : s.dropWhile pySpace = (x :: t) ++
      ((s.dropWhile pySpace).reverse.takeWhile pySpace).reverse := by
    conv_lhs => rw [← List.reverse_reverse (s.dropWhile pySpace),
      ← List.takeWhile_append_dropWhile (p := pySpace) (l := (s.dropWhile pySpace).reverse)]
    rw [List.reverse_append]
    unfold stripEnd at h
    rw [h]
  exact dropWhile_head_not pySpace s x _ hds

theorem strip_getLast_not_space (s : Str) (y : Char)
    (h : (strip s).getLast? = some y) : pySpace y = false := by
  rw [strip_eq_stripEnd] at h
  unfold stripEnd at h
  rw [← List.head?_reverse, List.reverse_reverse] at h
  rcases hd : (s.dropWhile pySpace).reverse.dropWhile pySpace with _ | ⟨c, t⟩
  · rw [hd] at h; simp at h
  · rw [hd] at h
    have : c = y := by simpa using h
    subst this
    exact dropWhile_head_not pySpace _ _ _ hd

/-! #### `split_line_ending` on shaped lines -/

theorem sle_rn (b : Str) :
    split_line_ending (b ++ ['\r', '\n']) = (b, ['\r', '\n']) := by
  unfold split_line_ending
  rw [if_pos (List.isSuffixOf_iff_suffix.mpr ⟨b, rfl⟩)]
  have : (b ++ ['\r', '\n']) = (b ++ ['\r']) ++ ['\n'] := by simp
  rw [this, List.dropLast_concat, List.dropLast_concat]

theorem sle_n (b : Str) (hb : '\r' ∉ b) :
    split_line_ending (b ++ ['\n']) = (b, ['\n']) := by
  unfold split_line_ending
  rw [if_neg, if_pos (List.isSuffixOf_iff_suffix.mpr ⟨b, rfl⟩), List.dropLast_concat]
  intro hsuf
  obtain ⟨t, ht⟩ := List.isSuffixOf_iff_suffix.mp hsuf
  have : t ++ ['\r'] = b := by
    have h2 : (t ++ ['\r']) ++ ['\n'] = b ++ ['\n'] := by simpa using ht
    have := congrArg List.dropLast h2
    simpa [List.dropLast_concat] using this
  exact hb (this ▸ (by simp : '\r' ∈ t ++ ['\r']))

theorem sle_r (b : Str) :
    split_line_ending (b ++ ['\r']) = (b, ['\r']) := by
  unfold split_line_ending
  rw [if_neg, if_neg, if_pos (List.isSuffixOf_iff_suffix.mpr ⟨b, rfl⟩),
    List.dropLast_concat]
  · intro hsuf
    obtain ⟨t, ht⟩ := List.isSuffixOf_iff_suffix.mp hsuf
    have h1 : (b ++ ['\r']).getLast? = some '\r' := List.getLast?_concat ..
    rw [← ht] at h1
    have h2 : (t ++ ['\n']).getLast? = some '\n' := List.getLast?_concat ..
    rw [h1] at h2
    simp at h2
  · intro hsuf
    obtain ⟨t, ht⟩ := List.isSuffixOf_iff_suffix.mp hsuf
    have h1 : (b ++ ['\r']).getLast? = some '\r' := List.getLast?_concat ..
    rw [← ht] at h1
    have h2 : (t ++ ['\r', '\n']).getLast? = some '\n' := by
      have : t ++ ['\r', '\n'] = (t ++ ['\r']) ++ ['\n'] := by simp
      rw [this]
      exact List.getLast?_concat ..
    rw [h1] at h2
    simp at h2

theorem sle_body (b : Str) (hb : noNL b) : split_line_ending b = (b, []) := by
  unfold split_line_ending
  rw [if_neg, if_neg, if_neg]
  · intro hsuf
    obtain ⟨t, ht⟩ := List.isSuffixOf_iff_suffix.mp hsuf
    exact absurd rfl (hb '\r' (ht ▸ (by simp : '\r' ∈ t ++ ['\r']))).2
  · intro hsuf
    obtain ⟨t, ht⟩ := List.isSuffixOf_iff_suffix.mp hsuf
    exact absurd rfl (hb '\n' (ht ▸ (by simp : '\n' ∈ t ++ ['\n']))).1
  · intro hsuf
    obtain ⟨t, ht⟩ := List.isSuffixOf_iff_suffix.mp hsuf
    exact absurd rfl (hb '\n' (ht ▸ (by simp : '\n' ∈ t ++ ['\r', '\n']))).1

theorem sle_join (l : Str) :
    (split_line_ending l).1 ++ (split_line_ending l).2 = l := by
  unfold split_line_ending
  by_cases h1 : ['\r', '\n'].isSuffixOf l
  · obtain ⟨t, ht⟩ := List.isSuffixOf_iff_suffix.mp h1
    rw [if_pos h1, ← ht]
    have : t ++ ['\r', '\n'] = (t ++ ['\r']) ++ ['\n'] := by simp
    rw [this, List.dropLast_concat, List.dropLast_concat]
    simp
  · rw [if_neg h1]
    by_cases h2 : ['\n'].isSuffixOf l
    · obtain ⟨t, ht⟩ := List.isSuffixOf_iff_suffix.mp h2
      rw [if_pos h2, ← ht, List.dropLast_concat]
    · rw [if_neg h2]
      by_cases h3 : ['\r'].isSuffixOf l
      · obtain ⟨t, ht⟩ := List.isSuffixOf_iff_suffix.mp h3
        rw [if_pos h3, ← ht, List.dropLast_concat]
      · rw [if_neg h3]
        simp

theorem lineEnding_cases (l : Str) :
    lineEnding l = [] ∨ lineEnding l = ['\n'] ∨ lineEnding l = ['\r', '\n'] ∨
      lineEnding l = ['\r'] := by
  unfold lineEnding split_line_ending
  by_cases h1 : ['\r', '\n'].isSuffixOf l
  · simp [h1]
  · by_cases h2 : ['\n'].isSuffixOf l
    · simp [h1, h2]
    · by_cases h3 : ['\r'].isSuffixOf l <;> simp [h1, h2, h3]

theorem lineEnding_allSpace (l : Str) : allSpace (lineEnding l) := by
  rcases lineEnding_cases l with h | h | h | h <;> rw [h]
  · intro c hc; simp at hc
  · intro c hc; simp at hc; subst hc; rfl
  · intro c hc; simp at hc; rcases hc with hc | hc <;> subst hc <;> rfl
  · intro c hc; simp at hc; subst hc; rfl

/-- `strip` does not see the line terminator. -/
theorem strip_line_eq_strip_body (l : Str) : strip l = strip (lineBody l) := by
  conv_lhs => rw [← sle_join l]
  exact strip_append_right_all _ _ (lineEnding_allSpace l)

end VersionSync

namespace VersionSync

/-! ### `keyQuoted` parser lemmas -/

theorem keyQuoted_sound (key s g c rest : Str)
    (h : keyQuoted key s = some (g, c, rest)) :
    ∃ w2 w3, s = g ++ c ++ ['"'] ++ rest ∧
      g = key ++ w2 ++ ['='] ++ w3 ++ ['"'] ∧ allSpace w2 ∧ allSpace w3 ∧
      c ≠ [] ∧ '"' ∉ c := by
  unfold keyQuoted at h
  split at h
  case isFalse => simp at h
  case isTrue hpre =>
    obtain ⟨tail, htail⟩ := List.isPrefixOf_iff_prefix.mp hpre
    have hdrop : s.drop key.length = tail := by
      rw [← htail]; exact List.drop_left ..
    rw [hdrop] at h
    simp only [] at h
    split at h
    rotate_left
    · simp at h
    rename_i s2 hd1
    split at h
    rotate_left
    · simp at h
    rename_i s3 hd2
    split at h
    rotate_left
    · simp at h
    rename_i rest' hd3
    split at h
    · simp at h
    rename_i hcon
    simp only [Option.some.injEq, Prod.mk.injEq] at h
    obtain ⟨hg, hc, hr⟩ := h
    refine ⟨tail.takeWhile pySpace, s2.takeWhile pySpace, ?_, ?_, ?_, ?_, ?_, ?_⟩
    · rw [← htail, ← hg, ← hc, ← hr]
      have e1 : tail = tail.takeWhile pySpace ++ '=' :: s2 := by
        conv_lhs => rw [← List.takeWhile_append_dropWhile (p := pySpace) (l := tail)]
        rw [hd1]
      have e2 : s2 = s2.takeWhile pySpace ++ '"' :: s3 := by
        conv_lhs => rw [← List.takeWhile_append_dropWhile (p := pySpace) (l := s2)]
        rw [hd2]
      have e3 : s3 = s3.takeWhile (fun ch => ch ≠ '"') ++ '"' :: rest' := by
        conv_lhs => rw [← List.takeWhile_append_dropWhile
          (p := fun ch => (ch ≠ '"' : Bool)) (l := s3)]
        rw [hd3]
      conv_lhs => rw [e1, e2]
      conv_lhs => rw [e3]
      simp
    · rw [← hg]
    · exact fun ch hch => List.mem_takeWhile_imp hch
    · exact fun ch hch => List.mem_takeWhile_imp hch
    · rw [← hc]; exact hcon
    · rw [← hc]
      intro hq
      have := List.mem_takeWhile_imp hq
      simp at this

end VersionSync

namespace VersionSync

/-- Evaluate `keyQuoted` on input of exactly the matching shape. -/
theorem keyQuoted_eval (key w2 w3 c rest : Str) (hw2 : allSpace w2) (hw3 : allSpace w3)
    (hc : c ≠ []) (hcq : '"' ∉ c) :
    keyQuoted key (key ++ w2 ++ ['='] ++ w3 ++ ['"'] ++ c ++ ['"'] ++ rest) =
      some (key ++ w2 ++ ['='] ++ w3 ++ ['"'], c, rest) := by
  have hshape : key ++ w2 ++ ['='] ++ w3 ++ ['"'] ++ c ++ ['"'] ++ rest =
      key ++ (w2 ++ '=' :: (w3 ++ '"' :: (c ++ '"' :: rest))) := by simp
  rw [hshape]
  unfold keyQuoted
  rw [if_pos (List.isPrefixOf_iff_prefix.mpr ⟨_, rfl⟩), List.drop_left]
  simp only []
  have hd1 : (w2 ++ '=' :: (w3 ++ '"' :: (c ++ '"' :: rest))).dropWhile pySpace =
      '=' :: (w3 ++ '"' :: (c ++ '"' :: rest)) := by
    rw [dropWhile_append_all _ _ _ hw2, dropWhile_cons_false]
    rfl
  have ht1 : (w2 ++ '=' :: (w3 ++ '"' :: (c ++ '"' :: rest))).takeWhile pySpace = w2 := by
    rw [takeWhile_append_all _ _ _ hw2, takeWhile_cons_false]
    · simp
    · rfl
  rw [hd1, ht1]
  simp only []
  have hd2 : (w3 ++ '"' :: (c ++ '"' :: rest)).dropWhile pySpace =
      '"' :: (c ++ '"' :: rest) := by
    rw [dropWhile_append_all _ _ _ hw3, dropWhile_cons_false]
    rfl
  have ht2 : (w3 ++ '"' :: (c ++ '"' :: rest)).takeWhile pySpace = w3 := by
    rw [takeWhile_append_all _ _ _ hw3, takeWhile_cons_false]
    · simp
    · rfl
  rw [hd2, ht2]
  simp only []
  have hcall : ∀ ch ∈ c, (fun x => (x ≠ '"' : Bool)) ch = true := by
    intro ch hch
    simp only [decide_eq_true_iff]
    intro hx
    exact hcq (hx ▸ hch)
  have hd3 : (c ++ '"' :: rest).dropWhile (fun x => x ≠ '"') = '"' :: rest := by
    rw [dropWhile_append_all _ _ _ hcall, dropWhile_cons_false]
    simp
  have ht3 : (c ++ '"' :: rest).takeWhile (fun x => x ≠ '"') = c := by
    rw [takeWhile_append_all _ _ _ hcall, takeWhile_cons_false]
    · simp
    · simp
  rw [hd3, ht3]
  simp only []
  rw [if_neg hc]

end VersionSync

namespace VersionSync

/-! ### `noNL` helpers and derived parser lemmas -/

theorem noNL_append (a b : Str) : noNL (a ++ b) ↔ noNL a ∧ noNL b := by
  unfold noNL
  constructor
  · intro h
    exact ⟨fun c hc => h c (List.mem_append.mpr (Or.inl hc)),
           fun c hc => h c (List.mem_append.mpr (Or.inr hc))⟩
  · intro ⟨ha, hb⟩ c hc
    rcases List.mem_append.mp hc with hc | hc
    · exact ha c hc
    · exact hb c hc

theorem noNL_of_sub (a b : Str) (hsub : ∀ c ∈ a, c ∈ b) (hb : noNL b) : noNL a :=
  fun c hc => hb c (hsub c hc)

theorem mem_of_mem_dropWhile {α : Type} (p : α → Bool) (l : List α) (x : α)
    (h : x ∈ l.dropWhile p) : x ∈ l := by
  have hs := List.takeWhile_append_dropWhile (p := p) (l := l)
  rw [← hs]
  exact List.mem_append.mpr (Or.inr h)

theorem mem_of_mem_takeWhile {α : Type} (p : α → Bool) (l : List α) (x : α)
    (h : x ∈ l.takeWhile p) : x ∈ l := by
  have hs := List.takeWhile_append_dropWhile (p := p) (l := l)
  rw [← hs]
  exact List.mem_append.mpr (Or.inl h)

/-- Soundness of the rewrite pattern on a newline-free body: the body is
exactly group1, group2, group3, with the shapes of the pattern. -/
theorem writeVersionMatch_sound (b g1 c g3 : Str) (hb : noNL b)
    (h : writeVersionMatch b = some (g1, c, g3)) :
    ∃ lead w2 w3 tail,
      b = g1 ++ c ++ g3 ∧
      g1 = lead ++ str (r"version") ++ w2 ++ ['='] ++ w3 ++ ['"'] ∧
      g3 = '"' :: tail ∧ noNL tail ∧
      allSpace lead ∧ allSpace w2 ∧ allSpace w3 ∧
      c ≠ [] ∧ '"' ∉ c := by
  unfold writeVersionMatch at h
  rcases hk : keyQuoted (str (r"version")) (b.dropWhile pySpace) with _ | ⟨g, c', rest⟩
  · rw [hk] at h; simp at h
  · rw [hk] at h
    simp only [] at h
    obtain ⟨w2, w3, hsplit, hg, hw2, hw3, hc', hcq⟩ :=
      keyQuoted_sound (str (r"version")) _ g c' rest hk
    have hrest_sub : ∀ ch ∈ rest, ch ∈ b := by
      intro ch hch
      apply mem_of_mem_dropWhile pySpace
      rw [hsplit]
      simp [hch]
    have hrestNL : noNL rest := noNL_of_sub _ _ hrest_sub hb
    have hds : dotStarEnd rest = some rest := by
      unfold dotStarEnd
      rw [if_neg]
      intro hmem
      exact absurd rfl (hrestNL '\n' hmem).1
    rw [hds] at h
    simp only [Option.some.injEq, Prod.mk.injEq] at h
    obtain ⟨hg1, hc, hg3⟩ := h
    refine ⟨b.takeWhile pySpace, w2, w3, rest, ?_, ?_, ?_, hrestNL, ?_, hw2, hw3, ?_, ?_⟩
    · rw [← hg1, ← hc, ← hg3]
      conv_lhs => rw [← List.takeWhile_append_dropWhile (p := pySpace) (l := b)]
      rw [hsplit]
      simp
    · rw [← hg1, hg]
      simp
    · rw [← hg3]
    · exact fun ch hch => List.mem_takeWhile_imp hch
    · rw [← hc]; exact hc'
    · rw [← hc]; exact hcq

/-- On a newline-free body the reader pattern and the rewrite pattern agree:
the rewrite pattern matches exactly when the reader pattern does, with the
same quoted group. -/
theorem readTomlMatch_eq_writeVersionMatch (b : Str) (hb : noNL b) :
    readTomlMatch b = (writeVersionMatch b).map (fun g => g.2.1) := by
  unfold readTomlMatch writeVersionMatch
  rcases hk : keyQuoted (str (r"version")) (b.dropWhile pySpace) with _ | ⟨g, c', rest⟩
  · simp
  · obtain ⟨w2, w3, hsplit, hg, hw2, hw3, hc', hcq⟩ :=
      keyQuoted_sound (str (r"version")) _ g c' rest hk
    have hrest_sub : ∀ ch ∈ rest, ch ∈ b := by
      intro ch hch
      apply mem_of_mem_dropWhile pySpace
      rw [hsplit]
      simp [hch]
    have hrestNL : noNL rest := noNL_of_sub _ _ hrest_sub hb
    have hds : dotStarEnd rest = some rest := by
      unfold dotStarEnd
      rw [if_neg]
      intro hmem
      exact absurd rfl (hrestNL '\n' hmem).1
    simp only []
    rw [hds]
    simp

/-- The head of `str "version"` is `v`, so a matching core is never a
section header or a lock marker, and whitespace stripping keeps its head. -/
theorem strip_cons_head (lead : Str) (hl : allSpace lead) (x : Char)
    (hx : pySpace x = false) (t : Str) :
    ∃ t', strip (lead ++ x :: t) = x :: t' := by
  rw [strip_eq_stripEnd, dropWhile_append_all _ _ _ hl, dropWhile_cons_false _ _ _ hx]
  unfold stripEnd
  rw [List.reverse_cons, dropWhile_append_cases]
  by_cases ht : t.reverse.dropWhile pySpace = []
  · rw [if_pos ht, dropWhile_cons_false _ _ _ hx]
    exact ⟨[], rfl⟩
  · rw [if_neg ht, List.reverse_append]
    exact ⟨(t.reverse.dropWhile pySpace).reverse, by simp⟩

theorem sectionHeaderB_of_head (x : Char) (t : Str) (hx : x ≠ '[') :
    sectionHeaderB (x :: t) = false := by
  unfold sectionHeaderB
  have : (str (r"[")).isPrefixOf (x :: t) = false := by
    rcases hp : (str (r"[")).isPrefixOf (x :: t) with _ | _
    · rfl
    · obtain ⟨u, hu⟩ := List.isPrefixOf_iff_prefix.mp hp
      have : '[' = x := by
        have := congrArg List.head? hu
        simpa [str] using this
      exact absurd this.symm hx
  rw [this]
  rfl

theorem ne_lockMarker_of_head (x : Char) (t : Str) (hx : x ≠ '[') :
    (x :: t : Str) ≠ lockMarker := by
  intro h
  have := congrArg List.head? h
  simp [lockMarker, str] at this
  exact hx this

end VersionSync

namespace VersionSync

/-! ### Lock-format version-line lemmas -/

/-- A line body whose stripped form matches the detection pattern
`^version\s*=\s*"[^"]+"$` decomposes so that the rewrite pattern matches
it, with the same quoted group (the heart of claim C10). -/
theorem lock_detect_rewrite (b c : Str) (hb : noNL b)
    (h : lockVersionMatch (strip b) = some c) :
    ∃ lead g trail,
      b = lead ++ (g ++ c ++ ['"']) ++ trail ∧
      strip b = g ++ c ++ ['"'] ∧
      allSpace lead ∧ allSpace trail ∧ noNL trail ∧
      writeVersionMatch b = some (lead ++ g, c, '"' :: trail) ∧
      (∃ w2 w3, g = str (r"version") ++ w2 ++ ['='] ++ w3 ++ ['"'] ∧
        allSpace w2 ∧ allSpace w3) ∧
      c ≠ [] ∧ '"' ∉ c := by
  unfold lockVersionMatch lockKeyMatch at h
  rcases hk : keyQuoted (str (r"version")) (strip b) with _ | ⟨g, c', rest0⟩
  · rw [hk] at h; simp at h
  · rw [hk] at h
    simp only [] at h
    split at h
    rotate_left
    · simp at h
    rename_i hrest0
    have hcc : c' = c := by simpa using h
    subst hcc
    obtain ⟨w2, w3, hsplit, hg, hw2, hw3, hcne, hcq⟩ :=
      keyQuoted_sound (str (r"version")) _ g c' rest0 hk
    have hrest0_nil : rest0 = [] := by
      rcases hrest0 with h0 | h0
      · exact h0
      · exfalso
        have hlast : (strip b).getLast? = some '\n' := by
          rw [hsplit, h0]
          have hx : g ++ c' ++ ['"'] ++ ['\n'] = (g ++ c' ++ ['"']) ++ ['\n'] := by simp
          rw [hx, List.getLast?_concat]
        have := strip_getLast_not_space b '\n' hlast
        simp [pySpace] at this
    subst hrest0_nil
    have hstripb : strip b = g ++ c' ++ ['"'] := by simpa using hsplit
    obtain ⟨lead, trail, hdec, hlead, htrail⟩ := strip_decomp b
    rw [hstripb] at hdec
    have hdec' : b = lead ++ (g ++ c' ++ ['"']) ++ trail := by
      rw [hdec]
    have htrailNL : noNL trail := by
      apply noNL_of_sub _ _ _ hb
      intro ch hch
      rw [hdec']
      simp [hch]
    refine ⟨lead, g, trail, hdec', hstripb, hlead, htrail, htrailNL, ?_,
      ⟨w2, w3, hg, hw2, hw3⟩, hcne, hcq⟩
    have hgt : g = 'v' :: (g.tail) := by
      rw [hg]
      rfl
    unfold writeVersionMatch
    have hbshape : b = lead ++ ('v' :: (g.tail ++ c' ++ ['"'] ++ trail)) := by
      conv_lhs => rw [hdec', hgt]
      simp
    have hdw : b.dropWhile pySpace = g ++ c' ++ ['"'] ++ trail := by
      conv_lhs => rw [hbshape]
      rw [dropWhile_append_all _ _ _ hlead, dropWhile_cons_false _ _ _ (by rfl)]
      conv_rhs => rw [hgt]
      simp
    have htw : b.takeWhile pySpace = lead := by
      conv_lhs => rw [hbshape]
      rw [takeWhile_append_all _ _ _ hlead, takeWhile_cons_false _ _ _ (by rfl)]
      simp
    have hkq : keyQuoted (str (r"version")) (g ++ c' ++ ['"'] ++ trail) =
        some (g, c', trail) := by
      have he := keyQuoted_eval (str (r"version")) w2 w3 c' trail hw2 hw3 hcne hcq
      rw [← hg] at he
      exact he
    rw [hdw, hkq]
    simp only []
    have hds : dotStarEnd trail = some trail := by
      unfold dotStarEnd
      rw [if_neg]
      intro hmem
      exact absurd rfl (htrailNL '\n' hmem).1
    rw [hds, htw]

/-- After substituting a nonempty quote-free value between the quotes, the
stripped line again matches the detection pattern, with the new value as
its group. -/
theorem lock_detect_subst (lead g trail v : Str) (hlead : allSpace lead)
    (htrail : allSpace trail)
    (hg : ∃ w2 w3, g = str (r"version") ++ w2 ++ ['='] ++ w3 ++ ['"'] ∧
      allSpace w2 ∧ allSpace w3)
    (hv : v ≠ []) (hvq : '"' ∉ v) :
    lockVersionMatch (strip (lead ++ (g ++ v ++ ['"']) ++ trail)) = some v := by
  obtain ⟨w2, w3, hgeq, hw2, hw3⟩ := hg
  have hghead : (g ++ v ++ ['"']).head? = some 'v' := by
    rw [hgeq]
    rfl
  have hglast : (g ++ v ++ ['"']).getLast? = some '"' := by
    have hx : g ++ v ++ ['"'] = (g ++ v) ++ ['"'] := by simp
    rw [hx, List.getLast?_concat]
  rw [strip_eval lead (g ++ v ++ ['"']) trail hlead htrail 'v' hghead (by rfl)
    '"' hglast (by rfl)]
  unfold lockVersionMatch lockKeyMatch
  have hkq : keyQuoted (str (r"version")) (g ++ v ++ ['"']) = some (g, v, []) := by
    have he := keyQuoted_eval (str (r"version")) w2 w3 v [] hw2 hw3 hv hvq
    rw [← hgeq] at he
    have hx : g ++ v ++ ['"'] ++ ([] : Str) = g ++ v ++ ['"'] := by simp
    rw [hx] at he
    exact he
  rw [hkq]
  simp

/-- The reader pattern of the TOML scan matches the substituted body with
the new value as its group. -/
theorem readTomlMatch_subst (lead g rest2 v : Str) (hlead : allSpace lead)
    (hg : ∃ w2 w3, g = str (r"version") ++ w2 ++ ['='] ++ w3 ++ ['"'] ∧
      allSpace w2 ∧ allSpace w3)
    (hv : v ≠ []) (hvq : '"' ∉ v) :
    readTomlMatch (lead ++ g ++ v ++ '"' :: rest2) = some v := by
  obtain ⟨w2, w3, hgeq, hw2, hw3⟩ := hg
  have hgt : g = 'v' :: g.tail := by rw [hgeq]; rfl
  have hshape : lead ++ g ++ v ++ '"' :: rest2 =
      lead ++ ('v' :: (g.tail ++ v ++ '"' :: rest2)) := by
    conv_lhs => rw [hgt]
    simp
  unfold readTomlMatch
  have hdw : (lead ++ g ++ v ++ '"' :: rest2).dropWhile pySpace =
      g ++ v ++ '"' :: rest2 := by
    conv_lhs => rw [hshape]
    rw [dropWhile_append_all _ _ _ hlead, dropWhile_cons_false _ _ _ (by rfl)]
    conv_rhs => rw [hgt]
    simp
  rw [hdw]
  have hkq : keyQuoted (str (r"version")) (g ++ v ++ '"' :: rest2) =
      some (g, v, rest2) := by
    have he := keyQuoted_eval (str (r"version")) w2 w3 v rest2 hw2 hw3 hv hvq
    rw [← hgeq] at he
    have hx : g ++ v ++ ['"'] ++ rest2 = g ++ v ++ '"' :: rest2 := by simp
    rw [hx] at he
    exact he
  rw [hkq]
  simp

end VersionSync

namespace VersionSync

/-! ### Structure of `splitLinesKeep` output -/

theorem firstLine_shape : ∀ s : Str, s ≠ [] →
    ∃ b e, (firstLine s).1 = b ++ e ∧ noNL b ∧
      (e = ['\n'] ∨ e = ['\r', '\n'] ∨ e = ['\r'] ∨ e = []) ∧
      (e = [] → (firstLine s).2 = []) ∧
      (e = ['\r'] → (firstLine s).2.head? ≠ some '\n') := by
  intro s
  induction s with
  | nil => intro h; exact absurd rfl h
  | cons c rest ih =>
    intro _
    by_cases h1 : c = '\n'
    · subst h1
      refine ⟨[], ['\n'], by simp [firstLine], by intro x hx; simp at hx, by simp, ?_, ?_⟩
      · intro h; simp at h
      · intro h; simp at h
    · by_cases h2 : c = '\r'
      · subst h2
        by_cases h3 : rest.head? = some '\n'
        · refine ⟨[], ['\r', '\n'], by simp [firstLine, h3], by intro x hx; simp at hx,
            by simp, ?_, ?_⟩
          · intro h; simp at h
          · intro h; simp at h
        · refine ⟨[], ['\r'], by simp [firstLine, h3], by intro x hx; simp at hx,
            by simp, ?_, ?_⟩
          · intro h; simp at h
          · intro _
            simp [firstLine, h3]
      · by_cases hr : rest = []
        · subst hr
          refine ⟨[c], [], by simp [firstLine, h1, h2], ?_, by simp, ?_, ?_⟩
          · intro x hx
            simp at hx
            subst hx
            exact ⟨h1, h2⟩
          · intro _; simp [firstLine, h1, h2]
          · intro h; simp at h
        · obtain ⟨b, e, hbe, hb, he, hee, her⟩ := ih hr
          refine ⟨c :: b, e, ?_, ?_, he, ?_, ?_⟩
          · simp [firstLine, h1, h2, hbe]
          · intro x hx
            rcases List.mem_cons.mp hx with hx | hx
            · subst hx; exact ⟨h1, h2⟩
            · exact hb x hx
          · intro h
            simp [firstLine, h1, h2]
            exact hee h
          · intro h
            simp only [firstLine, h1, h2, if_neg]
            simpa using her h

theorem firstLine_head (s : Str) (hs : s ≠ []) :
    (firstLine s).1.head? = s.head? := by
  rcases s with _ | ⟨c, rest⟩
  · exact absurd rfl hs
  · by_cases h1 : c = '\n'
    · simp [firstLine, h1]
    · by_cases h2 : c = '\r'
      · by_cases h3 : rest.head? = some '\n' <;> simp [firstLine, h1, h2, h3]
      · simp [firstLine, h1, h2]

theorem firstLine_eval_n (b t : Str) (hb : noNL b) :
    firstLine (b ++ '\n' :: t) = (b ++ ['\n'], t) := by
  induction b with
  | nil => simp [firstLine]
  | cons x bt ih =>
    have hx := hb x (by simp)
    have : noNL bt := fun c hc => hb c (by simp [hc])
    simp [firstLine, hx.1, hx.2, ih this]

theorem firstLine_eval_rn (b t : Str) (hb : noNL b) :
    firstLine (b ++ '\r' :: '\n' :: t) = (b ++ ['\r', '\n'], t) := by
  induction b with
  | nil => simp [firstLine]
  | cons x bt ih =>
    have hx := hb x (by simp)
    have : noNL bt := fun c hc => hb c (by simp [hc])
    simp [firstLine, hx.1, hx.2, ih this]

theorem firstLine_eval_r (b t : Str) (hb : noNL b) (ht : t.head? ≠ some '\n') :
    firstLine (b ++ '\r' :: t) = (b ++ ['\r'], t) := by
  induction b with
  | nil =>
    rcases t with _ | ⟨c, t'⟩
    · simp [firstLine]
    · have : c ≠ '\n' := fun h => ht (by simp [h])
      simp [firstLine, this]
  | cons x bt ih =>
    have hx := hb x (by simp)
    have : noNL bt := fun c hc => hb c (by simp [hc])
    simp [firstLine, hx.1, hx.2, ih this]

theorem firstLine_eval_body (b : Str) (hb : noNL b) :
    firstLine b = (b, []) := by
  induction b with
  | nil => simp [firstLine]
  | cons x bt ih =>
    have hx := hb x (by simp)
    have : noNL bt := fun c hc => hb c (by simp [hc])
    simp [firstLine, hx.1, hx.2, ih this]

theorem firstLine_fst_ne_nil (s : Str) (hs : s ≠ []) : (firstLine s).1 ≠ [] := by
  rcases s with _ | ⟨c, rest⟩
  · exact absurd rfl hs
  · by_cases h1 : c = '\n'
    · simp [firstLine, h1]
    · by_cases h2 : c = '\r'
      · by_cases h3 : rest.head? = some '\n' <;> simp [firstLine, h1, h2, h3]
      · simp [firstLine, h1, h2]

theorem line_parts (b e : Str) (hb : noNL b)
    (he : e = ['\n'] ∨ e = ['\r', '\n'] ∨ e = ['\r'] ∨ e = []) :
    lineBody (b ++ e) = b ∧ lineEnding (b ++ e) = e := by
  unfold lineBody lineEnding
  rcases he with he | he | he | he <;> subst he
  · rw [sle_n b (fun h => absurd rfl (hb '\r' h).2)]
    exact ⟨rfl, rfl⟩
  · rw [sle_rn b]
    exact ⟨rfl, rfl⟩
  · rw [sle_r b]
    exact ⟨rfl, rfl⟩
  · rw [List.append_nil, sle_body b hb]
    exact ⟨rfl, rfl⟩

theorem splitLinesKeep_flatten : ∀ s : Str, (splitLinesKeep s).flatten = s := by
  have H : ∀ (n : Nat) (s : Str), s.length ≤ n → (splitLinesKeep s).flatten = s := by
    intro n
    induction n with
    | zero =>
      intro s hs
      have : s = [] := List.length_eq_zero.mp (Nat.le_zero.mp hs)
      subst this; rfl
    | succ n ih =>
      intro s hs
      by_cases hse : s = []
      · subst hse; rfl
      · rw [splitLinesKeep_eq, if_neg hse, List.flatten_cons]
        have hlt := firstLine_rest_length s hse
        rw [ih _ (by omega), firstLine_join]
  exact fun s => H s.length s Nat.le.refl

theorem splitLinesKeep_ne_nil (s : Str) (hs : s ≠ []) : splitLinesKeep s ≠ [] := by
  rw [splitLinesKeep_eq, if_neg hs]
  simp

theorem splitLinesKeep_WF : ∀ s : Str, linesWF (splitLinesKeep s) := by
  have H : ∀ (n : Nat) (s : Str), s.length ≤ n → linesWF (splitLinesKeep s) := by
    intro n
    induction n with
    | zero =>
      intro s hs
      have : s = [] := List.length_eq_zero.mp (Nat.le_zero.mp hs)
      subst this
      exact trivial
    | succ n ih =>
      intro s hs
      by_cases hse : s = []
      · subst hse; exact trivial
      · rw [splitLinesKeep_eq, if_neg hse]
        obtain ⟨b, e, hbe, hb, he, hee, her⟩ := firstLine_shape s hse
        have hparts := line_parts b e hb (by tauto)
        have hlt := firstLine_rest_length s hse
        have hne : (firstLine s).1 ≠ [] := firstLine_fst_ne_nil s hse
        refine ⟨⟨hne, ?_⟩, ?_, ih _ (by omega)⟩
        · rw [hbe, hparts.1]
          exact hb
        · by_cases hrnil : (firstLine s).2 = []
          · left
            rw [hrnil]
            rfl
          · right
            constructor
            · rw [hbe, hparts.2]
              intro henil
              exact hrnil (hee henil)
            · intro hecr
              rw [hbe, hparts.2] at hecr
              have hh := her hecr
              rw [splitLinesKeep_eq, if_neg hrnil]
              simp only [List.headD_cons]
              rw [firstLine_head _ hrnil]
              exact hh
  exact fun s => H s.length s Nat.le.refl

end VersionSync

namespace VersionSync

theorem flatten_head_of_lineOk (l2 : Str) (L : List Str) (h : l2 ≠ []) :
    ((l2 :: L).flatten).head? = l2.head? := by
  rcases l2 with _ | ⟨x, t⟩
  · exact absurd rfl h
  · simp

/-- Re-splitting the flattening of a well-formed line list recovers it. -/
theorem splitLinesKeep_of_WF : ∀ L : List Str, linesWF L →
    splitLinesKeep L.flatten = L := by
  intro L
  induction L with
  | nil => intro _; rfl
  | cons l L' ih =>
    intro hwf
    obtain ⟨⟨hne, hbody⟩, hcond, hwf'⟩ := hwf
    have hjoin : lineBody l ++ lineEnding l = l := sle_join l
    have hflne : l ++ L'.flatten ≠ [] := by
      intro hx
      exact hne (by simpa using (List.append_eq_nil.mp hx).1
        )
    rw [List.flatten_cons, splitLinesKeep_eq, if_neg hflne]
    have hfl : firstLine (l ++ L'.flatten) = (l, L'.flatten) := by
      rcases lineEnding_cases l with he | he | he | he
      · rcases hcond with hL | ⟨hend, _⟩
        · subst hL
          have hl : l = lineBody l := by
            conv_lhs => rw [← hjoin, he]
            simp
          simp only [List.flatten_nil, List.append_nil]
          conv_lhs => rw [hl]
          rw [firstLine_eval_body _ hbody]
          rw [← hl]
        · exact absurd he hend
      · have hsplit : l ++ L'.flatten = lineBody l ++ '\n' :: L'.flatten := by
          conv_lhs => rw [← hjoin, he]
          simp
        rw [hsplit, firstLine_eval_n _ _ hbody]
        have hx : lineBody l ++ ['\n'] = l := by rw [← he, hjoin]
        rw [hx]
      · have hsplit : l ++ L'.flatten = lineBody l ++ '\r' :: '\n' :: L'.flatten := by
          conv_lhs => rw [← hjoin, he]
          simp
        rw [hsplit, firstLine_eval_rn _ _ hbody]
        have hx : lineBody l ++ ['\r', '\n'] = l := by rw [← he, hjoin]
        rw [hx]
      · have hhd : (L'.flatten).head? ≠ some '\n' := by
          rcases hcond with hL | ⟨_, hchain⟩
          · subst hL; simp
          · rcases L' with _ | ⟨l2, L''⟩
            · simp
            · obtain ⟨⟨hne2, _⟩, _, _⟩ := hwf'
              rw [flatten_head_of_lineOk l2 L'' hne2]
              exact hchain he
        have hsplit : l ++ L'.flatten = lineBody l ++ '\r' :: L'.flatten := by
          conv_lhs => rw [← hjoin, he]
          simp
        rw [hsplit, firstLine_eval_r _ _ hbody hhd]
        have hx : lineBody l ++ ['\r'] = l := by rw [← he, hjoin]
        rw [hx]
    rw [hfl]
    simp only []
    rw [ih hwf']

/-- Replacing one line with a line of the same terminator and same first
character preserves well-formedness. -/
theorem linesWF_replace : ∀ (A : List Str) (B : List Str) (l nl : Str),
    linesWF (A ++ l :: B) → lineOk nl → lineEnding nl = lineEnding l →
    nl.head? = l.head? → linesWF (A ++ nl :: B) := by
  intro A
  induction A with
  | nil =>
    intro B l nl hwf hok hend _
    obtain ⟨_, hcond, hwfB⟩ := hwf
    refine ⟨hok, ?_, hwfB⟩
    rcases hcond with hB | ⟨h1, h2⟩
    · exact Or.inl hB
    · exact Or.inr ⟨by rw [hend]; exact h1, by rw [hend]; exact h2⟩
  | cons a A' ih =>
    intro B l nl hwf hok hend hhead
    obtain ⟨hoka, hconda, hwrest⟩ := hwf
    refine ⟨hoka, ?_, ih B l nl hwrest hok hend hhead⟩
    rcases hconda with hnil | ⟨h1, h2⟩
    · exact absurd hnil (by simp)
    · refine Or.inr ⟨h1, ?_⟩
      intro hcr
      have := h2 hcr
      rcases A' with _ | ⟨a2, A''⟩
      · simp at this ⊢
        rw [hhead]
        exact this
      · simpa using this

end VersionSync

namespace VersionSync

/-! ### Lock-block list lemmas -/

theorem linesWF_mem : ∀ (L : List Str) (l : Str), linesWF L → l ∈ L → lineOk l := by
  intro L
  induction L with
  | nil => intro l _ hl; simp at hl
  | cons x rest ih =>
    intro l hwf hl
    obtain ⟨hok, _, hwf'⟩ := hwf
    rcases List.mem_cons.mp hl with h | h
    · subst h; exact hok
    · exact ih l hwf' h

theorem lastVersionIdx_sound : ∀ (body : List Str) (i : Nat),
    lastVersionIdx body = some i →
    i < body.length ∧ (lockVersionMatch (strip (body.getD i []))).isSome := by
  intro body
  induction body with
  | nil => intro i h; simp [lastVersionIdx] at h
  | cons l rest ih =>
    intro i h
    unfold lastVersionIdx at h
    rcases hr : lastVersionIdx rest with _ | i'
    · rw [hr] at h
      by_cases hd : (lockVersionMatch (strip l)).isSome
      · rw [if_pos hd] at h
        injection h with h
        subst h
        simpa using hd
      · rw [if_neg hd] at h
        simp at h
    · rw [hr] at h
      injection h with h
      subst h
      obtain ⟨hi, hv⟩ := ih i' hr
      constructor
      · simpa using Nat.succ_lt_succ hi
      · simpa using hv

theorem lastVersionIdx_none_iff : ∀ body : List Str,
    lastVersionIdx body = none ↔ blockVersionVal body = none := by
  intro body
  induction body with
  | nil => simp [lastVersionIdx, blockVersionVal]
  | cons l rest ih =>
    unfold lastVersionIdx blockVersionVal
    rcases hr : lastVersionIdx rest with _ | i'
    · rcases hv : blockVersionVal rest with _ | v'
      · by_cases hd : (lockVersionMatch (strip l)).isSome
        · obtain ⟨c, hc⟩ := Option.isSome_iff_exists.mp hd
          simp [hd, hc]
        · have : lockVersionMatch (strip l) = none := Option.not_isSome_iff_eq_none.mp hd
          simp [hd, this]
      · rw [ih] at hr
        rw [hr] at hv
        simp at hv
    · rcases hv : blockVersionVal rest with _ | v'
      · rw [← ih] at hv
        rw [hv] at hr
        simp at hr
      · simp

theorem lastVersionIdx_val : ∀ (body : List Str) (i : Nat),
    lastVersionIdx body = some i →
    blockVersionVal body = lockVersionMatch (strip (body.getD i [])) := by
  intro body
  induction body with
  | nil => intro i h; simp [lastVersionIdx] at h
  | cons l rest ih =>
    intro i h
    unfold lastVersionIdx at h
    unfold blockVersionVal
    rcases hr : lastVersionIdx rest with _ | i'
    · rw [hr] at h
      by_cases hd : (lockVersionMatch (strip l)).isSome
      · rw [if_pos hd] at h
        injection h with h
        subst h
        have hvn : blockVersionVal rest = none := (lastVersionIdx_none_iff rest).mp hr
        rw [hvn]
        simp
      · rw [if_neg hd] at h
        simp at h
    · rw [hr] at h
      injection h with h
      subst h
      rw [ih i' hr]
      have hsome := (lastVersionIdx_sound rest i' hr).2
      obtain ⟨c, hc⟩ := Option.isSome_iff_exists.mp hsome
      rw [hc]
      exact hc.symm

theorem blockVersionVal_set : ∀ (body : List Str) (i : Nat) (x : Str) (w : Str),
    lastVersionIdx body = some i → lockVersionMatch (strip x) = some w →
    blockVersionVal (body.set i x) = some w := by
  intro body
  induction body with
  | nil => intro i x w h _; simp [lastVersionIdx] at h
  | cons l rest ih =>
    intro i x w h hx
    unfold lastVersionIdx at h
    rcases hr : lastVersionIdx rest with _ | i'
    · rw [hr] at h
      by_cases hd : (lockVersionMatch (strip l)).isSome
      · rw [if_pos hd] at h
        injection h with h
        subst h
        have hvn : blockVersionVal rest = none := (lastVersionIdx_none_iff rest).mp hr
        simp only [List.set_cons_zero]
        unfold blockVersionVal
        rw [hvn, hx]
      · rw [if_neg hd] at h
        simp at h
    · rw [hr] at h
      injection h with h
      subst h
      simp only [List.set_cons_succ]
      unfold blockVersionVal
      rw [ih i' x w hr hx]

theorem blockName_set : ∀ (body : List Str) (i : Nat) (x : Str),
    lockNameMatch (strip (body.getD i [])) = none → lockNameMatch (strip x) = none →
    blockName (body.set i x) = blockName body := by
  intro body
  induction body with
  | nil => intro i x _ _; rfl
  | cons l rest ih =>
    intro i x hold hnew
    rcases i with _ | i'
    · simp only [List.getD_cons_zero] at hold
      simp only [List.set_cons_zero]
      unfold blockName
      rw [hold, hnew]
    · simp only [List.getD_cons_succ] at hold
      simp only [List.set_cons_succ]
      unfold blockName
      rw [ih i' x hold hnew]

theorem blockHasSource_set : ∀ (body : List Str) (i : Nat) (x : Str),
    sourceMark.isPrefixOf (strip (body.getD i [])) = false →
    sourceMark.isPrefixOf (strip x) = false →
    blockHasSource (body.set i x) = blockHasSource body := by
  intro body
  induction body with
  | nil => intro i x _ _; rfl
  | cons l rest ih =>
    intro i x hold hnew
    rcases i with _ | i'
    · simp only [List.getD_cons_zero] at hold
      simp only [List.set_cons_zero]
      unfold blockHasSource
      simp only [List.any_cons, hold, hnew]
    · simp only [List.getD_cons_succ] at hold
      simp only [List.set_cons_succ]
      unfold blockHasSource
      simp only [List.any_cons]
      have := ih i' x hold hnew
      unfold blockHasSource at this
      rw [this]

theorem lockNameMatch_of_head_v (s : Str) (t : Str) (hs : s = 'v' :: t) :
    lockNameMatch s = none := by
  subst hs
  unfold lockNameMatch lockKeyMatch keyQuoted
  rw [if_neg]
  intro hpre
  obtain ⟨u, hu⟩ := List.isPrefixOf_iff_prefix.mp hpre
  have := congrArg List.head? hu
  simp [str] at this

theorem sourceMark_of_head_v (s : Str) (t : Str) (hs : s = 'v' :: t) :
    sourceMark.isPrefixOf s = false := by
  subst hs
  rcases hp : sourceMark.isPrefixOf ('v' :: t) with _ | _
  · rfl
  · obtain ⟨u, hu⟩ := List.isPrefixOf_iff_prefix.mp hp
    have := congrArg List.head? hu
    simp [sourceMark, str] at this

end VersionSync

namespace VersionSync

/-! ### C10: the corrupt-format error of the lock writer is unreachable -/

theorem writeLockLoop_ne_format_error :
    ∀ (n : Nat) (ls : List Str) (pkg v : Str), ls.length ≤ n →
      (∀ l ∈ ls, noNL (lineBody l)) →
      writeLockLoop pkg v ls ≠ .error .unexpectedLockVersionFormat := by
  intro n
  induction n with
  | zero =>
    intro ls pkg v h1 _
    have : ls = [] := List.length_eq_zero.mp (Nat.le_zero.mp h1)
    subst this
    rw [writeLockLoop_nil]
    simp
  | succ n ih =>
    intro ls pkg v h1 hls
    rcases ls with _ | ⟨l, rest⟩
    · rw [writeLockLoop_nil]
      simp
    · simp only [List.length_cons] at h1
      rw [writeLockLoop_cons]
      by_cases hm : strip l = lockMarker
      · rw [if_pos hm]
        by_cases hsel : blockName (rest.takeWhile notMarker) = some pkg ∧
            blockHasSource (rest.takeWhile notMarker) = false
        · rw [if_pos hsel]
          rcases hlv : lastVersionIdx (rest.takeWhile notMarker) with _ | i
          · simp
          · obtain ⟨hi, hsome⟩ := lastVersionIdx_sound _ i hlv
            obtain ⟨c, hc⟩ := Option.isSome_iff_exists.mp hsome
            have hvmem : (rest.takeWhile notMarker).getD i [] ∈ rest := by
              apply mem_of_mem_takeWhile notMarker
              rw [List.getD_eq_getElem _ _ hi]
              exact List.getElem_mem hi
            have hnl : noNL (lineBody ((rest.takeWhile notMarker).getD i [])) :=
              hls _ (List.mem_cons_of_mem _ hvmem)
            have hc' : lockVersionMatch
                (strip (lineBody ((rest.takeWhile notMarker).getD i []))) = some c := by
              rw [← strip_line_eq_strip_body]
              exact hc
            obtain ⟨lead, g, trail, _, _, _, _, _, hwvm, _, _, _⟩ :=
              lock_detect_rewrite _ c hnl hc'
            simp only []
            rw [hwvm]
            simp only []
            split <;> simp
        · rw [if_neg hsel]
          have hrec := ih (rest.dropWhile notMarker) pkg v
            (by have := length_dropWhile_le notMarker rest; omega)
            (fun x hx => hls x (by simp [mem_of_mem_dropWhile notMarker rest x hx]))
          rcases hr : writeLockLoop pkg v (rest.dropWhile notMarker) with e | o
          · rw [hr] at hrec
            simp only []
            intro hcontra
            injection hcontra with hcontra
            exact hrec (by rw [hcontra])
          · rcases o with _ | ls' <;> simp
      · rw [if_neg hm]
        have hrec := ih rest pkg v (by omega)
          (fun x hx => hls x (by simp [hx]))
        rcases hr : writeLockLoop pkg v rest with e | o
        · rw [hr] at hrec
          simp only []
          intro hcontra
          injection hcontra with hcontra
          exact hrec (by rw [hcontra])
        · rcases o with _ | ls' <;> simp

/-- C10: for every file content, package name and new version, the
`Unexpected lockfile version format` branch of
`write_lock_package_version` is unreachable: whenever a line's stripped
form matched the version-detection pattern, the rewrite pattern applied to
the line body (terminator removed) matches too, so the writer never
returns that error. -/
theorem C10_lock_format_error_unreachable (content packageName newVersion : Str) :
    write_lock_package_version content packageName newVersion ≠
      .error .unexpectedLockVersionFormat := by
  unfold write_lock_package_version
  have hwf := splitLinesKeep_WF content
  have hmem : ∀ l ∈ splitLinesKeep content, noNL (lineBody l) :=
    fun l hl => (linesWF_mem _ l hwf hl).2
  have hne := writeLockLoop_ne_format_error (splitLinesKeep content).length
    (splitLinesKeep content) packageName newVersion Nat.le.refl hmem
  rcases h : writeLockLoop packageName newVersion (splitLinesKeep content) with e | o
  · rw [h] at hne
    simp only []
    intro hcontra
    injection hcontra with hcontra
    exact hne (by rw [hcontra])
  · rcases o with _ | ls' <;> simp

end VersionSync

namespace VersionSync

/-! ### C2: frame property of the surgical writers -/

theorem writeTomlLoop_frame : ∀ (lines : List Str) (v : Str) (inPkg : Bool) (L : List Str),
    writeTomlLoop v inPkg lines = .ok (some L) →
    ∃ A l B g1 old g3,
      lines = A ++ l :: B ∧
      L = A ++ (g1 ++ v ++ g3 ++ lineEnding l) :: B ∧
      writeVersionMatch (lineBody l) = some (g1, old, g3) ∧ old ≠ v := by
  intro lines
  induction lines with
  | nil => intro v inPkg L h; simp [writeTomlLoop] at h
  | cons l rest ih =>
    intro v inPkg L h
    rw [writeTomlLoop] at h
    by_cases hsec : sectionHeaderB (strip l) = true
    · rw [if_pos hsec] at h
      rcases hr : writeTomlLoop v (strip l = packageHeader) rest with e | o
      · rw [hr] at h; simp at h
      · rcases o with _ | ls'
        · rw [hr] at h; simp at h
        · rw [hr] at h
          simp only [Option.some.injEq, Except.ok.injEq] at h
          obtain ⟨A, vl, B, g1, old, g3, h1, h2, h3, h4⟩ := ih v _ ls' hr
          exact ⟨l :: A, vl, B, g1, old, g3, by simp [h1], by simp [← h, h2], h3, h4⟩
    · rw [if_neg hsec] at h
      by_cases hpkg : inPkg = false
      · rw [if_pos hpkg] at h
        rcases hr : writeTomlLoop v inPkg rest with e | o
        · rw [hr] at h; simp at h
        · rcases o with _ | ls'
          · rw [hr] at h; simp at h
          · rw [hr] at h
            simp only [Option.some.injEq, Except.ok.injEq] at h
            obtain ⟨A, vl, B, g1, old, g3, h1, h2, h3, h4⟩ := ih v _ ls' hr
            exact ⟨l :: A, vl, B, g1, old, g3, by simp [h1], by simp [← h, h2], h3, h4⟩
      · rw [if_neg hpkg] at h
        rcases hm : writeVersionMatch (lineBody l) with _ | ⟨g1, old, g3⟩
        · rw [hm] at h
          rcases hr : writeTomlLoop v inPkg rest with e | o
          · rw [hr] at h; simp at h
          · rcases o with _ | ls'
            · rw [hr] at h; simp at h
            · rw [hr] at h
              simp only [Option.some.injEq, Except.ok.injEq] at h
              obtain ⟨A, vl, B, g1, old, g3, h1, h2, h3, h4⟩ := ih v _ ls' hr
              exact ⟨l :: A, vl, B, g1, old, g3, by simp [h1], by simp [← h, h2], h3, h4⟩
        · rw [hm] at h
          simp only [] at h
          by_cases hov : old = v
          · rw [if_pos hov] at h; simp at h
          · rw [if_neg hov] at h
            simp only [Except.ok.injEq, Option.some.injEq] at h
            exact ⟨[], l, rest, g1, old, g3, by simp, by simp [← h], hm, hov⟩

theorem writeLockLoop_frame : ∀ (n : Nat) (ls : List Str) (pkg v : Str) (L : List Str),
    ls.length ≤ n →
    writeLockLoop pkg v ls = .ok (some L) →
    ∃ A l B g1 old g3,
      ls = A ++ l :: B ∧
      L = A ++ (g1 ++ v ++ g3 ++ lineEnding l) :: B ∧
      writeVersionMatch (lineBody l) = some (g1, old, g3) ∧ old ≠ v := by
  intro n
  induction n with
  | zero =>
    intro ls pkg v L h1 h
    have : ls = [] := List.length_eq_zero.mp (Nat.le_zero.mp h1)
    subst this
    rw [writeLockLoop_nil] at h
    simp at h
  | succ n ih =>
    intro ls pkg v L h1 h
    rcases ls with _ | ⟨l, rest⟩
    · rw [writeLockLoop_nil] at h; simp at h
    · simp only [List.length_cons] at h1
      rw [writeLockLoop_cons] at h
      by_cases hmk : strip l = lockMarker
      · rw [if_pos hmk] at h
        by_cases hsel : blockName (rest.takeWhile notMarker) = some pkg ∧
            blockHasSource (rest.takeWhile notMarker) = false
        · rw [if_pos hsel] at h
          rcases hlv : lastVersionIdx (rest.takeWhile notMarker) with _ | i
          · rw [hlv] at h; simp at h
          · rw [hlv] at h
            simp only [] at h
            rcases hm : writeVersionMatch
                (lineBody ((rest.takeWhile notMarker).getD i [])) with _ | ⟨g1, old, g3⟩
            · rw [hm] at h; simp at h
            · rw [hm] at h
              simp only [] at h
              by_cases hov : old = v
              · rw [if_pos hov] at h; simp at h
              · rw [if_neg hov] at h
                simp only [Except.ok.injEq, Option.some.injEq] at h
                obtain ⟨hi, _⟩ := lastVersionIdx_sound _ i hlv
                have hgetd : (rest.takeWhile notMarker).getD i [] =
                    (rest.takeWhile notMarker)[i] := List.getD_eq_getElem _ _ hi
                have hbody : rest.takeWhile notMarker =
                    (rest.takeWhile notMarker).take i ++
                      (rest.takeWhile notMarker)[i] :: (rest.takeWhile notMarker).drop (i+1) := by
                  conv_lhs => rw [← List.take_append_drop i (rest.takeWhile notMarker)]
                  rw [List.drop_eq_getElem_cons hi]
                have hset : (rest.takeWhile notMarker).set i
                    (g1 ++ v ++ g3 ++ lineEnding ((rest.takeWhile notMarker).getD i [])) =
                    (rest.takeWhile notMarker).take i ++
                      (g1 ++ v ++ g3 ++ lineEnding ((rest.takeWhile notMarker).getD i [])) ::
                        (rest.takeWhile notMarker).drop (i+1) :=
                  List.set_eq_take_cons_drop _ hi
                refine ⟨l :: (rest.takeWhile notMarker).take i,
                  (rest.takeWhile notMarker)[i],
                  (rest.takeWhile notMarker).drop (i+1) ++ rest.dropWhile notMarker,
                  g1, old, g3, ?_, ?_, ?_, hov⟩
                · have htw : rest = rest.takeWhile notMarker ++ rest.dropWhile notMarker :=
                    (List.takeWhile_append_dropWhile ..).symm
                  have hgoal : rest =
                      (rest.takeWhile notMarker).take i ++
                        (rest.takeWhile notMarker)[i] ::
                          ((rest.takeWhile notMarker).drop (i+1) ++ rest.dropWhile notMarker) := by
                    conv_lhs => rw [htw]
                    conv_lhs => rw [hbody]
                    simp only [List.append_assoc, List.cons_append]
                  show l :: rest = l :: ((rest.takeWhile notMarker).take i ++
                    (rest.takeWhile notMarker)[i] ::
                      ((rest.takeWhile notMarker).drop (i+1) ++ rest.dropWhile notMarker))
                  rw [← hgoal]
                · rw [← h, hset, hgetd]
                  simp
                · rw [← hgetd]
                  exact hm
        · rw [if_neg hsel] at h
          rcases hr : writeLockLoop pkg v (rest.dropWhile notMarker) with e | o
          · rw [hr] at h; simp at h
          · rcases o with _ | ls'
            · rw [hr] at h; simp at h
            · rw [hr] at h
              simp only [Except.ok.injEq, Option.some.injEq] at h
              have hlen : (rest.dropWhile notMarker).length ≤ n := by
                have := length_dropWhile_le notMarker rest; omega
              obtain ⟨A, vl, B, g1, old, g3, h1', h2', h3', h4'⟩ :=
                ih (rest.dropWhile notMarker) pkg v ls' hlen hr
              refine ⟨l :: rest.takeWhile notMarker ++ A, vl, B, g1, old, g3, ?_, ?_, h3', h4'⟩
              · have : rest = rest.takeWhile notMarker ++ rest.dropWhile notMarker :=
                  (List.takeWhile_append_dropWhile ..).symm
                conv_lhs => rw [this, h1']
                simp
              · rw [← h, h2']
                simp
      · rw [if_neg hmk] at h
        rcases hr : writeLockLoop pkg v rest with e | o
        · rw [hr] at h; simp at h
        · rcases o with _ | ls'
          · rw [hr] at h; simp at h
          · rw [hr] at h
            simp only [Except.ok.injEq, Option.some.injEq] at h
            obtain ⟨A, vl, B, g1, old, g3, h1', h2', h3', h4'⟩ :=
              ih rest pkg v ls' (by omega) hr
            exact ⟨l :: A, vl, B, g1, old, g3, by simp [h1'], by simp [← h, h2'], h3', h4'⟩

end VersionSync

namespace VersionSync

/-- Package the loop-level decomposition into `FrameProp`. -/
theorem frameProp_build (content v out : Str) (A B : List Str) (l g1 old g3 : Str)
    (hlines : splitLinesKeep content = A ++ l :: B)
    (hout : out = (A ++ (g1 ++ v ++ g3 ++ lineEnding l) :: B).flatten)
    (hm : writeVersionMatch (lineBody l) = some (g1, old, g3))
    (hov : old ≠ v) : FrameProp content v out := by
  have hwf := splitLinesKeep_WF content
  have hlmem : l ∈ splitLinesKeep content := by
    rw [hlines]; simp
  have hok := linesWF_mem _ l hwf hlmem
  obtain ⟨lead, w2, w3, tail, hbody, hg1, hg3, _, hlead, hw2, hw3, hone, hoq⟩ :=
    writeVersionMatch_sound (lineBody l) g1 old g3 hok.2 hm
  have hl : l = g1 ++ old ++ g3 ++ lineEnding l := by
    conv_lhs => rw [← sle_join l]
    show lineBody l ++ lineEnding l = _
    rw [hbody]
  refine ⟨A, g1, old, g3, lineEnding l, B, ?_, ?_, ?_, ?_, ?_, ?_, hoq, hone, hov⟩
  · rw [hlines, ← hl]
  · exact hout
  · rw [← hl]
    have h1 : (split_line_ending l).1 = lineBody l := rfl
    have h2 : (split_line_ending l).2 = lineEnding l := rfl
    have hpair : split_line_ending l = ((split_line_ending l).1, (split_line_ending l).2) := rfl
    rw [hpair, h1, h2, hbody]
  · rcases lineEnding_cases l with h | h | h | h <;> rw [h] <;> unfold endingOk <;> tauto
  · rw [hg1]
    have : lead ++ str (r"version") ++ w2 ++ ['='] ++ w3 ++ ['"'] =
        (lead ++ str (r"version") ++ w2 ++ ['='] ++ w3) ++ ['"'] := by simp
    rw [this, List.getLast?_concat]
  · rw [hg3]
    rfl

/-- C2: when a surgical writer (TOML `[package]` or named-block lock)
performs a write, the output differs from the input only in the quoted
version value of the single matched line: all other lines are
byte-identical, and the matched line keeps its text outside the quotes and
its original line terminator. -/
theorem C2_surgical_writer_frame :
    (∀ content v out : Str, write_toml_package_version content v = .ok (true, out) →
      FrameProp content v out) ∧
    (∀ content packageName v out : Str,
      write_lock_package_version content packageName v = .ok (true, out) →
      FrameProp content v out) := by
  constructor
  · intro content v out h
    unfold write_toml_package_version at h
    rcases hr : writeTomlLoop v false (splitLinesKeep content) with e | o
    · rw [hr] at h; simp at h
    · rcases o with _ | L
      · rw [hr] at h; simp at h
      · rw [hr] at h
        simp only [Except.ok.injEq, Prod.mk.injEq] at h
        obtain ⟨A, l, B, g1, old, g3, h1, h2, h3, h4⟩ :=
          writeTomlLoop_frame (splitLinesKeep content) v false L hr
        exact frameProp_build content v out A B l g1 old g3 h1
          (by rw [← h.2, h2]) h3 h4
  · intro content packageName v out h
    unfold write_lock_package_version at h
    rcases hr : writeLockLoop packageName v (splitLinesKeep content) with e | o
    · rw [hr] at h; simp at h
    · rcases o with _ | L
      · rw [hr] at h; simp at h
      · rw [hr] at h
        simp only [Except.ok.injEq, Prod.mk.injEq] at h
        obtain ⟨A, l, B, g1, old, g3, h1, h2, h3, h4⟩ :=
          writeLockLoop_frame (splitLinesKeep content).length (splitLinesKeep content)
            packageName v L Nat.le.refl hr
        exact frameProp_build content v out A B l g1 old g3 h1
          (by rw [← h.2, h2]) h3 h4

/-- Witness for C2: concrete writes on a small TOML manifest and a small
lock file satisfy the frame property. -/
theorem C2_surgical_writer_frame_witness :
    FrameProp tomlGood (str (r"2.0.0")) (str (r#"[package]
name = "x"
version = "2.0.0"
"#)) ∧
    FrameProp cargoLockGood (str (r"2.0.0")) (str (r#"[[package]]
name = "opencode-studio"
version = "2.0.0"
"#)) := by
  constructor
  · exact C2_surgical_writer_frame.1 tomlGood (str (r"2.0.0")) _ (by rfl)
  · exact C2_surgical_writer_frame.2 cargoLockGood (str (r"opencode-studio"))
      (str (r"2.0.0")) _ (by rfl)

end VersionSync

namespace VersionSync

/-! ### C4: reading a value and writing it back -/

theorem notMarker_lineBody (l : Str) : notMarker (lineBody l) = notMarker l := by
  unfold notMarker
  rw [← strip_line_eq_strip_body]

theorem takeWhile_notMarker_map (ls : List Str) :
    (ls.map lineBody).takeWhile notMarker = (ls.takeWhile notMarker).map lineBody := by
  induction ls with
  | nil => rfl
  | cons l rest ih =>
    by_cases hm : notMarker l = true
    · simp [List.takeWhile_cons, notMarker_lineBody, hm, ih]
    · rw [Bool.not_eq_true] at hm
      simp [List.takeWhile_cons, notMarker_lineBody, hm]

theorem dropWhile_notMarker_map (ls : List Str) :
    (ls.map lineBody).dropWhile notMarker = (ls.dropWhile notMarker).map lineBody := by
  induction ls with
  | nil => rfl
  | cons l rest ih =>
    by_cases hm : notMarker l = true
    · simp [List.dropWhile_cons, notMarker_lineBody, hm, ih]
    · rw [Bool.not_eq_true] at hm
      simp [List.dropWhile_cons, notMarker_lineBody, hm]

theorem blockName_map (body : List Str) :
    blockName (body.map lineBody) = blockName body := by
  induction body with
  | nil => rfl
  | cons l rest ih =>
    simp only [List.map_cons, blockName, ih, ← strip_line_eq_strip_body]

theorem blockVersionVal_map (body : List Str) :
    blockVersionVal (body.map lineBody) = blockVersionVal body := by
  induction body with
  | nil => rfl
  | cons l rest ih =>
    simp only [List.map_cons, blockVersionVal, ih, ← strip_line_eq_strip_body]

theorem blockHasSource_map (body : List Str) :
    blockHasSource (body.map lineBody) = blockHasSource body := by
  induction body with
  | nil => rfl
  | cons l rest ih =>
    simp only [List.map_cons, blockHasSource, List.any_cons] at *
    rw [← strip_line_eq_strip_body, ih]

/-- If the reader of the TOML handler, run over the line bodies, returns a
version, the writer loop run over the same lines with terminators and that
version answers "no change". -/
theorem readWriteTomlLoop : ∀ (ls : List Str) (inPkg : Bool) (v : Str),
    (∀ l ∈ ls, noNL (lineBody l)) →
    readTomlLoop inPkg (ls.map lineBody) = .ok v →
    writeTomlLoop v inPkg ls = .ok none := by
  intro ls
  induction ls with
  | nil => intro inPkg v _ h; simp [readTomlLoop] at h
  | cons l rest ih =>
    intro inPkg v hnl h
    have hmem : ∀ x ∈ rest, noNL (lineBody x) := fun x hx => hnl x (by simp [hx])
    have hl : noNL (lineBody l) := hnl l (by simp)
    rw [List.map_cons, readTomlLoop] at h
    rw [writeTomlLoop]
    rw [← strip_line_eq_strip_body] at h
    by_cases hsec : sectionHeaderB (strip l) = true
    · rw [if_pos hsec] at h ⊢
      rw [ih _ _ hmem h]
    · rw [if_neg hsec] at h ⊢
      by_cases hpkg : inPkg = false
      · rw [if_pos hpkg] at h ⊢
        rw [ih _ _ hmem h]
      · rw [if_neg hpkg] at h ⊢
        rw [readTomlMatch_eq_writeVersionMatch _ hl] at h
        rcases hm : writeVersionMatch (lineBody l) with _ | ⟨g1, old, g3⟩
        · rw [hm] at h
          simp only [Option.map_none'] at h
          rw [ih _ _ hmem h]
        · rw [hm] at h
          simp only [Option.map_some'] at h
          have hov : old = v := by simpa using h
          subst hov
          simp
end VersionSync

namespace VersionSync

/-- If the reader of the named-block lock handler, run over the line
bodies, returns a version, the writer loop run over the same lines with
terminators and that version answers "no change". -/
theorem readWriteLockLoop (pkg v : Str) : ∀ (n : Nat) (ls : List Str), ls.length ≤ n →
    (∀ l ∈ ls, noNL (lineBody l)) →
    readLockLoop pkg (ls.map lineBody) = .ok v →
    writeLockLoop pkg v ls = .ok none := by
  intro n
  induction n with
  | zero =>
    intro ls hlen _ h
    have hnil : ls = [] := List.length_eq_zero.mp (Nat.le_zero.mp hlen)
    subst hnil
    simp [readLockLoop_nil] at h
  | succ n ih =>
    intro ls hlen hnl h
    rcases ls with _ | ⟨l, rest⟩
    · simp [readLockLoop_nil] at h
    · have hmem : ∀ x ∈ rest, noNL (lineBody x) := fun x hx => hnl x (by simp [hx])
      simp only [List.length_cons] at hlen
      have hdlen := length_dropWhile_le notMarker rest
      rw [List.map_cons, readLockLoop_cons] at h
      rw [writeLockLoop_cons]
      rw [← strip_line_eq_strip_body] at h
      rw [takeWhile_notMarker_map, dropWhile_notMarker_map, blockName_map,
        blockHasSource_map, blockVersionVal_map] at h
      by_cases hm : strip l = lockMarker
      · rw [if_pos hm] at h ⊢
        by_cases hsel : blockName (rest.takeWhile notMarker) = some pkg ∧
            blockHasSource (rest.takeWhile notMarker) = false
        · rw [if_pos hsel] at h ⊢
          rcases hv : blockVersionVal (rest.takeWhile notMarker) with _ | w
          · rw [hv] at h
            simp at h
          · rw [hv] at h
            simp only [] at h
            have hwv : w = v := by simpa using h
            subst hwv
            rcases hi : lastVersionIdx (rest.takeWhile notMarker) with _ | i
            · rw [(lastVersionIdx_none_iff _).mp hi] at hv
              simp at hv
            · have hval := lastVersionIdx_val _ i hi
              rw [hv] at hval
              have hlt := (lastVersionIdx_sound _ i hi).1
              have hmemv : (rest.takeWhile notMarker).getD i [] ∈ rest.takeWhile notMarker := by
                rw [List.getD_eq_getElem _ _ hlt]
                exact List.getElem_mem hlt
              have hnlv : noNL (lineBody ((rest.takeWhile notMarker).getD i [])) :=
                hmem _ (mem_of_mem_takeWhile notMarker rest _ hmemv)
              have hdet : lockVersionMatch
                  (strip (lineBody ((rest.takeWhile notMarker).getD i []))) = some w := by
                rw [← strip_line_eq_strip_body]
                exact hval.symm
              obtain ⟨lead, g, trail, _, _, _, _, _, hwm, _, _, _⟩ :=
                lock_detect_rewrite _ w hnlv hdet
              simp only [hi, hwm]
              simp
        · rw [if_neg hsel] at h ⊢
          rw [ih (rest.dropWhile notMarker) (by omega)
            (fun x hx => hmem x (mem_of_mem_dropWhile notMarker rest x hx)) h]
      · rw [if_neg hm] at h ⊢
        rw [ih rest (by omega) hmem h]

end VersionSync

namespace VersionSync

/-- C4 (amended): read-then-write is a no-op for the two surgical text
handlers unconditionally, and for the two JSON handlers whenever the
stored field is exactly the string value the read returned (the read
trims and stringifies the stored value, so an untrimmed or non-string
stored field breaks the law, see the counterexample): in each case the
write reports `false` ("no change") and the document is left untouched. -/
theorem C4_read_write_noop :
    (∀ content v : Str, read_toml_package_version content = .ok v →
      write_toml_package_version content v = .ok (false, content)) ∧
    (∀ content packageName v : Str,
      read_lock_package_version content packageName = .ok v →
      write_lock_package_version content packageName v = .ok (false, content)) ∧
    (∀ (data : Jobj) (v : Str), read_json_version data = .ok v →
      objGet data (str (r"version")) = some (.str v) →
      write_json_version data v = (false, data)) ∧
    (∀ (data pfs rfs : Jobj) (v : Str), read_package_lock_version data = .ok v →
      objGet data (str (r"version")) = some (.str v) →
      objGet data (str (r"packages")) = some (.obj pfs) →
      objGet pfs (str (r"")) = some (.obj rfs) →
      objGet rfs (str (r"version")) = some (.str v) →
      write_package_lock_version data v = .ok (false, data)) := by
  refine ⟨?_, ?_, ?_, ?_⟩
  · intro content v h
    unfold read_toml_package_version splitLines at h
    unfold write_toml_package_version
    have hnl : ∀ l ∈ splitLinesKeep content, noNL (lineBody l) := fun l hl =>
      (linesWF_mem _ l (splitLinesKeep_WF content) hl).2
    rw [readWriteTomlLoop (splitLinesKeep content) false v hnl h]
  · intro content packageName v h
    unfold read_lock_package_version splitLines at h
    unfold write_lock_package_version
    have hnl : ∀ l ∈ splitLinesKeep content, noNL (lineBody l) := fun l hl =>
      (linesWF_mem _ l (splitLinesKeep_WF content) hl).2
    rw [readWriteLockLoop packageName v (splitLinesKeep content).length
      (splitLinesKeep content) Nat.le.refl hnl h]
  · intro data v _ hstore
    unfold write_json_version
    rw [hstore]
    simp [jsonFieldEqStr]
  · intro data pfs rfs v _ h1 h2 h3 h4
    have e1 : jsonFieldEqStr (objGet data (str (r"version"))) v = true := by
      rw [h1]; simp [jsonFieldEqStr]
    have e2 : jsonFieldEqStr (objGet rfs (str (r"version"))) v = true := by
      rw [h4]; simp [jsonFieldEqStr]
    unfold write_package_lock_version
    rw [e1]
    simp only [Bool.not_true, Bool.false_eq_true, if_false]
    simp only [h2, h3, e2]
    simp

/-- C4 counterexample to the unconditional claim: on a JSON document whose
stored version field is the untrimmed string `" 1.0.0 "`, the read
succeeds and returns the trimmed `"1.0.0"`, yet writing that value back
reports a change (Python then rewrites the file), not "no change". -/
theorem C4_read_write_noop_counterexample :
    read_json_version [(str (r"version"), Json.str (str (r" 1.0.0 ")))] =
      .ok (str (r"1.0.0")) ∧
    (write_json_version [(str (r"version"), Json.str (str (r" 1.0.0 ")))]
      (str (r"1.0.0"))).1 = true := ⟨by rfl, by rfl⟩

/-- Witness for C4: the amended no-op law applied at concrete documents of
each of the four formats. -/
theorem C4_read_write_noop_witness :
    write_toml_package_version tomlGood (str (r"1.2.3")) = .ok (false, tomlGood) ∧
    write_lock_package_version cargoLockGood (str (r"opencode-studio")) (str (r"1.2.3")) =
      .ok (false, cargoLockGood) ∧
    write_json_version jsonGood (str (r"1.2.3")) = (false, jsonGood) ∧
    write_package_lock_version packageLockGood (str (r"1.2.3")) =
      .ok (false, packageLockGood) :=
  ⟨C4_read_write_noop.1 tomlGood (str (r"1.2.3")) (by rfl),
   C4_read_write_noop.2.1 cargoLockGood (str (r"opencode-studio")) (str (r"1.2.3")) (by rfl),
   C4_read_write_noop.2.2.1 jsonGood (str (r"1.2.3")) (by rfl) (by rfl),
   C4_read_write_noop.2.2.2 packageLockGood
     [(str (r""), Json.obj [(str (r"version"), Json.str (str (r"1.2.3")))])]
     [(str (r"version"), Json.str (str (r"1.2.3")))]
     (str (r"1.2.3")) (by rfl) (by rfl) (by rfl) (by rfl) (by rfl)⟩

end VersionSync

namespace VersionSync

/-! ### C3: characters of a valid semver value -/

/-- Every character a semver match can consume: the class `[0-9A-Za-z.-]`
plus the `+` lead of the build-metadata group. -/
def svChar (c : Char) : Bool := identChar c || c == '+'

theorem parseNum_decomp (s r : Str) (h : parseNum s = some r) :
    ∃ pre, s = pre ++ r ∧ ∀ c ∈ pre, svChar c = true := by
  simp only [parseNum] at h
  have hval : r = s.dropWhile Char.isDigit := by
    split at h
    · exact absurd h (by simp)
    · split at h
      · injection h with h
        exact h.symm
      · split at h
        · exact absurd h (by simp)
        · injection h with h
          exact h.symm
  refine ⟨s.takeWhile Char.isDigit, ?_, ?_⟩
  · rw [hval, List.takeWhile_append_dropWhile]
  · intro c hc
    have hd := List.mem_takeWhile_imp hc
    simp [svChar, identChar, hd]

theorem parseDotNum_decomp (s r : Str) (h : parseDotNum s = some r) :
    ∃ pre, s = pre ++ r ∧ ∀ c ∈ pre, svChar c = true := by
  unfold parseDotNum at h
  split at h
  · rename_i t
    obtain ⟨pre, hpre, hch⟩ := parseNum_decomp t r h
    refine ⟨'.' :: pre, by simp [hpre], ?_⟩
    intro c hc
    rcases List.mem_cons.mp hc with hc | hc
    · subst hc; decide
    · exact hch c hc
  · exact absurd h (by simp)

theorem parseOptPart_decomp (lead : Char) (s r : Str) (hl : svChar lead = true)
    (h : parseOptPart lead s = some r) :
    ∃ pre, s = pre ++ r ∧ ∀ c ∈ pre, svChar c = true := by
  unfold parseOptPart at h
  split at h
  · rename_i c t
    split at h
    · rename_i hc
      subst hc
      simp only [] at h
      split at h
      · exact absurd h (by simp)
      · injection h with h
        refine ⟨c :: t.takeWhile identChar, ?_, ?_⟩
        · rw [← h]
          simp [List.takeWhile_append_dropWhile]
        · intro ch hch
          rcases List.mem_cons.mp hch with hch | hch
          · subst hch; exact hl
          · have := List.mem_takeWhile_imp hch
            simp [svChar, this]
    · injection h with h
      exact ⟨[], by simp [h], by simp⟩
  · injection h with h
    exact ⟨[], by simp [h], by simp⟩

theorem semver_chars (v : Str) (h : semverCheck v = true) :
    ∀ c ∈ v, svChar c = true := by
  unfold semverCheck at h
  split at h
  · exact absurd h (by simp)
  · rename_i r1 hp1
    split at h
    · exact absurd h (by simp)
    · rename_i r2 hp2
      split at h
      · exact absurd h (by simp)
      · rename_i r3 hp3
        split at h
        · exact absurd h (by simp)
        · rename_i r4 hp4
          split at h
          · exact absurd h (by simp)
          · rename_i r5 hp5
            have hr5 : r5 = [] := by simpa using h
            subst hr5
            obtain ⟨p1, he1, hc1⟩ := parseNum_decomp v r1 hp1
            obtain ⟨p2, he2, hc2⟩ := parseDotNum_decomp r1 r2 hp2
            obtain ⟨p3, he3, hc3⟩ := parseDotNum_decomp r2 r3 hp3
            obtain ⟨p4, he4, hc4⟩ := parseOptPart_decomp '-' r3 r4 (by decide) hp4
            obtain ⟨p5, he5, hc5⟩ := parseOptPart_decomp '+' r4 [] (by decide) hp5
            intro c hc
            rw [he1, he2, he3, he4, he5] at hc
            simp at hc
            rcases hc with hc | hc | hc | hc | hc
            · exact hc1 c hc
            · exact hc2 c hc
            · exact hc3 c hc
            · exact hc4 c hc
            · exact hc5 c hc

/-- A syntactically valid semver value is nonempty, has no quote, and has
no newline characters: exactly what the surgical rewrites require. -/
theorem semver_value_facts (v : Str) (h : semverCheck v = true) :
    v ≠ [] ∧ '"' ∉ v ∧ noNL v := by
  have hch := semver_chars v h
  refine ⟨?_, ?_, ?_⟩
  · intro hnil
    rw [hnil] at h
    exact absurd h (by decide)
  · intro hq
    have := hch _ hq
    exact absurd this (by decide)
  · intro c hc
    have := hch _ hc
    constructor
    · intro he; subst he; exact absurd this (by decide)
    · intro he; subst he; exact absurd this (by decide)

/-! ### Generic takeWhile and dropWhile helpers over line lists -/

theorem takeWhile_all_append {α : Type} (p : α → Bool) :
    ∀ (xs ys : List α), (∀ x ∈ xs, p x = true) →
    (∀ y, ys.head? = some y → p y = false) →
    (xs ++ ys).takeWhile p = xs ∧ (xs ++ ys).dropWhile p = ys := by
  intro xs ys
  induction xs with
  | nil =>
    intro _ hy
    rcases ys with _ | ⟨y, t⟩
    · simp
    · have := hy y rfl
      simp [List.takeWhile_cons, List.dropWhile_cons, this]
  | cons x t ih =>
    intro hx hy
    have hpx := hx x (by simp)
    obtain ⟨h1, h2⟩ := ih (fun z hz => hx z (by simp [hz])) hy
    simp [List.takeWhile_cons, List.dropWhile_cons, hpx, h1, h2]

theorem dropWhile_head_false {α : Type} (p : α → Bool) :
    ∀ (l : List α) (y : α), (l.dropWhile p).head? = some y → p y = false := by
  intro l
  induction l with
  | nil => intro y h; simp at h
  | cons x t ih =>
    intro y h
    rw [List.dropWhile_cons] at h
    split at h
    · exact ih y h
    · rename_i hp
      have hxy : x = y := by simpa using h
      subst hxy
      simpa using hp

end VersionSync

namespace VersionSync

/-! ### C3: write-then-read for the TOML handler -/

/-- If the TOML writer answers "no change", the reader returns the written
value on the unchanged file. -/
theorem writeReadTomlLoopNone (v : Str) :
    ∀ (ls : List Str) (inPkg : Bool),
    (∀ l ∈ ls, noNL (lineBody l)) →
    writeTomlLoop v inPkg ls = .ok none →
    readTomlLoop inPkg (ls.map lineBody) = .ok v := by
  intro ls
  induction ls with
  | nil => intro inPkg _ h; simp [writeTomlLoop] at h
  | cons l rest ih =>
    intro inPkg hnl h
    have hmem : ∀ x ∈ rest, noNL (lineBody x) := fun x hx => hnl x (by simp [hx])
    have hl : noNL (lineBody l) := hnl l (by simp)
    rw [writeTomlLoop] at h
    rw [List.map_cons, readTomlLoop]
    rw [← strip_line_eq_strip_body]
    by_cases hsec : sectionHeaderB (strip l) = true
    · rw [if_pos hsec] at h ⊢
      rcases hr : writeTomlLoop v (strip l = packageHeader) rest with e | o
      · rw [hr] at h; simp at h
      · rcases o with _ | ls'
        · exact ih _ hmem hr
        · rw [hr] at h; simp at h
    · rw [if_neg hsec] at h ⊢
      by_cases hpkg : inPkg = false
      · rw [if_pos hpkg] at h ⊢
        rcases hr : writeTomlLoop v inPkg rest with e | o
        · rw [hr] at h; simp at h
        · rcases o with _ | ls'
          · exact ih _ hmem hr
          · rw [hr] at h; simp at h
      · rw [if_neg hpkg] at h ⊢
        rw [readTomlMatch_eq_writeVersionMatch _ hl]
        rcases hm : writeVersionMatch (lineBody l) with _ | ⟨g1, old, g3⟩
        · rw [hm] at h
          simp only [] at h
          simp only [Option.map_none']
          rcases hr : writeTomlLoop v inPkg rest with e | o
          · rw [hr] at h; simp at h
          · rcases o with _ | ls'
            · exact ih _ hmem hr
            · rw [hr] at h; simp at h
        · rw [hm] at h
          simp only [] at h
          simp only [Option.map_some']
          by_cases hov : old = v
          · subst hov
            simp
          · rw [if_neg hov] at h
            simp at h

/-- If the TOML writer rewrites the file, the reader returns the written
value on the rewritten line list. -/
theorem writeReadTomlLoopSome (v : Str) (hvne : v ≠ []) (hvq : '"' ∉ v) (hvnl : noNL v) :
    ∀ (ls : List Str) (inPkg : Bool) (L : List Str),
    (∀ l ∈ ls, noNL (lineBody l)) →
    writeTomlLoop v inPkg ls = .ok (some L) →
    readTomlLoop inPkg (L.map lineBody) = .ok v := by
  intro ls
  induction ls with
  | nil => intro inPkg L _ h; simp [writeTomlLoop] at h
  | cons l rest ih =>
    intro inPkg L hnl h
    have hmem : ∀ x ∈ rest, noNL (lineBody x) := fun x hx => hnl x (by simp [hx])
    have hl : noNL (lineBody l) := hnl l (by simp)
    rw [writeTomlLoop] at h
    by_cases hsec : sectionHeaderB (strip l) = true
    · rw [if_pos hsec] at h
      rcases hr : writeTomlLoop v (strip l = packageHeader) rest with e | o
      · rw [hr] at h; simp at h
      · rcases o with _ | ls'
        · rw [hr] at h; simp at h
        · rw [hr] at h
          simp only [Except.ok.injEq, Option.some.injEq] at h
          subst h
          rw [List.map_cons, readTomlLoop, ← strip_line_eq_strip_body, if_pos hsec]
          exact ih _ _ hmem hr
    · rw [if_neg hsec] at h
      by_cases hpkg : inPkg = false
      · rw [if_pos hpkg] at h
        rcases hr : writeTomlLoop v inPkg rest with e | o
        · rw [hr] at h; simp at h
        · rcases o with _ | ls'
          · rw [hr] at h; simp at h
          · rw [hr] at h
            simp only [Except.ok.injEq, Option.some.injEq] at h
            subst h
            rw [List.map_cons, readTomlLoop, ← strip_line_eq_strip_body,
              if_neg hsec, if_pos hpkg]
            exact ih _ _ hmem hr
      · rw [if_neg hpkg] at h
        rcases hm : writeVersionMatch (lineBody l) with _ | ⟨g1, old, g3⟩
        · rw [hm] at h
          simp only [] at h
          rcases hr : writeTomlLoop v inPkg rest with e | o
          · rw [hr] at h; simp at h
          · rcases o with _ | ls'
            · rw [hr] at h; simp at h
            · rw [hr] at h
              simp only [Except.ok.injEq, Option.some.injEq] at h
              subst h
              rw [List.map_cons, readTomlLoop, ← strip_line_eq_strip_body,
                if_neg hsec, if_neg hpkg, readTomlMatch_eq_writeVersionMatch _ hl, hm]
              simp only [Option.map_none']
              exact ih _ _ hmem hr
        · rw [hm] at h
          simp only [] at h
          by_cases hov : old = v
          · rw [if_pos hov] at h; simp at h
          · rw [if_neg hov] at h
            simp only [Except.ok.injEq, Option.some.injEq] at h
            subst h
            obtain ⟨lead, w2, w3, tail, hbodyeq, hG1, hG3, htailNL, hlead, hw2, hw3, _, _⟩ :=
              writeVersionMatch_sound (lineBody l) g1 old g3 hl hm
            have hnlg : noNL (g1 ++ old ++ g3) := by rw [← hbodyeq]; exact hl
            have hg1NL : noNL g1 := ((noNL_append _ _).mp ((noNL_append _ _).mp hnlg).1).1
            have hg3NL : noNL g3 := ((noNL_append _ _).mp hnlg).2
            have hbodyNL : noNL (g1 ++ v ++ g3) :=
              (noNL_append _ _).mpr ⟨(noNL_append _ _).mpr ⟨hg1NL, hvnl⟩, hg3NL⟩
            have hparts := line_parts (g1 ++ v ++ g3) (lineEnding l) hbodyNL
              (by rcases lineEnding_cases l with h | h | h | h <;> tauto)
            rw [List.map_cons, readTomlLoop, hparts.1]
            have hv0 : str (r"version") = 'v' :: str (r"ersion") := rfl
            have hshape : g1 ++ v ++ g3 =
                lead ++ 'v' :: (str (r"ersion") ++ w2 ++ ['='] ++ w3 ++ ['"'] ++ v ++ g3) := by
              rw [hG1, hv0]
              simp
            obtain ⟨t', hstrip⟩ := strip_cons_head lead hlead 'v' (by decide)
              (str (r"ersion") ++ w2 ++ ['='] ++ w3 ++ ['"'] ++ v ++ g3)
            rw [hshape, hstrip, sectionHeaderB_of_head 'v' t' (by decide), if_neg hpkg]
            have hshape2 : lead ++ 'v' ::
                (str (r"ersion") ++ w2 ++ ['='] ++ w3 ++ ['"'] ++ v ++ g3) =
                lead ++ (str (r"version") ++ w2 ++ ['='] ++ w3 ++ ['"']) ++ v ++ '"' :: tail := by
              rw [hv0, hG3]
              simp
            rw [hshape2, readTomlMatch_subst lead _ tail v hlead
              ⟨w2, w3, rfl, hw2, hw3⟩ hvne hvq]
            simp

end VersionSync

namespace VersionSync

/-! ### C3: write-then-read for the named-block lock handler -/

/-- If the lock writer answers "no change", the reader returns the written
value on the unchanged file. -/
theorem writeReadLockLoopNone (pkg v : Str) : ∀ (n : Nat) (ls : List Str), ls.length ≤ n →
    (∀ l ∈ ls, noNL (lineBody l)) →
    writeLockLoop pkg v ls = .ok none →
    readLockLoop pkg (ls.map lineBody) = .ok v := by
  intro n
  induction n with
  | zero =>
    intro ls hlen _ h
    have hnil : ls = [] := List.length_eq_zero.mp (Nat.le_zero.mp hlen)
    subst hnil
    simp [writeLockLoop_nil] at h
  | succ n ih =>
    intro ls hlen hnl h
    rcases ls with _ | ⟨l, rest⟩
    · simp [writeLockLoop_nil] at h
    · have hmem : ∀ x ∈ rest, noNL (lineBody x) := fun x hx => hnl x (by simp [hx])
      simp only [List.length_cons] at hlen
      have hdlen := length_dropWhile_le notMarker rest
      rw [writeLockLoop_cons] at h
      rw [List.map_cons, readLockLoop_cons]
      rw [← strip_line_eq_strip_body]
      rw [takeWhile_notMarker_map, dropWhile_notMarker_map, blockName_map,
        blockHasSource_map, blockVersionVal_map]
      by_cases hm : strip l = lockMarker
      · rw [if_pos hm] at h ⊢
        by_cases hsel : blockName (rest.takeWhile notMarker) = some pkg ∧
            blockHasSource (rest.takeWhile notMarker) = false
        · rw [if_pos hsel] at h ⊢
          rcases hi : lastVersionIdx (rest.takeWhile notMarker) with _ | i
          · rw [hi] at h
            simp at h
          · rw [hi] at h
            simp only [] at h
            have hlt := (lastVersionIdx_sound _ i hi).1
            have hsome := (lastVersionIdx_sound _ i hi).2
            obtain ⟨c, hc⟩ := Option.isSome_iff_exists.mp hsome
            have hmemv : (rest.takeWhile notMarker).getD i [] ∈ rest.takeWhile notMarker := by
              rw [List.getD_eq_getElem _ _ hlt]
              exact List.getElem_mem hlt
            have hnlv : noNL (lineBody ((rest.takeWhile notMarker).getD i [])) :=
              hmem _ (mem_of_mem_takeWhile notMarker rest _ hmemv)
            have hdet : lockVersionMatch
                (strip (lineBody ((rest.takeWhile notMarker).getD i []))) = some c := by
              rw [← strip_line_eq_strip_body]
              exact hc
            obtain ⟨lead, g, trail, _, _, _, _, _, hwm, _, _, _⟩ :=
              lock_detect_rewrite _ c hnlv hdet
            rw [hwm] at h
            simp only [] at h
            by_cases hov : c = v
            · subst hov
              rw [lastVersionIdx_val _ i hi, hc]
            · rw [if_neg hov] at h
              simp at h
        · rw [if_neg hsel] at h ⊢
          rcases hr : writeLockLoop pkg v (rest.dropWhile notMarker) with e | o
          · rw [hr] at h; simp at h
          · rcases o with _ | ls'
            · exact ih (rest.dropWhile notMarker) (by omega)
                (fun x hx => hmem x (mem_of_mem_dropWhile notMarker rest x hx)) hr
            · rw [hr] at h; simp at h
      · rw [if_neg hm] at h ⊢
        rcases hr : writeLockLoop pkg v rest with e | o
        · rw [hr] at h; simp at h
        · rcases o with _ | ls'
          · exact ih rest (by omega) hmem hr
          · rw [hr] at h; simp at h

end VersionSync

namespace VersionSync

set_option maxHeartbeats 1600000 in
/-- If the lock writer rewrites the file, the reader returns the written
value on the rewritten line list, whose first line is the original first
line. -/
theorem writeReadLockLoopSome (pkg v : Str) (hvne : v ≠ []) (hvq : '"' ∉ v)
    (hvnl : noNL v) : ∀ (n : Nat) (ls : List Str), ls.length ≤ n →
    (∀ l ∈ ls, noNL (lineBody l)) →
    ∀ L, writeLockLoop pkg v ls = .ok (some L) →
    readLockLoop pkg (L.map lineBody) = .ok v ∧ L.head? = ls.head? := by
  intro n
  induction n with
  | zero =>
    intro ls hlen _ L h
    have hnil : ls = [] := List.length_eq_zero.mp (Nat.le_zero.mp hlen)
    subst hnil
    simp [writeLockLoop_nil] at h
  | succ n ih =>
    intro ls hlen hnl L h
    rcases ls with _ | ⟨l, rest⟩
    · simp [writeLockLoop_nil] at h
    · have hmem : ∀ x ∈ rest, noNL (lineBody x) := fun x hx => hnl x (by simp [hx])
      simp only [List.length_cons] at hlen
      have hdlen := length_dropWhile_le notMarker rest
      rw [writeLockLoop_cons] at h
      by_cases hm : strip l = lockMarker
      · rw [if_pos hm] at h
        by_cases hsel : blockName (rest.takeWhile notMarker) = some pkg ∧
            blockHasSource (rest.takeWhile notMarker) = false
        · rw [if_pos hsel] at h
          rcases hi : lastVersionIdx (rest.takeWhile notMarker) with _ | i
          · rw [hi] at h; simp at h
          · rw [hi] at h
            simp only [] at h
            have hlt := (lastVersionIdx_sound _ i hi).1
            have hsome := (lastVersionIdx_sound _ i hi).2
            obtain ⟨c, hc⟩ := Option.isSome_iff_exists.mp hsome
            have hmemv : (rest.takeWhile notMarker).getD i [] ∈ rest.takeWhile notMarker := by
              rw [List.getD_eq_getElem _ _ hlt]
              exact List.getElem_mem hlt
            have hnlv : noNL (lineBody ((rest.takeWhile notMarker).getD i [])) :=
              hmem _ (mem_of_mem_takeWhile notMarker rest _ hmemv)
            have hdet : lockVersionMatch
                (strip (lineBody ((rest.takeWhile notMarker).getD i []))) = some c := by
              rw [← strip_line_eq_strip_body]
              exact hc
            obtain ⟨lead, g, trail, hbeq, hstripb, hlead, htrail, htrailNL, hwm,
              hgsh, hcne, hcq⟩ := lock_detect_rewrite _ c hnlv hdet
            rw [hwm] at h
            simp only [] at h
            by_cases hov : c = v
            · rw [if_pos hov] at h; simp at h
            · rw [if_neg hov] at h
              simp only [Except.ok.injEq, Option.some.injEq] at h
              subst h
              obtain ⟨w2, w3, hgeq, hw2, hw3⟩ := hgsh
              have hv0 : str (r"version") = 'v' :: str (r"ersion") := rfl
              have hleadgNL : noNL (lead ++ g) := by
                apply noNL_of_sub _ _ _ hnlv
                intro ch hch
                rw [hbeq]
                simp at hch ⊢
                tauto
              have hqtrailNL : noNL ('"' :: trail) := by
                intro ch hch
                rcases List.mem_cons.mp hch with hch | hch
                · subst hch; exact ⟨by decide, by decide⟩
                · exact htrailNL ch hch
              have hnlbNL : noNL (lead ++ g ++ v ++ '"' :: trail) := by
                refine (noNL_append _ _).mpr ⟨(noNL_append _ _).mpr ⟨hleadgNL, hvnl⟩, hqtrailNL⟩
              have hpartsNl := line_parts (lead ++ g ++ v ++ '"' :: trail)
                (lineEnding ((rest.takeWhile notMarker).getD i [])) hnlbNL
                (by rcases lineEnding_cases ((rest.takeWhile notMarker).getD i [])
                      with hx | hx | hx | hx <;> tauto)
              have hassoc : lead ++ g ++ v ++ '"' :: trail =
                  lead ++ (g ++ v ++ ['"']) ++ trail := by simp
              have hhead : (g ++ v ++ ['"']).head? = some 'v' := by
                rw [hgeq, hv0]
                simp
              have hlast : (g ++ v ++ ['"']).getLast? = some '"' := by
                have hx : g ++ v ++ ['"'] = (g ++ v) ++ ['"'] := by simp
                rw [hx, List.getLast?_concat]
              have hsv : strip (lead ++ g ++ v ++ '"' :: trail ++
                  lineEnding ((rest.takeWhile notMarker).getD i [])) =
                  'v' :: (str (r"ersion") ++ w2 ++ ['='] ++ w3 ++ ['"'] ++ v ++ ['"']) := by
                rw [strip_line_eq_strip_body, hpartsNl.1, hassoc,
                  strip_eval lead _ trail hlead htrail 'v' hhead (by decide)
                    '"' hlast (by decide), hgeq, hv0]
                simp
              have hvm_nl : lockVersionMatch (strip (lead ++ g ++ v ++ '"' :: trail ++
                  lineEnding ((rest.takeWhile notMarker).getD i []))) = some v := by
                rw [strip_line_eq_strip_body, hpartsNl.1, hassoc]
                exact lock_detect_subst lead g trail v hlead htrail
                  ⟨w2, w3, hgeq, hw2, hw3⟩ hvne hvq
              have hnm_nl : lockNameMatch (strip (lead ++ g ++ v ++ '"' :: trail ++
                  lineEnding ((rest.takeWhile notMarker).getD i []))) = none :=
                lockNameMatch_of_head_v _ _ hsv
              have hsm_nl : sourceMark.isPrefixOf (strip (lead ++ g ++ v ++ '"' :: trail ++
                  lineEnding ((rest.takeWhile notMarker).getD i []))) = false :=
                sourceMark_of_head_v _ _ hsv
              have hnotMarker_nl : notMarker (lead ++ g ++ v ++ '"' :: trail ++
                  lineEnding ((rest.takeWhile notMarker).getD i [])) = true := by
                have hne : strip (lead ++ g ++ v ++ '"' :: trail ++
                    lineEnding ((rest.takeWhile notMarker).getD i [])) ≠ lockMarker := by
                  rw [hsv]
                  exact ne_lockMarker_of_head 'v' _ (by decide)
                simp only [notMarker, Bool.not_eq_true', beq_eq_false_iff_ne]
                exact hne
              have hsv_old : strip ((rest.takeWhile notMarker).getD i []) =
                  'v' :: (str (r"ersion") ++ w2 ++ ['='] ++ w3 ++ ['"'] ++ c ++ ['"']) := by
                rw [strip_line_eq_strip_body, hstripb, hgeq, hv0]
                simp
              have hnm_old : lockNameMatch (strip ((rest.takeWhile notMarker).getD i [])) =
                  none := lockNameMatch_of_head_v _ _ hsv_old
              have hsm_old : sourceMark.isPrefixOf
                  (strip ((rest.takeWhile notMarker).getD i [])) = false :=
                sourceMark_of_head_v _ _ hsv_old
              constructor
              · rw [List.map_append, List.map_cons, List.cons_append, readLockLoop_cons,
                  ← strip_line_eq_strip_body, if_pos hm]
                have hxs : ∀ x ∈ ((rest.takeWhile notMarker).set i
                    (lead ++ g ++ v ++ '"' :: trail ++
                      lineEnding ((rest.takeWhile notMarker).getD i []))).map lineBody,
                    notMarker x = true := by
                  intro x hx
                  obtain ⟨y, hy, hxy⟩ := List.mem_map.mp hx
                  subst hxy
                  rw [notMarker_lineBody]
                  rcases List.mem_or_eq_of_mem_set hy with hyb | hynl
                  · exact List.mem_takeWhile_imp hyb
                  · subst hynl
                    exact hnotMarker_nl
                have hys : ∀ y, ((rest.dropWhile notMarker).map lineBody).head? = some y →
                    notMarker y = false := by
                  intro y hy
                  rcases hrem : rest.dropWhile notMarker with _ | ⟨z, zs⟩
                  · rw [hrem] at hy; simp at hy
                  · rw [hrem] at hy
                    simp at hy
                    subst hy
                    rw [notMarker_lineBody]
                    apply dropWhile_head_false notMarker rest
                    rw [hrem]
                    rfl
                have htd := takeWhile_all_append notMarker _ _ hxs hys
                rw [htd.1, htd.2, blockName_map, blockHasSource_map, blockVersionVal_map,
                  blockName_set _ i _ hnm_old hnm_nl,
                  blockHasSource_set _ i _ hsm_old hsm_nl, if_pos hsel,
                  blockVersionVal_set _ i _ v hi hvm_nl]
              · simp
        · rw [if_neg hsel] at h
          rcases hr : writeLockLoop pkg v (rest.dropWhile notMarker) with e | o
          · rw [hr] at h; simp at h
          · rcases o with _ | ls'
            · rw [hr] at h; simp at h
            · rw [hr] at h
              simp only [Except.ok.injEq, Option.some.injEq] at h
              subst h
              obtain ⟨hread, hhead⟩ := ih (rest.dropWhile notMarker) (by omega)
                (fun x hx => hmem x (mem_of_mem_dropWhile notMarker rest x hx)) ls' hr
              constructor
              · rw [List.map_append, List.map_cons, List.cons_append, readLockLoop_cons,
                  ← strip_line_eq_strip_body, if_pos hm]
                have hxs : ∀ x ∈ (rest.takeWhile notMarker).map lineBody,
                    notMarker x = true := by
                  intro x hx
                  obtain ⟨y, hy, hxy⟩ := List.mem_map.mp hx
                  subst hxy
                  rw [notMarker_lineBody]
                  exact List.mem_takeWhile_imp hy
                have hys : ∀ y, (ls'.map lineBody).head? = some y →
                    notMarker y = false := by
                  intro y hy
                  rcases hls' : ls' with _ | ⟨z, zs⟩
                  · rw [hls'] at hy; simp at hy
                  · rw [hls'] at hy
                    simp at hy
                    subst hy
                    rw [notMarker_lineBody]
                    apply dropWhile_head_false notMarker rest
                    rw [← hhead, hls']
                    rfl
                have htd := takeWhile_all_append notMarker _ _ hxs hys
                rw [htd.1, htd.2, blockName_map, blockHasSource_map, if_neg hsel]
                exact hread
              · simp
      · rw [if_neg hm] at h
        rcases hr : writeLockLoop pkg v rest with e | o
        · rw [hr] at h; simp at h
        · rcases o with _ | ls'
          · rw [hr] at h; simp at h
          · rw [hr] at h
            simp only [Except.ok.injEq, Option.some.injEq] at h
            subst h
            obtain ⟨hread, _⟩ := ih rest (by omega) hmem ls' hr
            constructor
            · rw [List.map_cons, readLockLoop_cons, ← strip_line_eq_strip_body, if_neg hm]
              exact hread
            · simp

end VersionSync

namespace VersionSync

theorem svChar_not_space (c : Char) (h : svChar c = true) : pySpace c = false := by
  by_contra hc
  rw [Bool.not_eq_false] at hc
  unfold pySpace at hc
  simp at hc
  rcases hc with ((((h1 | h1) | h1) | h1) | h1) | h1 <;> subst h1 <;>
    exact absurd h (by decide)

/-- A valid semver value has no surrounding whitespace: `strip` keeps it. -/
theorem strip_semver (v : Str) (h : semverCheck v = true) : strip v = v := by
  have hch := semver_chars v h
  rcases hv : v with _ | ⟨x, t⟩
  · rfl
  · subst hv
    have hxs : pySpace x = false := svChar_not_space x (hch x (by simp))
    have hlast := List.getLast?_isSome.mpr (show (x :: t : Str) ≠ [] by simp)
    obtain ⟨y, hy⟩ := Option.isSome_iff_exists.mp hlast
    have hys : pySpace y = false :=
      svChar_not_space y (hch y (List.mem_of_mem_getLast? hy))
    have := strip_eval [] (x :: t) [] (by intro c hc; simp at hc)
      (by intro c hc; simp at hc) x rfl hxs y hy hys
    simpa using this

theorem objGet_objSet_self : ∀ (m : Jobj) (k : Str) (x : Json),
    objGet (objSet m k x) k = some x := by
  intro m k x
  induction m with
  | nil =>
    unfold objSet objGet
    rw [List.find?_cons_of_pos _ (by simp)]
    rfl
  | cons p rest ih =>
    obtain ⟨k0, w⟩ := p
    unfold objSet
    by_cases hk : k0 = k
    · rw [if_pos hk]
      unfold objGet
      rw [List.find?_cons_of_pos _ (by simp [hk])]
      rfl
    · rw [if_neg hk]
      unfold objGet at ih ⊢
      rw [List.find?_cons_of_neg _ (by simp [hk])]
      exact ih

theorem objGet_objSet_other : ∀ (m : Jobj) (k k' : Str) (x : Json), k' ≠ k →
    objGet (objSet m k x) k' = objGet m k' := by
  intro m k k' x hne
  induction m with
  | nil =>
    unfold objSet objGet
    rw [List.find?_cons_of_neg _ (by simp; exact fun hcon => hne hcon.symm)]
  | cons p rest ih =>
    obtain ⟨k0, w⟩ := p
    unfold objSet
    by_cases hk : k0 = k
    · rw [if_pos hk]
      subst hk
      unfold objGet
      rw [List.find?_cons_of_neg _ (by simp; exact fun hcon => hne hcon.symm),
        List.find?_cons_of_neg _ (by simp; exact fun hcon => hne hcon.symm)]
    · rw [if_neg hk]
      by_cases hk' : k0 = k'
      · subst hk'
        unfold objGet
        rw [List.find?_cons_of_pos _ (by simp), List.find?_cons_of_pos _ (by simp)]
      · unfold objGet at ih ⊢
        rw [List.find?_cons_of_neg _ (by simp [hk']),
          List.find?_cons_of_neg _ (by simp [hk'])]
        exact ih

/-- Reading a JSON document whose version field holds exactly the string
`v` (a semver, hence trimmed and nonempty) yields `v`. -/
theorem read_json_of_str (data : Jobj) (v : Str)
    (hget : objGet data (str (r"version")) = some (.str v))
    (hstrip : strip v = v) (hne : v ≠ []) : read_json_version data = .ok v := by
  unfold read_json_version objGetD
  rw [hget]
  simp only [Option.getD_some, pyStr]
  rw [hstrip, if_neg hne]

/-- The facts `linesWF_replace` needs about a surgically rewritten line. -/
theorem replaced_line_facts (vl g1 old g3 v : Str)
    (hok : lineOk vl)
    (hm : writeVersionMatch (lineBody vl) = some (g1, old, g3))
    (hvnl : noNL v) :
    lineOk (g1 ++ v ++ g3 ++ lineEnding vl) ∧
    lineEnding (g1 ++ v ++ g3 ++ lineEnding vl) = lineEnding vl ∧
    (g1 ++ v ++ g3 ++ lineEnding vl).head? = vl.head? := by
  obtain ⟨lead, w2, w3, tail, hbeq, hG1, hG3, htailNL, hlead, hw2, hw3, hone, hoq⟩ :=
    writeVersionMatch_sound (lineBody vl) g1 old g3 hok.2 hm
  have hg1ne : g1 ≠ [] := by rw [hG1]; simp
  have hnlg : noNL (g1 ++ old ++ g3) := by rw [← hbeq]; exact hok.2
  have hg1NL : noNL g1 := ((noNL_append _ _).mp ((noNL_append _ _).mp hnlg).1).1
  have hg3NL : noNL g3 := ((noNL_append _ _).mp hnlg).2
  have hbodyNL : noNL (g1 ++ v ++ g3) :=
    (noNL_append _ _).mpr ⟨(noNL_append _ _).mpr ⟨hg1NL, hvnl⟩, hg3NL⟩
  have hparts := line_parts (g1 ++ v ++ g3) (lineEnding vl) hbodyNL
    (by rcases lineEnding_cases vl with hx | hx | hx | hx <;> tauto)
  refine ⟨⟨?_, ?_⟩, hparts.2, ?_⟩
  · simp [List.append_eq_nil, hg1ne]
  · unfold lineOk at *
    rw [hparts.1]
    exact hbodyNL
  · have h1 : (g1 ++ v ++ g3 ++ lineEnding vl).head? = g1.head? := by
      rw [List.append_assoc, List.append_assoc, List.head?_append_of_ne_nil _ hg1ne]
    have hbeq2 : (split_line_ending vl).1 = g1 ++ old ++ g3 := hbeq
    have h2 : vl.head? = g1.head? := by
      conv_lhs => rw [← sle_join vl, hbeq2]
      rw [List.append_assoc, List.append_assoc, List.head?_append_of_ne_nil _ hg1ne]
    rw [h1, h2]

end VersionSync

namespace VersionSync

theorem jsonFieldEqStr_true (j : Option Json) (v : Str)
    (h : jsonFieldEqStr j v = true) : j = some (.str v) := by
  unfold jsonFieldEqStr at h
  rcases j with _ | j
  · simp at h
  · rcases j with _ | bb | nn | t | items | fs <;> simp at h
    rw [h]

/-- Reading a package-lock document whose two version fields hold exactly
the string `v` yields `v`. -/
theorem read_package_lock_of_str (data pfs rfs : Jobj) (v : Str)
    (hp : objGet data (str (r"packages")) = some (.obj pfs))
    (hq : objGet pfs (str (r"")) = some (.obj rfs))
    (h1 : objGet data (str (r"version")) = some (.str v))
    (h2 : objGet rfs (str (r"version")) = some (.str v))
    (hstrip : strip v = v) (hne : v ≠ []) :
    read_package_lock_version data = .ok v := by
  unfold read_package_lock_version objGetD
  simp only [hp, Option.getD_some, asObj]
  simp only [hq, Option.getD_some, asObj]
  simp only [h1, h2, Option.getD_some, pyStr]
  rw [hstrip, if_neg hne]
  simp [hne]

end VersionSync

namespace VersionSync

/-- C3: for every handler, after a successful write of a syntactically
valid semver V (whether it reports a change or "no change"), reading the
resulting document returns exactly V. -/
theorem C3_write_then_read :
    (∀ (content v out : Str) (b : Bool), semverCheck v = true →
      write_toml_package_version content v = .ok (b, out) →
      read_toml_package_version out = .ok v) ∧
    (∀ (content packageName v out : Str) (b : Bool), semverCheck v = true →
      write_lock_package_version content packageName v = .ok (b, out) →
      read_lock_package_version out packageName = .ok v) ∧
    (∀ (data : Jobj) (v : Str), semverCheck v = true →
      read_json_version (write_json_version data v).2 = .ok v) ∧
    (∀ (data data2 : Jobj) (v : Str) (b : Bool), semverCheck v = true →
      write_package_lock_version data v = .ok (b, data2) →
      read_package_lock_version data2 = .ok v) := by
  refine ⟨?_, ?_, ?_, ?_⟩
  · intro content v out b hsv h
    obtain ⟨hvne, hvq, hvnl⟩ := semver_value_facts v hsv
    have hok : ∀ l ∈ splitLinesKeep content, lineOk l := fun l hl =>
      linesWF_mem _ l (splitLinesKeep_WF content) hl
    unfold write_toml_package_version at h
    unfold read_toml_package_version splitLines
    rcases hr : writeTomlLoop v false (splitLinesKeep content) with e | o
    · rw [hr] at h; simp at h
    · rcases o with _ | L
      · rw [hr] at h
        simp only [Except.ok.injEq, Prod.mk.injEq] at h
        rw [← h.2]
        exact writeReadTomlLoopNone v _ false (fun l hl => (hok l hl).2) hr
      · rw [hr] at h
        simp only [Except.ok.injEq, Prod.mk.injEq] at h
        rw [← h.2]
        obtain ⟨A, vl, B, g1, old, g3, hls, hL, hm, hov⟩ :=
          writeTomlLoop_frame _ v false L hr
        have hvlmem : vl ∈ splitLinesKeep content := by rw [hls]; simp
        have hrlf := replaced_line_facts vl g1 old g3 v (hok vl hvlmem) hm hvnl
        have hwfL : linesWF L := by
          rw [hL]
          refine linesWF_replace A B vl _ ?_ hrlf.1 hrlf.2.1 hrlf.2.2
          rw [← hls]
          exact splitLinesKeep_WF content
        rw [splitLinesKeep_of_WF L hwfL]
        exact writeReadTomlLoopSome v hvne hvq hvnl _ false L
          (fun l hl => (hok l hl).2) hr
  · intro content packageName v out b hsv h
    obtain ⟨hvne, hvq, hvnl⟩ := semver_value_facts v hsv
    have hok : ∀ l ∈ splitLinesKeep content, lineOk l := fun l hl =>
      linesWF_mem _ l (splitLinesKeep_WF content) hl
    unfold write_lock_package_version at h
    unfold read_lock_package_version splitLines
    rcases hr : writeLockLoop packageName v (splitLinesKeep content) with e | o
    · rw [hr] at h; simp at h
    · rcases o with _ | L
      · rw [hr] at h
        simp only [Except.ok.injEq, Prod.mk.injEq] at h
        rw [← h.2]
        exact writeReadLockLoopNone packageName v (splitLinesKeep content).length _
          Nat.le.refl (fun l hl => (hok l hl).2) hr
      · rw [hr] at h
        simp only [Except.ok.injEq, Prod.mk.injEq] at h
        rw [← h.2]
        obtain ⟨A, vl, B, g1, old, g3, hls, hL, hm, hov⟩ :=
          writeLockLoop_frame (splitLinesKeep content).length (splitLinesKeep content)
            packageName v L Nat.le.refl hr
        have hvlmem : vl ∈ splitLinesKeep content := by rw [hls]; simp
        have hrlf := replaced_line_facts vl g1 old g3 v (hok vl hvlmem) hm hvnl
        have hwfL : linesWF L := by
          rw [hL]
          refine linesWF_replace A B vl _ ?_ hrlf.1 hrlf.2.1 hrlf.2.2
          rw [← hls]
          exact splitLinesKeep_WF content
        rw [splitLinesKeep_of_WF L hwfL]
        exact (writeReadLockLoopSome packageName v hvne hvq hvnl
          (splitLinesKeep content).length _ Nat.le.refl
          (fun l hl => (hok l hl).2) L hr).1
  · intro data v hsv
    obtain ⟨hvne, _, _⟩ := semver_value_facts v hsv
    have hstrip := strip_semver v hsv
    unfold write_json_version
    by_cases hfe : jsonFieldEqStr (objGet data (str (r"version"))) v = true
    · rw [if_pos hfe]
      exact read_json_of_str data v (jsonFieldEqStr_true _ v hfe) hstrip hvne
    · rw [if_neg hfe]
      exact read_json_of_str _ v (objGet_objSet_self data _ (.str v)) hstrip hvne
  · intro data data2 v b hsv h
    obtain ⟨hvne, _, _⟩ := semver_value_facts v hsv
    have hstrip := strip_semver v hsv
    unfold write_package_lock_version at h
    simp only [] at h
    by_cases hfe : jsonFieldEqStr (objGet data (str (r"version"))) v = true
    · rw [hfe] at h
      simp only [Bool.not_true, Bool.false_eq_true, if_false] at h
      have hget1 : objGet data (str (r"version")) = some (.str v) :=
        jsonFieldEqStr_true _ v hfe
      rcases hp : objGet data (str (r"packages")) with _ | j
      · rw [hp] at h
        exact absurd h (by simp)
      · rw [hp] at h
        rcases j with _ | bb | nn | t | items | pfs
        · exact absurd h (by simp)
        · exact absurd h (by simp)
        · exact absurd h (by simp)
        · exact absurd h (by simp)
        · exact absurd h (by simp)
        · simp only [] at h
          rcases hq : objGet pfs (str (r"")) with _ | j2
          · rw [hq] at h
            exact absurd h (by simp)
          · rw [hq] at h
            rcases j2 with _ | bb2 | nn2 | t2 | items2 | rfs
            · exact absurd h (by simp)
            · exact absurd h (by simp)
            · exact absurd h (by simp)
            · exact absurd h (by simp)
            · exact absurd h (by simp)
            · simp only [] at h
              by_cases hfe2 : jsonFieldEqStr (objGet rfs (str (r"version"))) v = true
              · rw [hfe2] at h
                simp only [Bool.not_true, Bool.false_eq_true, if_false] at h
                simp only [Except.ok.injEq, Prod.mk.injEq] at h
                rw [← h.2]
                exact read_package_lock_of_str data pfs rfs v hp hq hget1
                  (jsonFieldEqStr_true _ v hfe2) hstrip hvne
              · have hfe2F : jsonFieldEqStr (objGet rfs (str (r"version"))) v = false := by
                  rwa [Bool.not_eq_true] at hfe2
                rw [hfe2F] at h
                simp only [Bool.not_false, if_true] at h
                simp only [Except.ok.injEq, Prod.mk.injEq] at h
                rw [← h.2]
                refine read_package_lock_of_str _
                  (objSet pfs (str (r"")) (Json.obj (objSet rfs (str (r"version")) (Json.str v))))
                  (objSet rfs (str (r"version")) (Json.str v)) v ?_ ?_ ?_ ?_ hstrip hvne
                · exact objGet_objSet_self data _ _
                · exact objGet_objSet_self pfs _ _
                · rw [objGet_objSet_other data _ _ _ (by decide)]
                  exact hget1
                · exact objGet_objSet_self rfs _ _
    · have hfeF : jsonFieldEqStr (objGet data (str (r"version"))) v = false := by
        rwa [Bool.not_eq_true] at hfe
      rw [hfeF] at h
      simp only [Bool.not_false, if_true] at h
      have hget1 : objGet (objSet data (str (r"version")) (.str v)) (str (r"version")) =
          some (.str v) := objGet_objSet_self data _ _
      rcases hp : objGet (objSet data (str (r"version")) (.str v))
          (str (r"packages")) with _ | j
      · rw [hp] at h
        exact absurd h (by simp)
      · rw [hp] at h
        rcases j with _ | bb | nn | t | items | pfs
        · exact absurd h (by simp)
        · exact absurd h (by simp)
        · exact absurd h (by simp)
        · exact absurd h (by simp)
        · exact absurd h (by simp)
        · simp only [] at h
          rcases hq : objGet pfs (str (r"")) with _ | j2
          · rw [hq] at h
            exact absurd h (by simp)
          · rw [hq] at h
            rcases j2 with _ | bb2 | nn2 | t2 | items2 | rfs
            · exact absurd h (by simp)
            · exact absurd h (by simp)
            · exact absurd h (by simp)
            · exact absurd h (by simp)
            · exact absurd h (by simp)
            · simp only [] at h
              by_cases hfe2 : jsonFieldEqStr (objGet rfs (str (r"version"))) v = true
              · rw [hfe2] at h
                simp only [Bool.not_true, Bool.false_eq_true, if_false] at h
                simp only [Except.ok.injEq, Prod.mk.injEq] at h
                rw [← h.2]
                exact read_package_lock_of_str _ pfs rfs v hp hq hget1
                  (jsonFieldEqStr_true _ v hfe2) hstrip hvne
              · have hfe2F : jsonFieldEqStr (objGet rfs (str (r"version"))) v = false := by
                  rwa [Bool.not_eq_true] at hfe2
                rw [hfe2F] at h
                simp only [Bool.not_false, if_true] at h
                simp only [Except.ok.injEq, Prod.mk.injEq] at h
                rw [← h.2]
                refine read_package_lock_of_str _
                  (objSet pfs (str (r"")) (Json.obj (objSet rfs (str (r"version")) (Json.str v))))
                  (objSet rfs (str (r"version")) (Json.str v)) v ?_ ?_ ?_ ?_ hstrip hvne
                · exact objGet_objSet_self _ _ _
                · exact objGet_objSet_self pfs _ _
                · rw [objGet_objSet_other _ _ _ _ (by decide)]
                  exact hget1
                · exact objGet_objSet_self rfs _ _

end VersionSync

namespace VersionSync

/-- Witness for C3: the write-then-read law applied at concrete documents
of each of the four formats, writing the valid semver 2.0.0. -/
theorem C3_write_then_read_witness :
    read_toml_package_version (str (r#"[package]
name = "x"
version = "2.0.0"
"#)) = .ok (str (r"2.0.0")) ∧
    read_lock_package_version (str (r#"[[package]]
name = "opencode-studio"
version = "2.0.0"
"#)) (str (r"opencode-studio")) = .ok (str (r"2.0.0")) ∧
    read_json_version (write_json_version jsonGood (str (r"2.0.0"))).2 =
      .ok (str (r"2.0.0")) ∧
    read_package_lock_version [(str (r"version"), Json.str (str (r"2.0.0"))),
      (str (r"packages"), Json.obj [(str (r""), Json.obj
        [(str (r"version"), Json.str (str (r"2.0.0")))])])] = .ok (str (r"2.0.0")) :=
  ⟨C3_write_then_read.1 tomlGood (str (r"2.0.0")) _ true (by decide) (by rfl),
   C3_write_then_read.2.1 cargoLockGood (str (r"opencode-studio")) (str (r"2.0.0")) _
     true (by decide) (by rfl),
   C3_write_then_read.2.2.1 jsonGood (str (r"2.0.0")) (by decide),
   C3_write_then_read.2.2.2 packageLockGood _ (str (r"2.0.0")) true (by decide) (by rfl)⟩

end VersionSync

namespace VersionSync

/-! ### C1: block selection of the lock reader and writer -/

theorem blockSelected_iff (pkg : Str) (body : List Str) :
    blockSelected pkg body = true ↔
      blockName body = some pkg ∧ blockHasSource body = false := by
  unfold blockSelected
  simp

/-- Every line of a block produced by `lockBlocks` is a line of the input. -/
theorem lockBlocks_sub : ∀ (n : Nat) (ls : List Str), ls.length ≤ n →
    ∀ body ∈ lockBlocks ls, ∀ x ∈ body, x ∈ ls := by
  intro n
  induction n with
  | zero =>
    intro ls hlen body hbody x hx
    have hnil : ls = [] := List.length_eq_zero.mp (Nat.le_zero.mp hlen)
    subst hnil
    simp [lockBlocks_nil] at hbody
  | succ n ih =>
    intro ls hlen body hbody x hx
    rcases ls with _ | ⟨l, rest⟩
    · simp [lockBlocks_nil] at hbody
    · simp only [List.length_cons] at hlen
      have hdlen := length_dropWhile_le notMarker rest
      rw [lockBlocks_cons] at hbody
      by_cases hm : strip l = lockMarker
      · rw [if_pos hm] at hbody
        rcases List.mem_cons.mp hbody with hbody | hbody
        · subst hbody
          exact List.mem_cons_of_mem l (mem_of_mem_takeWhile notMarker rest x hx)
        · have := ih (rest.dropWhile notMarker) (by omega) body hbody x hx
          exact List.mem_cons_of_mem l (mem_of_mem_dropWhile notMarker rest x this)
      · rw [if_neg hm] at hbody
        exact List.mem_cons_of_mem l (ih rest (by omega) body hbody x hx)

/-- The lock reader is exactly the spec's block-selection rule: scan the
blocks in order and take the first whose name matches with no source line. -/
theorem readLockLoop_blocks (pkg : Str) : ∀ (n : Nat) (ls : List Str), ls.length ≤ n →
    readLockLoop pkg ls =
      (match (lockBlocks ls).find? (blockSelected pkg) with
       | none => .error (.cannotFindLockPackage pkg)
       | some body =>
         match blockVersionVal body with
         | none => .error (.missingLockVersion pkg)
         | some v => .ok v) := by
  intro n
  induction n with
  | zero =>
    intro ls hlen
    have hnil : ls = [] := List.length_eq_zero.mp (Nat.le_zero.mp hlen)
    subst hnil
    rfl
  | succ n ih =>
    intro ls hlen
    rcases ls with _ | ⟨l, rest⟩
    · rfl
    · simp only [List.length_cons] at hlen
      have hdlen := length_dropWhile_le notMarker rest
      rw [readLockLoop_cons, lockBlocks_cons]
      by_cases hm : strip l = lockMarker
      · rw [if_pos hm, if_pos hm]
        by_cases hb : blockSelected pkg (rest.takeWhile notMarker) = true
        · rw [List.find?_cons_of_pos _ hb,
            if_pos ((blockSelected_iff pkg _).mp hb)]
        · rw [List.find?_cons_of_neg _ (by simp [hb]),
            if_neg (fun hcon => hb ((blockSelected_iff pkg _).mpr hcon))]
          exact ih (rest.dropWhile notMarker) (by omega)
      · rw [if_neg hm, if_neg hm]
        exact ih rest (by omega)

/-- The lock writer follows the same block-selection rule as the reader,
and its outcome is decided by the first selected block alone. -/
theorem writeLockLoop_blocks (pkg v : Str) : ∀ (n : Nat) (ls : List Str), ls.length ≤ n →
    ((lockBlocks ls).find? (blockSelected pkg) = none →
      writeLockLoop pkg v ls = .error (.cannotUpdateLockPackage pkg)) ∧
    (∀ body, (lockBlocks ls).find? (blockSelected pkg) = some body →
      (lastVersionIdx body = none →
        writeLockLoop pkg v ls = .error (.missingLockVersion pkg)) ∧
      (∀ i g1 old g3, lastVersionIdx body = some i →
        writeVersionMatch (lineBody (body.getD i [])) = some (g1, old, g3) →
        (old = v → writeLockLoop pkg v ls = .ok none) ∧
        (old ≠ v → ∃ L, writeLockLoop pkg v ls = .ok (some L)))) := by
  intro n
  induction n with
  | zero =>
    intro ls hlen
    have hnil : ls = [] := List.length_eq_zero.mp (Nat.le_zero.mp hlen)
    subst hnil
    exact ⟨fun _ => rfl, fun body hbody => by simp [lockBlocks_nil] at hbody⟩
  | succ n ih =>
    intro ls hlen
    rcases ls with _ | ⟨l, rest⟩
    · exact ⟨fun _ => rfl, fun body hbody => by simp [lockBlocks_nil] at hbody⟩
    · simp only [List.length_cons] at hlen
      have hdlen := length_dropWhile_le notMarker rest
      by_cases hm : strip l = lockMarker
      · by_cases hb : blockSelected pkg (rest.takeWhile notMarker) = true
        · constructor
          · intro hfind
            rw [lockBlocks_cons, if_pos hm, List.find?_cons_of_pos _ hb] at hfind
            simp at hfind
          · intro body hbody
            rw [lockBlocks_cons, if_pos hm, List.find?_cons_of_pos _ hb] at hbody
            have hbeq : rest.takeWhile notMarker = body := by simpa using hbody
            subst hbeq
            constructor
            · intro hlvi
              rw [writeLockLoop_cons, if_pos hm,
                if_pos ((blockSelected_iff pkg _).mp hb), hlvi]
            · intro i g1 old g3 hi hwm
              constructor
              · intro hov
                rw [writeLockLoop_cons, if_pos hm,
                  if_pos ((blockSelected_iff pkg _).mp hb)]
                simp only [hi, hwm]
                rw [if_pos hov]
              · intro hov
                refine ⟨l :: ((rest.takeWhile notMarker).set i
                  (g1 ++ v ++ g3 ++ lineEnding ((rest.takeWhile notMarker).getD i []))) ++
                  rest.dropWhile notMarker, ?_⟩
                rw [writeLockLoop_cons, if_pos hm,
                  if_pos ((blockSelected_iff pkg _).mp hb)]
                simp only [hi, hwm]
                rw [if_neg hov]
        · have hnotsel : ¬(blockName (rest.takeWhile notMarker) = some pkg ∧
              blockHasSource (rest.takeWhile notMarker) = false) :=
            fun hcon => hb ((blockSelected_iff pkg _).mpr hcon)
          obtain ⟨ihn, ihs⟩ := ih (rest.dropWhile notMarker) (by omega)
          constructor
          · intro hfind
            rw [lockBlocks_cons, if_pos hm, List.find?_cons_of_neg _ (by simp [hb])]
              at hfind
            rw [writeLockLoop_cons, if_pos hm, if_neg hnotsel, ihn hfind]
          · intro body hbody
            rw [lockBlocks_cons, if_pos hm, List.find?_cons_of_neg _ (by simp [hb])]
              at hbody
            obtain ⟨ihbn, ihbs⟩ := ihs body hbody
            constructor
            · intro hlvi
              rw [writeLockLoop_cons, if_pos hm, if_neg hnotsel, ihbn hlvi]
            · intro i g1 old g3 hi hwm
              obtain ⟨ihb1, ihb2⟩ := ihbs i g1 old g3 hi hwm
              constructor
              · intro hov
                rw [writeLockLoop_cons, if_pos hm, if_neg hnotsel, ihb1 hov]
              · intro hov
                obtain ⟨L, hL⟩ := ihb2 hov
                refine ⟨l :: rest.takeWhile notMarker ++ L, ?_⟩
                rw [writeLockLoop_cons, if_pos hm, if_neg hnotsel, hL]
      · obtain ⟨ihn, ihs⟩ := ih rest (by omega)
        constructor
        · intro hfind
          rw [lockBlocks_cons, if_neg hm] at hfind
          rw [writeLockLoop_cons, if_neg hm, ihn hfind]
        · intro body hbody
          rw [lockBlocks_cons, if_neg hm] at hbody
          obtain ⟨ihbn, ihbs⟩ := ihs body hbody
          constructor
          · intro hlvi
            rw [writeLockLoop_cons, if_neg hm, ihbn hlvi]
          · intro i g1 old g3 hi hwm
            obtain ⟨ihb1, ihb2⟩ := ihbs i g1 old g3 hi hwm
            constructor
            · intro hov
              rw [writeLockLoop_cons, if_neg hm, ihb1 hov]
            · intro hov
              obtain ⟨L, hL⟩ := ihb2 hov
              refine ⟨l :: L, ?_⟩
              rw [writeLockLoop_cons, if_neg hm, hL]

end VersionSync

namespace VersionSync

/-- C1: in the named-block lock format the selected block is the first
block — scanning the `[[package]]`-delimited blocks in order — whose
extracted name equals the requested package and which has no `source`
line; a name-matching block with a `source` line is never selected.  The
reader returns that block's (last) version value or a missing-version
error; the writer errors, reports "no change", or rewrites according to
that same block alone, and errors with the cannot-update error exactly
when no block is selected. -/
theorem C1_lock_block_selection :
    (∀ content packageName : Str,
      ((lockBlocks (splitLines content)).find? (blockSelected packageName) = none →
        read_lock_package_version content packageName =
          .error (.cannotFindLockPackage packageName)) ∧
      (∀ body, (lockBlocks (splitLines content)).find? (blockSelected packageName) =
          some body →
        read_lock_package_version content packageName =
          (match blockVersionVal body with
           | none => .error (.missingLockVersion packageName)
           | some v => .ok v))) ∧
    (∀ content packageName newVersion : Str,
      ((lockBlocks (splitLinesKeep content)).find? (blockSelected packageName) = none →
        write_lock_package_version content packageName newVersion =
          .error (.cannotUpdateLockPackage packageName)) ∧
      (∀ body, (lockBlocks (splitLinesKeep content)).find? (blockSelected packageName) =
          some body →
        (lastVersionIdx body = none →
          write_lock_package_version content packageName newVersion =
            .error (.missingLockVersion packageName)) ∧
        (∀ i, lastVersionIdx body = some i →
          ∃ g1 old g3, writeVersionMatch (lineBody (body.getD i [])) = some (g1, old, g3) ∧
            (old = newVersion →
              write_lock_package_version content packageName newVersion =
                .ok (false, content)) ∧
            (old ≠ newVersion → ∃ out,
              write_lock_package_version content packageName newVersion =
                .ok (true, out))))) := by
  constructor
  · intro content packageName
    constructor
    · intro hfind
      unfold read_lock_package_version
      rw [readLockLoop_blocks packageName (splitLines content).length _ Nat.le.refl, hfind]
    · intro body hbody
      unfold read_lock_package_version
      rw [readLockLoop_blocks packageName (splitLines content).length _ Nat.le.refl, hbody]
  · intro content packageName newVersion
    obtain ⟨wn, ws⟩ := writeLockLoop_blocks packageName newVersion
      (splitLinesKeep content).length (splitLinesKeep content) Nat.le.refl
    constructor
    · intro hfind
      unfold write_lock_package_version
      rw [wn hfind]
    · intro body hbody
      obtain ⟨wbn, wbs⟩ := ws body hbody
      constructor
      · intro hlvi
        unfold write_lock_package_version
        rw [wbn hlvi]
      · intro i hi
        have hmem_body : body ∈ lockBlocks (splitLinesKeep content) :=
          List.mem_of_find?_eq_some hbody
        have hsub := lockBlocks_sub (splitLinesKeep content).length _ Nat.le.refl
          body hmem_body
        have hlt := (lastVersionIdx_sound body i hi).1
        have hsome := (lastVersionIdx_sound body i hi).2
        obtain ⟨c, hc⟩ := Option.isSome_iff_exists.mp hsome
        have hmemv : body.getD i [] ∈ body := by
          rw [List.getD_eq_getElem _ _ hlt]
          exact List.getElem_mem hlt
        have hnlv : noNL (lineBody (body.getD i [])) :=
          (linesWF_mem _ _ (splitLinesKeep_WF content) (hsub _ hmemv)).2
        have hdet : lockVersionMatch (strip (lineBody (body.getD i []))) = some c := by
          rw [← strip_line_eq_strip_body]
          exact hc
        obtain ⟨lead, g, trail, _, _, _, _, _, hwm, _, _, _⟩ :=
          lock_detect_rewrite _ c hnlv hdet
        obtain ⟨w1, w2⟩ := wbs i (lead ++ g) c ('"' :: trail) hi hwm
        refine ⟨lead ++ g, c, '"' :: trail, hwm, ?_, ?_⟩
        · intro hov
          unfold write_lock_package_version
          rw [w1 hov]
        · intro hov
          obtain ⟨L, hL⟩ := w2 hov
          refine ⟨L.flatten, ?_⟩
          unfold write_lock_package_version
          rw [hL]

/-- Witness for C1: block selection evaluated on a concrete lock file with
one source-free block named opencode-studio. -/
theorem C1_lock_block_selection_witness :
    read_lock_package_version cargoLockGood (str (r"opencode-studio")) =
      .ok (str (r"1.2.3")) ∧
    write_lock_package_version cargoLockGood (str (r"opencode-studio"))
      (str (r"1.2.3")) = .ok (false, cargoLockGood) := by
  constructor
  · have h := (C1_lock_block_selection.1 cargoLockGood (str (r"opencode-studio"))).2
      [str (r#"name = "opencode-studio""#), str (r#"version = "1.2.3""#)] (by rfl)
    rw [h]
    rfl
  · obtain ⟨g1, old, g3, hwm, heq, _⟩ :=
      ((C1_lock_block_selection.2 cargoLockGood (str (r"opencode-studio"))
        (str (r"1.2.3"))).2
        [str (r#"name = "opencode-studio""#) ++ ['\n'],
         str (r#"version = "1.2.3""#) ++ ['\n']] (by rfl)).2 1 (by rfl)
    have hconc : writeVersionMatch (lineBody
        (([str (r#"name = "opencode-studio""#) ++ ['\n'],
           str (r#"version = "1.2.3""#) ++ ['\n']] : List Str).getD 1 [])) =
        some (str (r#"version = ""#), str (r"1.2.3"), ['"']) := by rfl
    rw [hwm] at hconc
    simp only [Option.some.injEq, Prod.mk.injEq] at hconc
    exact heq hconc.2.1

end VersionSync
